import Mathlib

/-!
# gee: routing trie, router, handler chain and group dispatch

A shallow embedding of the Go package `gee` (`trie.go`, `router.go`,
`context.go`, `gee.go`, `recovery.go`) and theorems about it.

Conventions of the embedding.

* A Go `string` is a list of characters (`Str`); `""` is `[]`, `s[0]` is the
  head, `s[1:]` the tail, `+` is `++`.
* A Go `map[string]V` is a total lookup function `Str → Option V`; an
  assignment `m[k] = v` is `Function.update m k (some v)`.
* The trie is a tree of pointers that are never shared; it is embedded as a
  tree value.  A method that mutates a node in place returns the new node.
* The pair `(parts, height)` that `insert` and `search` pass down is embedded
  as the remaining suffix `parts[height:]`, so `len(parts) == height` reads
  `parts = []` and `parts[height]` is the head of the suffix.
* A run-time panic of `getRoute` (index out of range) is the result `none`.
-/

namespace Gee

/-- Go strings, as lists of characters. -/
abbrev Str := List Char

/-! ## Library functions of package `strings` -/

/-- Go `strings.Split(s, sep)` for a one-character separator: the pieces of `s`
between consecutive separators; never the empty list. -/
def Split (sep : Char) : Str → List Str
  | [] => [[]]
  | c :: cs =>
    if c = sep then [] :: Split sep cs
    else
      match Split sep cs with
      | [] => [[c]]
      | w :: ws => (c :: w) :: ws

/-- Go `strings.Join(elems, sep)`. -/
def Join (sep : Str) : List Str → Str
  | [] => []
  | [a] => a
  | a :: b :: rest => a ++ sep ++ Join sep (b :: rest)

/-- Go `strings.HasPrefix(s, p)`. -/
def HasPrefix (s p : Str) : Bool := p.isPrefixOf s

/-! ## router.go: parsePattern -/

/-- The loop of `parsePattern` over the pieces `vs`: keep the non-empty items,
stop right after the first kept item whose first character is `*`. -/
def parseItems : List Str → List Str
  | [] => []
  | item :: vs =>
    if item ≠ [] then
      if item.head? = some '*' then [item] else item :: parseItems vs
    else parseItems vs

/-- Go `parsePattern(pattern)`. -/
def parsePattern (pattern : Str) : List Str := parseItems (Split '/' pattern)

/-! ## trie.go -/

/-- Go `type node struct { pattern, part string; children []*node; isWild bool }`. -/
inductive node where
  | mk (pattern : Str) (part : Str) (children : List node) (isWild : Bool)

namespace node

/-- Field `pattern`. -/
def pattern : node → Str
  | mk p _ _ _ => p

/-- Field `part`. -/
def part : node → Str
  | mk _ p _ _ => p

/-- Field `children`. -/
def children : node → List node
  | mk _ _ cs _ => cs

/-- Field `isWild`. -/
def isWild : node → Bool
  | mk _ _ _ w => w

/-- The test `child.part == part || child.isWild` of `matchChild` and
`matchChildren`. -/
def matchesPart (part : Str) (child : node) : Bool :=
  decide (child.part = part) || child.isWild

/-- Go `(n *node) matchChild(part)`: the first matching child, `none` for nil. -/
def matchChild (n : node) (part : Str) : Option node :=
  n.children.find? (matchesPart part)

/-- Go `(n *node) matchChildren(part)`: all matching children, in order. -/
def matchChildren (n : node) (part : Str) : List node :=
  n.children.filter (matchesPart part)

/-- The in-place update of the child that `matchChild` returned: the first
element satisfying `p` is replaced by its image under `f`. -/
def updateFirst (p : node → Bool) (f : node → node) : List node → List node
  | [] => []
  | c :: cs => if p c then f c :: cs else c :: updateFirst p f cs

/-- The node `&node{part: part, isWild: part[0] == ':' || part[0] == '*'}` that
`insert` creates.  Go panics on `part[0]` for an empty `part`; `addRoute` only
passes segments produced by `parsePattern`, which are never empty. -/
def newChild (part : Str) : node :=
  mk [] part [] (decide (part.head? = some ':') || decide (part.head? = some '*'))

/-- Go `(n *node) insert(pattern, parts, height)`, on the suffix
`parts[height:]`; the result is the node after the mutation. -/
def insert (pattern : Str) : List Str → node → node
  | [], n => mk pattern n.part n.children n.isWild
  | part :: rest, n =>
    match n.matchChild part with
    | some _ =>
      mk n.pattern n.part
        (updateFirst (matchesPart part) (insert pattern rest) n.children) n.isWild
    | none =>
      mk n.pattern n.part (n.children ++ [insert pattern rest (newChild part)]) n.isWild

/-- Go `(n *node) search(parts, height)`, on the suffix `parts[height:]`;
`none` for nil. -/
def search : List Str → node → Option node
  | [], n => if n.pattern = [] then none else some n
  | part :: rest, n =>
    if HasPrefix n.part ['*'] then
      if n.pattern = [] then none else some n
    else
      (n.matchChildren part).findSome? (search rest)

end node

/-! ## router.go: router, addRoute, getRoute -/

/-- Go `type router struct { roots map[string]*node; Handlers map[string]HandlerFunc }`,
for handlers of type `H`. -/
structure router (H : Type) where
  /-- One trie per request method. -/
  roots : Str → Option node
  /-- Handler table, keyed by `method + "-" + pattern`. -/
  Handlers : Str → Option H

/-- Go `newRouter()`. -/
def newRouter {H : Type} : router H :=
  { roots := fun _ => none, Handlers := fun _ => none }

/-- The key `method + "-" + pattern` of the handler table. -/
def routeKey (method pattern : Str) : Str := method ++ ['-'] ++ pattern

/-- Go `(r *router) addRoute(method, pattern, handler)`. -/
def router.addRoute {H : Type} (r : router H) (method pattern : Str) (handler : H) :
    router H :=
  let parts := parsePattern pattern
  let key := routeKey method pattern
  let root :=
    match r.roots method with
    | some root => root
    | none => node.mk [] [] [] false
  { roots := Function.update r.roots method (some (root.insert pattern parts))
    Handlers := Function.update r.Handlers key (some handler) }

/-- Parameter maps `map[string]string`. -/
abbrev Params := Str → Option Str

/-- The loop `for index, part := range parts` of `getRoute`, entered at
position `index` with `parts` the segments still to visit; `none` when an
index is out of range. -/
def bindParams (searchParts : List Str) : List Str → Nat → Params → Option Params
  | [], _, params => some params
  | part :: rest, index, params =>
    match part with
    | [] => none
    | ch :: name =>
      let bound : Option Params :=
        if ch = ':' then
          (searchParts.get? index).map fun v => Function.update params name (some v)
        else some params
      bound.bind fun params =>
        if ch = '*' ∧ 1 < part.length then
          if index ≤ searchParts.length then
            some (Function.update params name (some (Join ['/'] (searchParts.drop index))))
          else none
        else bindParams searchParts rest (index + 1) params

/-- Go `(r router) getRoute(method, path)`: `some none` is the result
`(nil, nil)`, `some (some (n, params))` a match, `none` a run-time panic. -/
def router.getRoute {H : Type} (r : router H) (method path : Str) :
    Option (Option (node × Params)) :=
  let searchParts := parsePattern path
  let params : Params := fun _ => none
  match r.roots method with
  | none => some none
  | some root =>
    match root.search searchParts with
    | some n =>
      (bindParams searchParts (parsePattern n.pattern) 0 params).map fun ps => some (n, ps)
    | none => some none

/-! ## Vocabulary of the routing claims -/

/-- A pattern segment `:name`. -/
def isParam (part : Str) : Bool := decide (part.head? = some ':')

/-- A pattern segment `*name`. -/
def isStar (part : Str) : Bool := decide (part.head? = some '*')

/-- The shape of a pattern, as parsed segments, matches the parsed segments of a
path: an equal segment at each literal position, any one segment at a `:name`
position, one or more remaining segments at a trailing `*name`. -/
def matchesShape : List Str → List Str → Bool
  | [], [] => true
  | [], _ :: _ => false
  | _ :: _, [] => false
  | p :: ps, s :: ss =>
    if isStar p then ps.isEmpty
    else (isParam p || decide (p = s)) && matchesShape ps ss

/-- The segment `part` of a pattern binds the parameter `name`: it is `:name`, or
`*name` with a non-empty name. -/
def bindsName (part name : Str) : Prop :=
  part = ':' :: name ∨ (part = '*' :: name ∧ name ≠ [])

/-- Whether `insert` of the segments into `n` would descend, at some level, into
an existing child whose `part` differs from the segment being inserted (a wild
child standing in for it). -/
def node.aliases : List Str → node → Bool
  | [], _ => false
  | part :: rest, n =>
    match n.matchChild part with
    | some child => decide (child.part ≠ part) || node.aliases rest child
    | none => false

/-- A registration call `addRoute(method, pattern, handler)`. -/
structure Route (H : Type) where
  /-- Request method. -/
  method : Str
  /-- Route pattern. -/
  pattern : Str
  /-- Registered handler. -/
  handler : H

/-- The router reached from `newRouter()` by the given `addRoute` calls, in order. -/
def buildRouter {H : Type} (calls : List (Route H)) : router H :=
  calls.foldl (fun r c => r.addRoute c.method c.pattern c.handler) newRouter

/-- No call of `calls` for `method`, made in order on `r`, descends into a child
standing in for a different segment. -/
def aliasFree {H : Type} (method : Str) : router H → List (Route H) → Bool
  | _, [] => true
  | r, c :: cs =>
    (if c.method = method then
      !((r.roots method).getD (node.mk [] [] [] false)).aliases (parsePattern c.pattern)
    else true) &&
    aliasFree method (r.addRoute c.method c.pattern c.handler) cs

/-- The names that the segments of a pattern bind, in order. -/
def paramNames : List Str → List Str
  | [] => []
  | [] :: rest => paramNames rest
  | (ch :: name) :: rest =>
    if ch = ':' then name :: paramNames rest
    else if ch = '*' ∧ name ≠ [] then name :: paramNames rest
    else paramNames rest

/-- The trie `m` is `n` or lies below it. -/
inductive Subnode : node → node → Prop where
  | self (n : node) : Subnode n n
  | child {m c n : node} : c ∈ n.children → Subnode m c → Subnode m n

/-! ## context.go: Context, Next, Fail and the response helpers

A handler is Go code that receives the context.  Its effect on the context is
embedded as a finite sequence of the calls it makes (`Act`).  The context
carries a trace of events, which is instrumentation: it records when `Next`
invokes a handler, what a handler records, each assignment to `index`, each
call of `Fail` and each panic.  The `http.ResponseWriter` is the list of calls
made on it that returned; it behaves as the writer of package `net/http`, whose
`WriteHeader` panics for a status code outside 100..999 unless the header was
written before. -/

/-- One call made by a handler body. -/
inductive Act where
  /-- The handler records `tag` (what the chain-order test observes). -/
  | record (tag : Str)
  /-- The call `c.Next()`. -/
  | next
  /-- The call `c.Fail(code, err)`. -/
  | fail (code : Int) (err : Str)
  /-- The call `c.String(code, "%s", text)`. -/
  | string (code : Int) (text : Str)
  /-- The statement `panic(v)`. -/
  | panic (v : Str)
  deriving DecidableEq

/-- Go `type HandlerFunc func(c *Context)`. -/
inductive HandlerFunc where
  /-- A handler that performs the given calls in order and returns. -/
  | steps (body : List Act)
  /-- A handler that performs the given calls under `defer func() { recover() }()`:
  a panic of the body ends the handler, which then returns normally. -/
  | recovering (body : List Act)
  /-- The middleware returned by `Recovery()`. -/
  | Recovery
  /-- The closure that `handle` appends on a miss. -/
  | notFound
  /-- The nil function value; calling it panics. -/
  | nilFunc
  deriving DecidableEq

/-- One call on the `http.ResponseWriter`. -/
inductive Write where
  /-- The call `Header().Set(key, value)`. -/
  | header (key value : Str)
  /-- The call `WriteHeader(code)`. -/
  | status (code : Int)
  /-- The call `Write(data)`. -/
  | bytes (data : Str)
  /-- The call `json.NewEncoder(w).Encode(obj)` for an object with string fields. -/
  | json (obj : List (Str × Str))
  deriving DecidableEq

/-- Instrumentation events. -/
inductive Event where
  /-- The loop of `Next` invokes `c.handlers[i]`. -/
  | enter (i : Int)
  /-- A handler records `tag`. -/
  | note (tag : Str)
  /-- The field `index` is assigned `v`. -/
  | index (v : Int)
  /-- The call `Fail(code, err)` begins. -/
  | failed (code : Int) (err : Str)
  /-- A panic with value `v` begins to unwind. -/
  | panicked (v : Str)
  deriving DecidableEq

/-- Go `type Context struct`, without `Req` and `engine`; `Writer` is the list
of calls made on the response writer and `trace` the instrumentation. -/
structure Context where
  /-- Calls made on the response writer so far. -/
  Writer : List Write
  /-- Request path. -/
  Path : Str
  /-- Request method. -/
  Method : Str
  /-- Route parameters; `none` is the nil map. -/
  Params : Option Params
  /-- Last status set. -/
  StatusCode : Int
  /-- The handler chain. -/
  handlers : List HandlerFunc
  /-- Cursor into the chain. -/
  index : Int
  /-- Instrumentation events so far. -/
  trace : List Event

/-- How a call ends: by returning or by a panic that unwinds to the caller. -/
inductive Outcome where
  /-- Normal return. -/
  | returned
  /-- Unwinding with panic value `v`. -/
  | panicked (v : Str)
  deriving DecidableEq

/-- Go `NewContext(w, req)` for a request with the given method and path. -/
def NewContext (method path : Str) : Context :=
  { Writer := [], Path := path, Method := method, Params := none, StatusCode := 0,
    handlers := [], index := -1, trace := [] }

namespace Context

/-- Appends an instrumentation event. -/
def log (c : Context) (e : Event) : Context := { c with trace := c.trace ++ [e] }

/-- An assignment `c.index = v`. -/
def setIndex (c : Context) (v : Int) : Context :=
  { c with index := v, trace := c.trace ++ [Event.index v] }

/-- Whether the response header was written: a `WriteHeader` call or a write of
the body returned. -/
def wroteHeader (c : Context) : Bool :=
  c.Writer.any (fun w => match w with
    | Write.header _ _ => false
    | _ => true)

/-- Go `(c *Context) Status(code)`: `c.StatusCode = code`, then
`c.Writer.WriteHeader(code)`.  `WriteHeader` of package `net/http` returns
without effect when the header was written before, and otherwise panics for a
code outside 100..999; the code that the panic value names is left out. -/
def Status (c : Context) (code : Int) : Outcome × Context :=
  let c := { c with StatusCode := code }
  if c.wroteHeader = true ∨ (100 ≤ code ∧ code ≤ 999) then
    (Outcome.returned, { c with Writer := c.Writer ++ [Write.status code] })
  else
    (Outcome.panicked "invalid WriteHeader code".toList,
      c.log (Event.panicked "invalid WriteHeader code".toList))

/-- Go `(c *Context) SetHeader(key, value)`. -/
def SetHeader (c : Context) (key value : Str) : Context :=
  { c with Writer := c.Writer ++ [Write.header key value] }

/-- Go `(c *Context) String(code, format, value...)`, `text` being the
formatted string. -/
def String (c : Context) (code : Int) (text : Str) : Outcome × Context :=
  match (c.SetHeader "Content-Type".toList "text/plain".toList).Status code with
  | (Outcome.returned, c1) =>
    (Outcome.returned, { c1 with Writer := c1.Writer ++ [Write.bytes text] })
  | other => other

/-- Go `(c *Context) JSON(code, obj)` for an object with string fields, whose
encoding cannot fail. -/
def JSON (c : Context) (code : Int) (obj : List (Str × Str)) : Outcome × Context :=
  match (c.SetHeader "Content-Type".toList "application/json".toList).Status code with
  | (Outcome.returned, c1) =>
    (Outcome.returned, { c1 with Writer := c1.Writer ++ [Write.json obj] })
  | other => other

/-- Go `(c *Context) Fail(code, err)`. -/
def Fail (c : Context) (code : Int) (err : Str) : Outcome × Context :=
  let c := c.log (Event.failed code err)
  let c := c.setIndex c.handlers.length
  c.JSON code [("message".toList, err)]

/-- Runs a handler body; `next` is `c.Next`.  `none` means `next` ran out of fuel. -/
def runActs (next : Context → Option (Outcome × Context)) :
    List Act → Context → Option (Outcome × Context)
  | [], c => some (Outcome.returned, c)
  | Act.record tag :: k, c => runActs next k (c.log (Event.note tag))
  | Act.next :: k, c =>
    match next c with
    | some (Outcome.returned, c1) => runActs next k c1
    | other => other
  | Act.fail code err :: k, c =>
    match c.Fail code err with
    | (Outcome.returned, c1) => runActs next k c1
    | other => some other
  | Act.string code text :: k, c =>
    match c.String code text with
    | (Outcome.returned, c1) => runActs next k c1
    | other => some other
  | Act.panic v :: _, c => some (Outcome.panicked v, c.log (Event.panicked v))

/-- The call `h(c)` of a handler; `next` is `c.Next`. -/
def runHandler (next : Context → Option (Outcome × Context)) :
    HandlerFunc → Context → Option (Outcome × Context)
  | HandlerFunc.steps body, c => runActs next body c
  | HandlerFunc.recovering body, c =>
    match runActs next body c with
    | some (Outcome.panicked _, c1) => some (Outcome.returned, c1)
    | other => other
  | HandlerFunc.Recovery, c =>
    match next c with
    | some (Outcome.panicked _, c1) => some (c1.Fail 500 "Internal Server Error".toList)
    | other => other
  | HandlerFunc.notFound, c =>
    some (c.String 404 ("404 NOT FOUND: ".toList ++ c.Path ++ ['\n']))
  | HandlerFunc.nilFunc, c =>
    some (Outcome.panicked "nil func".toList, c.log (Event.panicked "nil func".toList))

/-- The loop `for ; c.index < s; c.index++ { c.handlers[c.index](c) }` of `Next`,
entered at the loop test.  Each handler call uses one unit of `fuel`. -/
def nextLoop : Nat → Int → Context → Option (Outcome × Context)
  | 0, s, c => if c.index < s then none else some (Outcome.returned, c)
  | fuel + 1, s, c =>
    if c.index < s then
      if c.index < 0 then
        some (Outcome.panicked "index out of range".toList,
          c.log (Event.panicked "index out of range".toList))
      else
        match c.handlers.get? c.index.toNat with
        | none =>
          some (Outcome.panicked "index out of range".toList,
            c.log (Event.panicked "index out of range".toList))
        | some h =>
          match runHandler
              (fun c1 => nextLoop fuel c1.handlers.length (c1.setIndex (c1.index + 1)))
              h (c.log (Event.enter c.index)) with
          | some (Outcome.returned, c1) => nextLoop fuel s (c1.setIndex (c1.index + 1))
          | other => other
    else some (Outcome.returned, c)

/-- Go `(c *Context) Next()`, with `fuel` bounding the number of handler calls. -/
def Next (fuel : Nat) (c : Context) : Option (Outcome × Context) :=
  nextLoop fuel c.handlers.length (c.setIndex (c.index + 1))

end Context

/-- Go `(r *router) handle(c)`. -/
def router.handle (r : router HandlerFunc) (fuel : Nat) (c : Context) :
    Option (Outcome × Context) :=
  match r.getRoute c.Method c.Path with
  | none =>
    some (Outcome.panicked "index out of range".toList,
      c.log (Event.panicked "index out of range".toList))
  | some (some (n, params)) =>
    let key := routeKey c.Method n.pattern
    let h := (r.Handlers key).getD HandlerFunc.nilFunc
    Context.Next fuel { c with Params := some params, handlers := c.handlers ++ [h] }
  | some none =>
    Context.Next fuel { c with handlers := c.handlers ++ [HandlerFunc.notFound] }

/-! ## gee.go: groups and ServeHTTP -/

/-- Go `type RouterGroup struct`; `parent` is the position of the parent group
in `Engine.groups`, and the shared `engine` pointer is implicit. -/
structure RouterGroup where
  /-- Field `prefix` of the Go struct. -/
  groupPrefix : Str
  /-- Middleware registered on this group. -/
  middlewares : List HandlerFunc
  /-- Parent group, if any. -/
  parent : Option Nat

/-- Go `type Engine struct`, without the template fields.  The embedded root
group is `groups[0]`. -/
structure Engine where
  /-- The router. -/
  router : router HandlerFunc
  /-- All groups, in creation order. -/
  groups : List RouterGroup

/-- Go `New()`. -/
def New : Engine :=
  { router := newRouter, groups := [{ groupPrefix := [], middlewares := [], parent := none }] }

/-- Go `(group *RouterGroup) Group(prefix)` on the group at position `g`; the
new group is the last of `groups`.  A position that names no group leaves the
engine unchanged. -/
def Engine.Group (e : Engine) (g : Nat) (pfx : Str) : Engine :=
  match e.groups.get? g with
  | none => e
  | some group =>
    { e with groups := e.groups ++
        [{ groupPrefix := group.groupPrefix ++ pfx, middlewares := [], parent := some g }] }

/-- Go `(group *RouterGroup) Use(middlewares...)` on the group at position `g`. -/
def Engine.Use (e : Engine) (g : Nat) (middlewares : List HandlerFunc) : Engine :=
  let add := fun (group : RouterGroup) =>
    { group with middlewares := group.middlewares ++ middlewares }
  { e with groups := e.groups.modify add g }

/-- The loop of `ServeHTTP` that collects the middlewares for a request path. -/
def Engine.collect (path : Str) : List RouterGroup → List HandlerFunc → List HandlerFunc
  | [], middlewares => middlewares
  | group :: rest, middlewares =>
    if HasPrefix path group.groupPrefix then
      Engine.collect path rest (middlewares ++ group.middlewares)
    else Engine.collect path rest middlewares

/-- The context that `ServeHTTP` hands to `e.router.handle`. -/
def Engine.serveContext (e : Engine) (method path : Str) : Context :=
  let middlewares := Engine.collect path e.groups []
  { (NewContext method path) with handlers := middlewares }

/-- Go `(e *Engine) ServeHTTP(writer, request)`. -/
def Engine.ServeHTTP (e : Engine) (fuel : Nat) (method path : Str) :
    Option (Outcome × Context) :=
  e.router.handle fuel (e.serveContext method path)

/-- A setup call on an engine: `Group` or `Use` on the group at a position. -/
inductive Setup where
  /-- The call `groups[g].Group(pfx)`. -/
  | group (g : Nat) (pfx : Str)
  /-- The call `groups[g].Use(middlewares...)`. -/
  | use (g : Nat) (middlewares : List HandlerFunc)

/-- The engine reached from `New()` by the given setup calls, in order. -/
def buildEngine (calls : List Setup) : Engine :=
  calls.foldl
    (fun e call =>
      match call with
      | Setup.group g pfx => e.Group g pfx
      | Setup.use g middlewares => e.Use g middlewares)
    New

/-! ## Notions used in the statements and proofs -/

/-- A `*` segment is followed by nothing. -/
def StarLast : List Str → Prop
  | [] => True
  | p :: ps => (isStar p = true → ps = []) ∧ StarLast ps

/-- The children after `insert` of `part :: rest`: the first matching child is
replaced by what `f` makes of it, or a new child is appended. -/
def node.insertInto (part : Str) (f : node → node) : List node → List node
  | [] => [f (newChild part)]
  | c :: cs => if matchesPart part c then f c :: cs else c :: insertInto part f cs

/-- Every node at depth `d + k` below (or at) `n` that stores a pattern stores
one satisfying `P (d + k)`. -/
inductive NodesOK (P : Nat → Str → Prop) : Nat → node → Prop where
  | mk {d : Nat} {n : node} :
      (n.pattern ≠ [] → P d n.pattern) →
      (∀ c ∈ n.children, NodesOK P (d + 1) c) → NodesOK P d n

/-- Invariant of a router: every stored pattern has its handler entry and lies
at the depth that is the number of its parsed segments. -/
def router.Sound {H : Type} (r : router H) : Prop :=
  ∀ m root, r.roots m = some root →
    NodesOK (fun d p => (r.Handlers (routeKey m p)).isSome = true ∧
      (parsePattern p).length = d) 0 root

/-- The tags recorded by handlers, in order. -/
def notes : List Event → List Str
  | [] => []
  | Event.note tag :: rest => tag :: notes rest
  | _ :: rest => notes rest

/-- A call that neither hands on control nor aborts: the handler records
something or writes a text response with a status code that `WriteHeader`
accepts. -/
def Act.quiet : Act → Bool
  | Act.record _ => true
  | Act.string code _ => decide (100 ≤ code ∧ code ≤ 999)
  | _ => false

/-- The events that a body of quiet calls leaves in the trace. -/
def quietEvents : List Act → List Event
  | [] => []
  | Act.record tag :: rest => Event.note tag :: quietEvents rest
  | _ :: rest => quietEvents rest

/-- The middleware that records `before`, calls `Next`, then records `after`. -/
def around (before after : Str) : HandlerFunc :=
  HandlerFunc.steps [Act.record before, Act.next, Act.record after]

/-- The context `c1` differs from `c` in the response only: `StatusCode` may
differ and `Writer` has grown. -/
def SameRun (c c1 : Context) : Prop :=
  c1.trace = c.trace ∧ c1.index = c.index ∧ c1.handlers = c.handlers ∧
    c1.Params = c.Params ∧ c1.Path = c.Path ∧ c1.Method = c.Method ∧
    ∃ more, c1.Writer = c.Writer ++ more

/-- A pair of properties of contexts that every primitive step of a dispatch
keeps: `P` holds while handlers run and `Q` while a panic unwinds.  The steps
are a record, the increment of the cursor, the entry of a handler, the first
two statements of `Fail`, a change of the response, the start of a panic, and
the `Fail` call of `Recovery`. -/
structure Stable (P Q : Context → Prop) : Prop where
  note : ∀ c tag, P c → P (c.log (Event.note tag))
  incr : ∀ c, P c → P (c.setIndex (c.index + 1))
  enter : ∀ c, P c → 0 ≤ c.index → c.index < c.handlers.length →
    P (c.log (Event.enter c.index))
  failing : ∀ c code err, P c →
    P ((c.log (Event.failed code err)).setIndex c.handlers.length)
  writes : ∀ c c1, P c → SameRun c c1 → P c1
  panic : ∀ c v, P c → Q (c.log (Event.panicked v))
  recover : ∀ c, Q c → P (c.Fail 500 "Internal Server Error".toList).2

/-- The property `P` after a return and `Q` after a panic. -/
def Outcome.pick (P Q : Context → Prop) : Outcome → Context → Prop
  | Outcome.returned, c => P c
  | Outcome.panicked _, c => Q c

/-- The run `f` keeps the chain `hs`, and leads from `P` to `P` when it returns
and to `Q` when it panics. -/
def Context.Keeps2 (hs : List HandlerFunc) (P Q : Context → Prop)
    (f : Context → Option (Outcome × Context)) : Prop :=
  ∀ c out c1, c.handlers = hs → P c → f c = some (out, c1) →
    c1.handlers = hs ∧ out.pick P Q c1

/-- The run `f` keeps the chain `hs` and the property `P`. -/
def Context.Keeps (hs : List HandlerFunc) (P : Context → Prop)
    (f : Context → Option (Outcome × Context)) : Prop :=
  ∀ c out c1, c.handlers = hs → P c → f c = some (out, c1) → c1.handlers = hs ∧ P c1

/-- No handler is entered after a call of `Fail`. -/
def NoEnterAfterFail (tr : List Event) : Prop :=
  ∀ pre post code err, tr = pre ++ Event.failed code err :: post →
    ∀ j, Event.enter j ∉ post

/-- Once `Fail` was called the cursor is at or past the end of the chain, and no
handler was entered since. -/
def FailedAtEnd (c : Context) : Prop :=
  (∀ code err, Event.failed code err ∈ c.trace → (c.handlers.length : Int) ≤ c.index) ∧
    NoEnterAfterFail c.trace

/-- The trace of the context only grows from `base`. -/
def Extends (base : List Event) (c : Context) : Prop := ∃ post, c.trace = base ++ post

/-- The chain of the middlewares `ms`, each recording its first tag, calling
`Next` and recording its second tag, followed by a handler recording `h`. -/
def onion (ms : List (Str × Str)) (h : Str) : List HandlerFunc :=
  ms.map (fun m => around m.1 m.2) ++ [HandlerFunc.steps [Act.record h]]

/-- The trie below `n`, reached along the segments `pre`, is faithful: a stored
pattern is registered and its parsed segments are the parts on the way to its
node, and a child is wild exactly when its part is `:name` or `*name`. -/
inductive Faithful (reg : Str → Prop) : List Str → node → Prop where
  | mk {pre : List Str} {n : node} :
      (n.pattern ≠ [] → reg n.pattern ∧ parsePattern n.pattern = pre) →
      (∀ c ∈ n.children, c.isWild = (isParam c.part || isStar c.part)) →
      (∀ c ∈ n.children, Faithful reg (pre ++ [c.part]) c) →
      Faithful reg pre n

/-- The trie has nodes with exactly the parts `parts` below `n`, the last of
which stores a pattern. -/
def HasRoute : List Str → node → Prop
  | [], n => n.pattern ≠ []
  | p :: ps, n => ∃ c ∈ n.children, c.part = p ∧ HasRoute ps c

/-- Some call of `calls` registers `pattern` under `method`. -/
def Registered {H : Type} (calls : List (Route H)) (method pattern : Str) : Prop :=
  ∃ c ∈ calls, c.method = method ∧ c.pattern = pattern

/-- The trie of `method` is faithful for the registered patterns `reg`. -/
def TrieOK {H : Type} (r : router H) (method : Str) (reg : Str → Prop) : Prop :=
  ∀ root, r.roots method = some root → root.part = [] ∧ Faithful reg [] root

/-- Every pattern of `reg` has its route in the trie of `method`. -/
def RoutesOK {H : Type} (r : router H) (method : Str) (reg : Str → Prop) : Prop :=
  ∀ p, reg p → ∃ root, r.roots method = some root ∧ HasRoute (parsePattern p) root

/-- The values assigned to `index`, in order. -/
def indexValues : List Event → List Int
  | [] => []
  | Event.index v :: rest => v :: indexValues rest
  | _ :: rest => indexValues rest

/-- The last value of a sequence that starts at `a`. -/
def lastOr : Int → List Int → Int
  | a, [] => a
  | _, v :: rest => lastOr v rest

/-- The cursor values `vs` that follow the value `prev` never decrease, except
that a value at or past the end `len` may be followed by `len` itself. -/
def Steady (len : Int) : Int → List Int → Prop
  | _, [] => True
  | prev, v :: rest => (prev ≤ v ∨ (len ≤ prev ∧ v = len)) ∧ Steady len v rest

/-- The dispatch has appended `post` to the trace `base` since the cursor was
`start`; the assignments in `post` are steady and end at the current cursor. -/
def SteadySince (base : List Event) (start : Int) (len : Nat) (c : Context) : Prop :=
  c.handlers.length = len ∧
    ∃ post, c.trace = base ++ post ∧ Steady len start (indexValues post) ∧
      c.index = lastOr start (indexValues post)

/-- The positions at which `Next` invoked a handler, in order. -/
def enters : List Event → List Int
  | [] => []
  | Event.enter i :: rest => i :: enters rest
  | _ :: rest => enters rest

/-- A call other than `Fail` and `panic`; a text response has a status code
that `WriteHeader` accepts, so that it does not panic either. -/
def Act.calm : Act → Bool
  | Act.fail _ _ => false
  | Act.panic _ => false
  | Act.string code _ => decide (100 ≤ code ∧ code ≤ 999)
  | _ => true

/-- A handler that neither calls `Fail` nor panics of its own. -/
def HandlerFunc.calm : HandlerFunc → Bool
  | HandlerFunc.steps body => body.all Act.calm
  | HandlerFunc.recovering body => body.all Act.calm
  | HandlerFunc.Recovery => true
  | HandlerFunc.notFound => true
  | HandlerFunc.nilFunc => false

/-- The node `m` lies exactly `k` levels below `n`. -/
inductive DepthAt : Nat → node → node → Prop where
  | self (n : node) : DepthAt 0 n n
  | child {k : Nat} {m c n : node} : c ∈ n.children → DepthAt k m c → DepthAt (k + 1) m n

/-- The list cut off right after its first element that begins with `*`. -/
def uptoStar : List Str → List Str
  | [] => []
  | s :: rest => if isStar s then [s] else s :: uptoStar rest

mutual
/-- The node with every stored pattern erased: what is left are the nodes, their
parts, flags and child order. -/
def node.skeleton : node → node
  | node.mk _ part children isWild => node.mk [] part (skeletonList children) isWild
/-- The skeletons of a list of nodes. -/
def skeletonList : List node → List node
  | [] => []
  | c :: cs => c.skeleton :: skeletonList cs
end

/-- A downward path for `search`: `Descends parts n m` holds when `m` is reached
from `n` by steps into a child whose part equals the current segment or whose
`isWild` is set, no node before `m` has a part beginning with `*`, and the path
ends when the segments are used up or at a node whose part begins with `*`. -/
inductive Descends : List Str → node → node → Prop where
  | atEnd (n : node) : Descends [] n n
  | atStar (parts : List Str) (n : node) : isStar n.part = true → Descends parts n n
  | step {part : Str} {rest : List Str} {n c m : node} :
      isStar n.part = false → c ∈ n.children → (c.part = part ∨ c.isWild = true) →
      Descends rest c m → Descends (part :: rest) n m

/-- The ends of all downward paths for `search` that store a pattern, in
depth-first order of the children. -/
def node.allMatches : List Str → node → List node
  | [], n => if n.pattern = [] then [] else [n]
  | part :: rest, n =>
    if isStar n.part then
      if n.pattern = [] then [] else [n]
    else
      (n.children.filter (node.matchesPart part)).flatMap (node.allMatches rest)

/-- Below `n` every child is wild exactly when its part is `:name` or `*name`. -/
inductive Flagged : node → Prop where
  | mk {n : node} :
      (∀ c ∈ n.children, c.isWild = (isParam c.part || isStar c.part)) →
      (∀ c ∈ n.children, Flagged c) → Flagged n

/-- Two segment lists of the same length that are equal at every position
except positions where both have a `:name` segment. -/
def sameButParams : List Str → List Str → Bool
  | [], [] => true
  | a :: as, b :: bs => (decide (a = b) || (isParam a && isParam b)) && sameButParams as bs
  | _, _ => false

/-- The trie below `n` already has every node that an insertion of `parts`
walks: at each level `matchChild` finds a child. -/
def PathFor : List Str → node → Prop
  | [], _ => True
  | a :: rest, n => ∃ c, n.children.find? (node.matchesPart a) = some c ∧ PathFor rest c

/-- Every panic in the trace is answered at once by the `Fail` call of
`Recovery`: the events right after it are that call and its assignment of `len`
to `index`. -/
def PanicsAnswered (len : Nat) (tr : List Event) : Prop :=
  ∀ pre post v, tr = pre ++ Event.panicked v :: post →
    ∃ post1, post =
      Event.failed 500 "Internal Server Error".toList :: Event.index len :: post1

/-- State of a dispatch while handlers run: no handler was entered after a call
of `Fail`, every panic so far was answered, and if there was one the status 500
and the JSON message of `Recovery` were written. -/
def Running (c : Context) : Prop :=
  FailedAtEnd c ∧ PanicsAnswered c.handlers.length c.trace ∧
    ((∃ v, Event.panicked v ∈ c.trace) →
      Write.status 500 ∈ c.Writer ∧
        Write.json [("message".toList, "Internal Server Error".toList)] ∈ c.Writer)

/-- State of a dispatch while a panic unwinds: the panic is the last event, and
before it the dispatch was running. -/
def Unwinding (c : Context) : Prop :=
  ∃ tr v, c.trace = tr ++ [Event.panicked v] ∧ PanicsAnswered c.handlers.length tr ∧
    NoEnterAfterFail tr ∧
    ∀ code err, Event.failed code err ∈ tr → (c.handlers.length : Int) ≤ c.index

/-- A call that does not panic of its own: not `panic`, and `Fail` and `String`
with a status code that `WriteHeader` accepts. -/
def Act.safe : Act → Bool
  | Act.fail code _ => decide (100 ≤ code ∧ code ≤ 999)
  | Act.string code _ => decide (100 ≤ code ∧ code ≤ 999)
  | Act.panic _ => false
  | _ => true

/-- A handler that does not panic of its own. -/
def HandlerFunc.safe : HandlerFunc → Bool
  | HandlerFunc.steps body => body.all Act.safe
  | HandlerFunc.recovering body => body.all Act.safe
  | HandlerFunc.Recovery => true
  | HandlerFunc.notFound => true
  | HandlerFunc.nilFunc => false

/-- The context has the chain `hs`, and its cursor is before position `i` or at
or past the end of the chain. -/
def Below (hs : List HandlerFunc) (i : Nat) (c : Context) : Prop :=
  c.handlers = hs ∧ -1 ≤ c.index ∧ (c.index < i ∨ (hs.length : Int) ≤ c.index)

/-- The segments of a request path: the non-empty pieces between the `/`. -/
def segments (path : Str) : List Str := (Split '/' path).filter fun s => decide (s ≠ [])

/-- The node at which an insertion of `parts` below `n` ends when every node it
needs is there: at each level it descends into the child that `matchChild`
returns. -/
def node.walk : List Str → node → Option node
  | [], n => some n
  | part :: rest, n =>
    match n.matchChild part with
    | some c => node.walk rest c
    | none => none

/-- Along the descent of an insertion of `parts` below `n`, the child descended
into is a `*` node exactly when the segment is a `*` segment. -/
def node.starFit : List Str → node → Bool
  | [], _ => true
  | part :: rest, n =>
    match n.matchChild part with
    | some c => (isStar c.part == isStar part) && node.starFit rest c
    | none => true

/-- The node at which a registration of `pattern` under `method` ends was
overwritten: it stores no pattern, or one with other parsed segments. -/
def router.overwritten {H : Type} (r : router H) (method pattern : Str) : Bool :=
  match r.roots method with
  | none => false
  | some root =>
    match root.walk (parsePattern pattern) with
    | none => false
    | some n => decide (n.pattern = [] ∨ parsePattern n.pattern ≠ parsePattern pattern)

/-- A registration of `pattern` under `method` descends into a `*` node exactly
for a `*` segment. -/
def router.starFits {H : Type} (r : router H) (method pattern : Str) : Bool :=
  match r.roots method with
  | none => true
  | some root => root.starFit (parsePattern pattern)

/-- Every node at which a downward path of `search` for the segments of `path`
can end, and which stores a pattern, stores one with the parsed segments of
`pattern`. -/
def router.answersOnly {H : Type} (r : router H) (method path pattern : Str) : Bool :=
  match r.roots method with
  | none => true
  | some root =>
    (root.allMatches (segments path)).all fun m =>
      decide (parsePattern m.pattern = parsePattern pattern)
/-- Two segments of the same kind: equal, both `:name`, or both `*name`. -/
def sameKind (a b : Str) : Bool :=
  decide (a = b) || (isParam a && isParam b) || (isStar a && isStar b)

/-- Two segment lists of the same length with segments of the same kind at every
position. -/
def sameKinds : List Str → List Str → Bool
  | [], [] => true
  | a :: as, b :: bs => sameKind a b && sameKinds as bs
  | _, _ => false

/-- Whether `insert` of the segments into `n` would descend, at some level, into
an existing child whose `part` is of another kind than the segment being
inserted: a `:name` or `*name` child standing in for a literal segment, or a
`*name` child for a `:name` segment or the other way round. -/
def node.misfits : List Str → node → Bool
  | [], _ => false
  | part :: rest, n =>
    match n.matchChild part with
    | some child => !(sameKind part child.part) || node.misfits rest child
    | none => false

/-- No call of `calls` for `method`, made in order on `r`, descends into a child
standing in for a segment of another kind. -/
def kindFree {H : Type} (method : Str) : router H → List (Route H) → Bool
  | _, [] => true
  | r, c :: cs =>
    (if c.method = method then
      !((r.roots method).getD (node.mk [] [] [] false)).misfits (parsePattern c.pattern)
    else true) &&
    kindFree method (r.addRoute c.method c.pattern c.handler) cs

/-- The trie below `n`, reached along nodes with the parts `pre`, is fitting: a
stored pattern is registered and its parsed segments are of the same kinds as
the parts on the way to its node, and a child is wild exactly when its part is
`:name` or `*name`. -/
inductive Fitting (reg : Str → Prop) : List Str → node → Prop where
  | mk {pre : List Str} {n : node} :
      (n.pattern ≠ [] → reg n.pattern) →
      (n.pattern ≠ [] → sameKinds (parsePattern n.pattern) pre = true) →
      (∀ c ∈ n.children, c.isWild = (isParam c.part || isStar c.part)) →
      (∀ c ∈ n.children, Fitting reg (pre ++ [c.part]) c) →
      Fitting reg pre n

/-- The trie of `method` is fitting for the registered patterns `reg`. -/
def TrieFits {H : Type} (r : router H) (method : Str) (reg : Str → Prop) : Prop :=
  ∀ root, r.roots method = some root → root.part = [] ∧ Fitting reg [] root

/-! ## Lemmas on strings and `parsePattern` -/

theorem hasPrefix_star (s : Str) : HasPrefix s ['*'] = isStar s := by
  cases s with
  | nil => rfl
  | cons c cs =>
    by_cases h : c = '*'
    · subst h; simp [HasPrefix, isStar, List.isPrefixOf]
    · have h2 : ('*' == c) = false := by
        simp only [beq_eq_false_iff_ne, ne_eq]
        exact fun e => h e.symm
      simp [HasPrefix, isStar, List.isPrefixOf, h, h2]

theorem parseItems_ne_nil (vs : List Str) : ∀ p ∈ parseItems vs, p ≠ [] := by
  induction vs with
  | nil => intro p hp; simp [parseItems] at hp
  | cons item vs ih =>
    intro p hp
    unfold parseItems at hp
    by_cases h : item = []
    · simp only [h, ne_eq, not_true_eq_false, if_false] at hp
      exact ih p hp
    · simp only [ne_eq, h, not_false_eq_true, if_true] at hp
      split at hp
      · simp only [List.mem_singleton] at hp
        rw [hp]; exact h
      · rcases List.mem_cons.1 hp with e | e
        · rw [e]; exact h
        · exact ih p e

/-- Every segment returned by `parsePattern` is non-empty. -/
theorem parsePattern_ne_nil (pattern : Str) : ∀ p ∈ parsePattern pattern, p ≠ [] :=
  parseItems_ne_nil _

theorem parseItems_starLast (vs : List Str) : StarLast (parseItems vs) := by
  induction vs with
  | nil => simp [parseItems, StarLast]
  | cons item vs ih =>
    unfold parseItems
    by_cases h : item = []
    · simp only [h, ne_eq, not_true_eq_false, if_false]
      exact ih
    · simp only [ne_eq, h, not_false_eq_true, if_true]
      split
      · simp [StarLast]
      · rename_i hs
        refine ⟨?_, ih⟩
        intro h2
        simp [isStar] at h2
        exact absurd h2 hs

/-- Only the last segment returned by `parsePattern` can begin with `*`. -/
theorem parsePattern_starLast (pattern : Str) : StarLast (parsePattern pattern) :=
  parseItems_starLast _

theorem join_ne_nil (sep : Str) :
    ∀ (l : List Str), l ≠ [] → (∀ p ∈ l, p ≠ []) → Join sep l ≠ []
  | [], h, _ => absurd rfl h
  | [a], _, h => by simpa [Join] using h
  | a :: b :: rest, _, h => by
    have ha : a ≠ [] := h a (by simp)
    simp [Join, ha]

/-! ## Lemmas on the trie -/

namespace node

@[simp] theorem pattern_mk (p q : Str) (cs : List node) (w : Bool) :
    (mk p q cs w).pattern = p := rfl

@[simp] theorem part_mk (p q : Str) (cs : List node) (w : Bool) :
    (mk p q cs w).part = q := rfl

@[simp] theorem children_mk (p q : Str) (cs : List node) (w : Bool) :
    (mk p q cs w).children = cs := rfl

@[simp] theorem isWild_mk (p q : Str) (cs : List node) (w : Bool) :
    (mk p q cs w).isWild = w := rfl

theorem eta (n : node) : mk n.pattern n.part n.children n.isWild = n := by
  cases n; rfl

theorem insertInto_eq (part : Str) (f : node → node) (cs : List node) :
    insertInto part f cs =
      match cs.find? (matchesPart part) with
      | some _ => updateFirst (matchesPart part) f cs
      | none => cs ++ [f (newChild part)] := by
  induction cs with
  | nil => rfl
  | cons c cs ih =>
    by_cases h : matchesPart part c = true
    · simp [insertInto, updateFirst, List.find?, h]
    · simp only [Bool.not_eq_true] at h
      simp only [insertInto, h, updateFirst, List.find?, Bool.false_eq_true, if_false, ih]
      split <;> simp

theorem insert_nil (pattern : Str) (n : node) :
    insert pattern [] n = mk pattern n.part n.children n.isWild := by
  simp [insert]

theorem insert_cons (pattern part : Str) (rest : List Str) (n : node) :
    insert pattern (part :: rest) n =
      mk n.pattern n.part (insertInto part (insert pattern rest) n.children) n.isWild := by
  rw [insertInto_eq]
  simp only [insert, matchChild]
  split <;> simp_all

@[simp] theorem insert_part (pattern : Str) (parts : List Str) (n : node) :
    (insert pattern parts n).part = n.part := by
  cases parts <;> simp [insert_nil, insert_cons]

@[simp] theorem insert_isWild (pattern : Str) (parts : List Str) (n : node) :
    (insert pattern parts n).isWild = n.isWild := by
  cases parts <;> simp [insert_nil, insert_cons]

theorem matchesPart_insert (pattern part : Str) (parts : List Str) (n : node) :
    matchesPart part (insert pattern parts n) = matchesPart part n := by
  simp [matchesPart]

theorem mem_insertInto {part : Str} {f : node → node} {cs : List node} {x : node}
    (hx : x ∈ insertInto part f cs) :
    x ∈ cs ∨ (cs.find? (matchesPart part) = none ∧ x = f (newChild part)) ∨
      ∃ c, cs.find? (matchesPart part) = some c ∧ x = f c := by
  induction cs with
  | nil =>
    simp only [insertInto, List.mem_singleton] at hx
    exact Or.inr (Or.inl ⟨rfl, hx⟩)
  | cons c cs ih =>
    by_cases h : matchesPart part c = true
    · simp only [insertInto, h, if_true] at hx
      rcases List.mem_cons.1 hx with e | e
      · exact Or.inr (Or.inr ⟨c, by simp [List.find?, h], e⟩)
      · exact Or.inl (List.mem_cons_of_mem _ e)
    · simp only [Bool.not_eq_true] at h
      simp only [insertInto, h, Bool.false_eq_true, if_false] at hx
      rcases List.mem_cons.1 hx with e | e
      · exact Or.inl (by rw [e]; exact List.mem_cons_self _ _)
      · rcases ih e with h1 | ⟨h1, h2⟩ | ⟨c1, h1, h2⟩
        · exact Or.inl (List.mem_cons_of_mem _ h1)
        · exact Or.inr (Or.inl ⟨by simp [List.find?, h, h1], h2⟩)
        · exact Or.inr (Or.inr ⟨c1, by simp [List.find?, h, h1], h2⟩)

theorem mem_insertInto_of_mem {part : Str} {f : node → node} {cs : List node} {c : node}
    (hc : c ∈ cs) : c ∈ insertInto part f cs ∨ f c ∈ insertInto part f cs := by
  induction cs with
  | nil => cases hc
  | cons d cs ih =>
    by_cases h : matchesPart part d = true
    · simp only [insertInto, h, if_true]
      rcases List.mem_cons.1 hc with e | e
      · right; rw [e]; exact List.mem_cons_self _ _
      · left; exact List.mem_cons_of_mem _ e
    · simp only [Bool.not_eq_true] at h
      simp only [insertInto, h, Bool.false_eq_true, if_false]
      rcases List.mem_cons.1 hc with e | e
      · left; rw [e]; exact List.mem_cons_self _ _
      · rcases ih e with h1 | h1
        · left; exact List.mem_cons_of_mem _ h1
        · right; exact List.mem_cons_of_mem _ h1

theorem insertInto_idem (part : Str) (f : node → node)
    (hf : ∀ c, f (f c) = f c) (hm : ∀ c, matchesPart part (f c) = matchesPart part c)
    (cs : List node) :
    insertInto part f (insertInto part f cs) = insertInto part f cs := by
  induction cs with
  | nil =>
    have h : matchesPart part (f (newChild part)) = true := by
      rw [hm]; simp [matchesPart, newChild]
    simp [insertInto, h, hf]
  | cons c cs ih =>
    by_cases h : matchesPart part c = true
    · have h2 : matchesPart part (f c) = true := by rw [hm]; exact h
      simp [insertInto, h, h2, hf]
    · simp only [Bool.not_eq_true] at h
      simp [insertInto, h, ih]

/-- Inserting the same pattern along the same segments twice changes nothing
the second time. -/
theorem insert_idem (pattern : Str) (parts : List Str) :
    ∀ n : node, insert pattern parts (insert pattern parts n) = insert pattern parts n := by
  induction parts with
  | nil => intro n; simp [insert_nil]
  | cons part rest ih =>
    intro n
    rw [insert_cons, insert_cons]
    simp only [pattern_mk, part_mk, children_mk, isWild_mk]
    rw [insertInto_idem part _ ih (fun c => matchesPart_insert pattern part rest c)]

end node

/-! ## Lemmas on `addRoute` -/

/-- The trie of `method` after `addRoute`. -/
theorem addRoute_roots_same {H : Type} (r : router H) (method pattern : Str) (handler : H) :
    (r.addRoute method pattern handler).roots method =
      some (((r.roots method).getD (node.mk [] [] [] false)).insert pattern
        (parsePattern pattern)) := by
  cases h : r.roots method <;> simp [router.addRoute, h]

/-- The tries of the other methods after `addRoute`. -/
theorem addRoute_roots_other {H : Type} (r : router H) (method pattern : Str) (handler : H)
    {m : Str} (hm : m ≠ method) :
    (r.addRoute method pattern handler).roots m = r.roots m := by
  simp [router.addRoute, Function.update_noteq hm]

theorem addRoute_handlers_same {H : Type} (r : router H) (method pattern : Str)
    (handler : H) :
    (r.addRoute method pattern handler).Handlers (routeKey method pattern) = some handler := by
  simp [router.addRoute]

theorem addRoute_handlers_isSome {H : Type} (r : router H) (method pattern : Str)
    (handler : H) (key : Str) (h : (r.Handlers key).isSome = true) :
    ((r.addRoute method pattern handler).Handlers key).isSome = true := by
  by_cases hk : key = routeKey method pattern
  · rw [hk, addRoute_handlers_same]; rfl
  · simpa [router.addRoute, Function.update_noteq hk] using h

/-- C9. Registering the same method and pattern a second time leaves the trie
of every method exactly as the first registration left it (same nodes, parts,
flags, stored patterns and child order), and the handler table then holds the
second handler under `method + "-" + pattern`. -/
theorem addRoute_twice_idempotent {H : Type} (r : router H) (m p : Str) (h1 h2 : H) :
    (∀ m1, ((r.addRoute m p h1).addRoute m p h2).roots m1 = (r.addRoute m p h1).roots m1) ∧
      ((r.addRoute m p h1).addRoute m p h2).Handlers (routeKey m p) = some h2 := by
  refine ⟨?_, addRoute_handlers_same _ _ _ _⟩
  intro m1
  by_cases hm : m1 = m
  · subst hm
    rw [addRoute_roots_same (r.addRoute m1 p h1), addRoute_roots_same r]
    simp [node.insert_idem]
  · rw [addRoute_roots_other _ _ _ _ hm]

/-! ## Invariants of the tries that `addRoute` builds -/

theorem NodesOK.here {P : Nat → Str → Prop} {d : Nat} {n : node} (h : NodesOK P d n) :
    n.pattern ≠ [] → P d n.pattern := by
  cases h with
  | mk h1 _ => exact h1

theorem NodesOK.kids {P : Nat → Str → Prop} {d : Nat} {n : node} (h : NodesOK P d n) :
    ∀ c ∈ n.children, NodesOK P (d + 1) c := by
  cases h with
  | mk _ h2 => exact h2

theorem NodesOK.mono {P Q : Nat → Str → Prop} (hPQ : ∀ d p, P d p → Q d p) :
    ∀ {d : Nat} {n : node}, NodesOK P d n → NodesOK Q d n := by
  intro d n h
  induction h with
  | mk h1 _ ih => exact NodesOK.mk (fun hp => hPQ _ _ (h1 hp)) ih

theorem NodesOK.newChild (P : Nat → Str → Prop) (d : Nat) (part : Str) :
    NodesOK P d (node.newChild part) :=
  NodesOK.mk (fun h => absurd rfl h) (fun c hc => by simp [node.newChild] at hc)

theorem NodesOK.insert {P : Nat → Str → Prop} (pattern : Str) (parts : List Str) :
    ∀ (d : Nat) (n : node), NodesOK P d n → P (d + parts.length) pattern →
      NodesOK P d (node.insert pattern parts n) := by
  induction parts with
  | nil =>
    intro d n hn hp
    rw [node.insert_nil]
    exact NodesOK.mk (fun _ => by simpa using hp) (by simpa using hn.kids)
  | cons part rest ih =>
    intro d n hn hp
    rw [node.insert_cons]
    have hp2 : P (d + 1 + rest.length) pattern := by
      have e : d + 1 + rest.length = d + (part :: rest).length := by
        simp only [List.length_cons]; omega
      rw [e]; exact hp
    refine NodesOK.mk (by simpa using hn.here) ?_
    intro x hx
    simp only [node.children_mk] at hx
    rcases node.mem_insertInto hx with h | ⟨_, h⟩ | ⟨c, hc, h⟩
    · exact hn.kids x h
    · rw [h]; exact ih _ _ (NodesOK.newChild P _ part) hp2
    · rw [h]; exact ih _ _ (hn.kids c (List.mem_of_find?_eq_some hc)) hp2

theorem NodesOK.subnode {P : Nat → Str → Prop} {m n : node} (hs : Subnode m n) :
    ∀ {d : Nat}, NodesOK P d n → m.pattern ≠ [] → ∃ k, P (d + k) m.pattern := by
  induction hs with
  | self => intro d h hp; exact ⟨0, h.here hp⟩
  | child hc _ ih =>
    intro d h hp
    obtain ⟨k, hk⟩ := ih (h.kids _ hc) hp
    exact ⟨k + 1, by rw [show d + (k + 1) = d + 1 + k by omega]; exact hk⟩

theorem newRouter_sound {H : Type} : (newRouter : router H).Sound := by
  intro m root h
  simp [newRouter] at h

theorem addRoute_sound {H : Type} (r : router H) (hr : r.Sound) (method pattern : Str)
    (handler : H) : (r.addRoute method pattern handler).Sound := by
  intro m root h
  have grow : ∀ (n : node), NodesOK (fun d p => (r.Handlers (routeKey m p)).isSome = true ∧
        (parsePattern p).length = d) 0 n →
      NodesOK (fun d p =>
        ((r.addRoute method pattern handler).Handlers (routeKey m p)).isSome = true ∧
        (parsePattern p).length = d) 0 n := fun n hn =>
    hn.mono (fun d p hp => ⟨addRoute_handlers_isSome r _ _ _ _ hp.1, hp.2⟩)
  by_cases hm : m = method
  · subst hm
    rw [addRoute_roots_same] at h
    injection h with h
    rw [← h]
    refine NodesOK.insert _ _ _ _ ?_ ⟨by rw [addRoute_handlers_same]; rfl, by simp⟩
    cases h0 : r.roots m with
    | none =>
      exact NodesOK.mk (fun hh => absurd rfl hh) (fun c hc => by simp at hc)
    | some root0 => exact grow _ (hr m root0 h0)
  · rw [addRoute_roots_other _ _ _ _ hm] at h
    exact grow _ (hr m root h)

theorem foldl_addRoute_sound {H : Type} (calls : List (Route H)) :
    ∀ r : router H, r.Sound →
      (calls.foldl (fun r c => r.addRoute c.method c.pattern c.handler) r).Sound := by
  induction calls with
  | nil => intro r hr; exact hr
  | cons c cs ih => intro r hr; exact ih _ (addRoute_sound r hr _ _ _)

theorem buildRouter_sound {H : Type} (calls : List (Route H)) : (buildRouter calls).Sound :=
  foldl_addRoute_sound calls _ newRouter_sound

/-- C10. In every router reachable from `newRouter()` by `addRoute` calls, every
node of the trie of a method `m` that stores a non-empty pattern `p` has an
entry in `Handlers` under the key `m + "-" + p`. -/
theorem stored_pattern_has_handler {H : Type} (calls : List (Route H)) (m : Str)
    (root n : node) (hroot : (buildRouter calls).roots m = some root)
    (hn : Subnode n root) (hp : n.pattern ≠ []) :
    ∃ h, (buildRouter calls).Handlers (routeKey m n.pattern) = some h := by
  obtain ⟨k, hk, _⟩ := NodesOK.subnode hn (buildRouter_sound calls m root hroot) hp
  exact Option.isSome_iff_exists.1 hk

/-- C10 at the router with the one route `GET /hello`, for the node of `hello`. -/
theorem stored_pattern_has_handler_witness :
    (buildRouter [Route.mk "GET".toList "/hello".toList ()]).roots "GET".toList =
      some (node.mk [] [] [node.mk "/hello".toList "hello".toList [] false] false) ∧
    Subnode (node.mk "/hello".toList "hello".toList [] false)
      (node.mk [] [] [node.mk "/hello".toList "hello".toList [] false] false) ∧
    ∃ h, (buildRouter [Route.mk "GET".toList "/hello".toList ()]).Handlers
      (routeKey "GET".toList "/hello".toList) = some h :=
  ⟨rfl, Subnode.child (List.mem_singleton.2 rfl) (Subnode.self _),
    stored_pattern_has_handler [Route.mk "GET".toList "/hello".toList ()] "GET".toList
      (node.mk [] [] [node.mk "/hello".toList "hello".toList [] false] false)
      (node.mk "/hello".toList "hello".toList [] false) rfl
      (Subnode.child (List.mem_singleton.2 rfl) (Subnode.self _)) (by decide)⟩

/-! ## Lemmas on `search` -/

theorem search_nil (n : node) :
    node.search [] n = if n.pattern = [] then none else some n := by
  simp [node.search]

theorem search_cons (part : Str) (rest : List Str) (n : node) :
    node.search (part :: rest) n =
      if isStar n.part = true then (if n.pattern = [] then none else some n)
      else (n.children.filter (node.matchesPart part)).findSome? (node.search rest) := by
  simp [node.search, hasPrefix_star, node.matchChildren]

/-- A node returned by `search` stores a pattern. -/
theorem search_pattern_ne_nil :
    ∀ (segs : List Str) (n m : node), node.search segs n = some m → m.pattern ≠ [] := by
  intro segs
  induction segs with
  | nil =>
    intro n m h
    rw [search_nil] at h
    split at h
    · cases h
    · injection h with h; rw [← h]; assumption
  | cons s ss ih =>
    intro n m h
    rw [search_cons] at h
    split at h
    · split at h
      · cases h
      · injection h with h; rw [← h]; assumption
    · obtain ⟨c, _, hc⟩ := List.exists_of_findSome?_eq_some h
      exact ih c m hc

/-- A node returned by `search` lies at most `len(parts)` levels below the
node searched from. -/
theorem search_depth {P : Nat → Str → Prop} :
    ∀ (segs : List Str) (d : Nat) (n m : node), NodesOK P d n →
      node.search segs n = some m → ∃ k, k ≤ segs.length ∧ P (d + k) m.pattern := by
  intro segs
  induction segs with
  | nil =>
    intro d n m hn h
    rw [search_nil] at h
    split at h
    · cases h
    · injection h with h
      subst h
      exact ⟨0, Nat.le_refl _, hn.here (by assumption)⟩
  | cons s ss ih =>
    intro d n m hn h
    rw [search_cons] at h
    split at h
    · split at h
      · cases h
      · injection h with h
        subst h
        exact ⟨0, Nat.zero_le _, hn.here (by assumption)⟩
    · obtain ⟨c, hc, hcm⟩ := List.exists_of_findSome?_eq_some h
      obtain ⟨k, hk, hP⟩ := ih (d + 1) c m (hn.kids c (List.mem_filter.1 hc).1) hcm
      refine ⟨k + 1, by simp only [List.length_cons]; omega, ?_⟩
      rw [show d + (k + 1) = d + 1 + k by omega]
      exact hP

/-! ## Lemmas on the parameter loop of `getRoute` -/

theorem bindParams_nil_part (segs rest : List Str) (i : Nat) (params : Params) :
    bindParams segs ([] :: rest) i params = none := rfl

theorem bindParams_colon (segs rest : List Str) (name : Str) (i : Nat) (params : Params) :
    bindParams segs ((':' :: name) :: rest) i params =
      (segs.get? i).bind fun v =>
        bindParams segs rest (i + 1) (Function.update params name (some v)) := by
  cases h : segs.get? i with
  | none =>
    have h2 : segs[i]? = none := by simpa using h
    simp [bindParams, h2]
  | some v =>
    have h2 : segs[i]? = some v := by simpa using h
    simp [bindParams, h2]

theorem bindParams_star (segs rest : List Str) (name : Str) (hname : name ≠ []) (i : Nat)
    (params : Params) :
    bindParams segs (('*' :: name) :: rest) i params =
      if i ≤ segs.length then
        some (Function.update params name (some (Join ['/'] (segs.drop i))))
      else none := by
  have h : 1 < (name.length + 1) := by
    have := List.length_pos.2 hname
    omega
  simp [bindParams, h]

theorem bindParams_other (segs rest : List Str) (ch : Char) (name : Str) (i : Nat)
    (params : Params) (h1 : ch ≠ ':') (h2 : ¬ (ch = '*' ∧ name ≠ [])) :
    bindParams segs ((ch :: name) :: rest) i params = bindParams segs rest (i + 1) params := by
  have h3 : ch = '*' → ¬ 0 < name.length := fun a b => h2 ⟨a, List.length_pos.1 b⟩
  simp only [bindParams, h1, if_false, Option.some_bind, List.length_cons]
  split
  · rename_i h4
    exact absurd (by omega) (h3 h4.1)
  · rfl

/-- The three ways a non-empty segment is treated by the parameter loop. -/
theorem part_cases (ch : Char) (name : Str) :
    ch = ':' ∨ (ch = '*' ∧ name ≠ []) ∨ (ch ≠ ':' ∧ ¬ (ch = '*' ∧ name ≠ [])) := by
  by_cases h1 : ch = ':'
  · exact Or.inl h1
  · by_cases h2 : ch = '*' ∧ name ≠ []
    · exact Or.inr (Or.inl h2)
    · exact Or.inr (Or.inr ⟨h1, h2⟩)

theorem not_bindsName_other {ch : Char} {nm : Str} (h1 : ch ≠ ':')
    (h2 : ¬ (ch = '*' ∧ nm ≠ [])) (name : Str) : ¬ bindsName (ch :: nm) name := by
  rintro (h | ⟨h, h3⟩)
  · injection h with a b; exact h1 a
  · injection h with a b
    exact h2 ⟨a, by rw [b]; exact h3⟩

/-- The loop leaves alone every name that no visited segment binds. -/
theorem bindParams_frame (segs : List Str) (name : Str) :
    ∀ (parts : List Str) (i : Nat) (params ps : Params),
      bindParams segs parts i params = some ps →
      (∀ p ∈ parts, ¬ bindsName p name) → ps name = params name := by
  intro parts
  induction parts with
  | nil =>
    intro i params ps h _
    simp only [bindParams] at h
    injection h with h
    rw [h]
  | cons part rest ih =>
    intro i params ps h hb
    have hrest : ∀ p ∈ rest, ¬ bindsName p name := fun p hp => hb p (List.mem_cons_of_mem _ hp)
    have hpart : ¬ bindsName part name := hb part (List.mem_cons_self _ _)
    cases part with
    | nil => rw [bindParams_nil_part] at h; cases h
    | cons ch nm =>
      rcases part_cases ch nm with h1 | ⟨h1, h2⟩ | ⟨h1, h2⟩
      · subst h1
        rw [bindParams_colon] at h
        cases hv : segs.get? i with
        | none => rw [hv] at h; cases h
        | some v =>
          rw [hv] at h
          simp only [Option.some_bind] at h
          rw [ih _ _ _ h hrest]
          have hne : name ≠ nm := fun e => hpart (Or.inl (by rw [e]))
          exact Function.update_noteq hne _ _
      · subst h1
        rw [bindParams_star _ _ _ h2] at h
        split at h
        · injection h with h
          rw [← h]
          have hne : name ≠ nm := fun e => hpart (Or.inr ⟨by rw [e], by rw [e]; exact h2⟩)
          exact Function.update_noteq hne _ _
        · cases h
      · rw [bindParams_other _ _ _ _ _ _ h1 h2] at h
        exact ih _ _ _ h hrest

/-- A `:name` segment at position `j` of the pattern binds `name` to the
segment of the path at the same position, unless a later segment rebinds it. -/
theorem bindParams_at_colon (segs : List Str) (name : Str) :
    ∀ (parts : List Str) (i j : Nat) (params ps : Params),
      bindParams segs parts i params = some ps → StarLast parts →
      parts.get? j = some (':' :: name) →
      (∀ k p, j < k → parts.get? k = some p → ¬ bindsName p name) →
      ∃ v, segs.get? (i + j) = some v ∧ ps name = some v := by
  intro parts
  induction parts with
  | nil => intro i j params ps _ _ hj; simp at hj
  | cons part rest ih =>
    intro i j params ps h hsl hj hlater
    cases j with
    | zero =>
      simp only [List.get?_cons_zero, Option.some.injEq] at hj
      subst hj
      rw [bindParams_colon] at h
      cases hv : segs.get? i with
      | none => rw [hv] at h; cases h
      | some v =>
        rw [hv] at h
        simp only [Option.some_bind] at h
        refine ⟨v, by simpa using hv, ?_⟩
        rw [bindParams_frame segs name rest _ _ _ h]
        · simp
        · intro p hp
          obtain ⟨k, hk⟩ := List.get?_of_mem hp
          exact hlater (k + 1) p (Nat.succ_pos _) (by simpa using hk)
    | succ j =>
      simp only [List.get?_cons_succ] at hj
      have hrest : rest ≠ [] := by
        intro e; rw [e] at hj; simp at hj
      have hlater2 : ∀ k p, j < k → rest.get? k = some p → ¬ bindsName p name :=
        fun k p hk hp => hlater (k + 1) p (by omega) (by simpa using hp)
      have e : i + (j + 1) = i + 1 + j := by omega
      cases part with
      | nil => rw [bindParams_nil_part] at h; cases h
      | cons ch nm =>
        rcases part_cases ch nm with h1 | ⟨h1, _⟩ | ⟨h1, h2⟩
        · subst h1
          rw [bindParams_colon] at h
          cases hv : segs.get? i with
          | none => rw [hv] at h; cases h
          | some v =>
            rw [hv] at h
            simp only [Option.some_bind] at h
            rw [e]
            exact ih _ _ _ _ h hsl.2 hj hlater2
        · subst h1
          exact absurd (hsl.1 (by simp [isStar])) hrest
        · rw [bindParams_other _ _ _ _ _ _ h1 h2] at h
          rw [e]
          exact ih _ _ _ _ h hsl.2 hj hlater2

/-- A `*name` segment at position `j` of the pattern binds `name` to the
segments of the path from position `j` on, joined by `/`. -/
theorem bindParams_at_star (segs : List Str) (name : Str) (hname : name ≠ []) :
    ∀ (parts : List Str) (i j : Nat) (params ps : Params),
      bindParams segs parts i params = some ps → StarLast parts →
      parts.get? j = some ('*' :: name) →
      ps name = some (Join ['/'] (segs.drop (i + j))) := by
  intro parts
  induction parts with
  | nil => intro i j params ps _ _ hj; simp at hj
  | cons part rest ih =>
    intro i j params ps h hsl hj
    cases j with
    | zero =>
      simp only [List.get?_cons_zero, Option.some.injEq] at hj
      subst hj
      rw [bindParams_star _ _ _ hname] at h
      split at h
      · injection h with h
        rw [← h]
        simp
      · cases h
    | succ j =>
      simp only [List.get?_cons_succ] at hj
      have hrest : rest ≠ [] := by
        intro e; rw [e] at hj; simp at hj
      have e : i + (j + 1) = i + 1 + j := by omega
      cases part with
      | nil => rw [bindParams_nil_part] at h; cases h
      | cons ch nm =>
        rcases part_cases ch nm with h1 | ⟨h1, _⟩ | ⟨h1, h2⟩
        · subst h1
          rw [bindParams_colon] at h
          cases hv : segs.get? i with
          | none => rw [hv] at h; cases h
          | some v =>
            rw [hv] at h
            simp only [Option.some_bind] at h
            rw [e]
            exact ih _ _ _ _ h hsl.2 hj
        · subst h1
          exact absurd (hsl.1 (by simp [isStar])) hrest
        · rw [bindParams_other _ _ _ _ _ _ h1 h2] at h
          rw [e]
          exact ih _ _ _ _ h hsl.2 hj

/-! ## Lemmas on `getRoute` -/

/-- What a match returned by `getRoute` consists of. -/
theorem getRoute_eq_match {H : Type} {r : router H} {method path : Str} {n : node}
    {params : Params} (h : r.getRoute method path = some (some (n, params))) :
    ∃ root, r.roots method = some root ∧
      root.search (parsePattern path) = some n ∧
      bindParams (parsePattern path) (parsePattern n.pattern) 0 (fun _ => none) =
        some params := by
  unfold router.getRoute at h
  simp only at h
  split at h
  · cases h
  · rename_i root hroot
    refine ⟨root, hroot, ?_⟩
    split at h
    · rename_i n1 hn1
      cases hb : bindParams (parsePattern path) (parsePattern n1.pattern) 0 (fun _ => none) with
      | none => rw [hb] at h; cases h
      | some ps =>
        rw [hb] at h
        simp only [Option.map_some', Option.some.injEq, Prod.mk.injEq] at h
        obtain ⟨h1, h2⟩ := h
        subst h1
        subst h2
        exact ⟨hn1, hb⟩
    · cases h

/-- The result of `getRoute` when the trie of the method finds a node and the
parameter loop succeeds. -/
theorem getRoute_of_search {H : Type} {r : router H} {method path : Str} {root n : node}
    {params : Params} (hroot : r.roots method = some root)
    (hn : root.search (parsePattern path) = some n)
    (hb : bindParams (parsePattern path) (parsePattern n.pattern) 0 (fun _ => none) =
      some params) :
    r.getRoute method path = some (some (n, params)) := by
  unfold router.getRoute
  simp [hroot, hn, hb]

/-- The result of `getRoute` when the trie of the method finds nothing. -/
theorem getRoute_of_search_none {H : Type} {r : router H} {method path : Str} {root : node}
    (hroot : r.roots method = some root)
    (hn : root.search (parsePattern path) = none) :
    r.getRoute method path = some none := by
  unfold router.getRoute
  simp [hroot, hn]

/-- In a reachable router a matched node stores a pattern with at most as many
parsed segments as the path. -/
theorem getRoute_length_le {H : Type} (calls : List (Route H)) {method path : Str}
    {n : node} {params : Params}
    (h : (buildRouter calls).getRoute method path = some (some (n, params))) :
    (parsePattern n.pattern).length ≤ (parsePattern path).length := by
  obtain ⟨root, hroot, hn, _⟩ := getRoute_eq_match h
  obtain ⟨k, hk, _, hlen⟩ := search_depth _ 0 root n (buildRouter_sound calls method root hroot) hn
  omega

/-- When `getRoute` succeeds on a reachable router and the matched node's
stored pattern has the segment `*name` (name non-empty) at index `i`, which is
then its last parsed segment, the parameter map binds `name` to what
`parsePattern` makes of the request path, from index `i` on, joined by `/`, and
that value is non-empty. -/
theorem star_binding_parsed {H : Type} (calls : List (Route H)) (method path name : Str)
    (n : node) (params : Params) (i : Nat)
    (hget : (buildRouter calls).getRoute method path = some (some (n, params)))
    (hstar : (parsePattern n.pattern).get? i = some ('*' :: name)) (hname : name ≠ []) :
    i + 1 = (parsePattern n.pattern).length ∧
      params name = some (Join ['/'] ((parsePattern path).drop i)) ∧
      Join ['/'] ((parsePattern path).drop i) ≠ [] := by
  have hlen := getRoute_length_le calls hget
  obtain ⟨root, hroot, hn, hb⟩ := getRoute_eq_match hget
  have hi : i < (parsePattern n.pattern).length := by
    rcases Nat.lt_or_ge i (parsePattern n.pattern).length with h | h
    · exact h
    · rw [List.get?_eq_none.2 h] at hstar; cases hstar
  refine ⟨?_, ?_, ?_⟩
  · -- a `*` segment is the last one
    have key : ∀ (l : List Str) (j : Nat), StarLast l → l.get? j = some ('*' :: name) →
        j + 1 = l.length := by
      intro l
      induction l with
      | nil => intro j _ hj; simp at hj
      | cons a l ih =>
        intro j hsl hj
        cases j with
        | zero =>
          simp only [List.get?_cons_zero, Option.some.injEq] at hj
          have := hsl.1 (by rw [hj]; simp [isStar])
          simp [this]
        | succ j =>
          simp only [List.get?_cons_succ] at hj
          simp only [List.length_cons]
          rw [ih j hsl.2 hj]
    exact key _ _ (parsePattern_starLast _) hstar
  · have := bindParams_at_star (parsePattern path) name hname _ 0 i _ _ hb
      (parsePattern_starLast _) hstar
    simpa using this
  · apply join_ne_nil
    · intro e
      have := congrArg List.length e
      simp only [List.length_drop, List.length_nil] at this
      omega
    · intro p hp
      exact parsePattern_ne_nil path p (List.mem_of_mem_drop hp)

/-! ## gee.go: the middleware list of a request -/

theorem collect_eq (path : Str) :
    ∀ (groups : List RouterGroup) (acc : List HandlerFunc),
      Engine.collect path groups acc =
        acc ++ (groups.filter fun g => HasPrefix path g.groupPrefix).flatMap
          fun g => g.middlewares := by
  intro groups
  induction groups with
  | nil => intro acc; simp [Engine.collect]
  | cons g gs ih =>
    intro acc
    by_cases h : HasPrefix path g.groupPrefix = true
    · simp [Engine.collect, h, ih, List.filter_cons, List.flatMap_cons]
    · simp only [Bool.not_eq_true] at h
      simp [Engine.collect, h, ih, List.filter_cons]

/-- C8. For every engine built by `Group` and `Use` calls and every request, the
middleware list that `ServeHTTP` puts in the context before routing is the
concatenation, in group creation order, of the middleware lists of exactly the
groups whose prefix is a string prefix of the path.  A group `/api` with
middleware `[X]` contributes `X` for `/api/users` and nothing for `/other`. -/
theorem serve_middlewares (calls : List Setup) (method path : Str) (X : HandlerFunc) :
    ((buildEngine calls).serveContext method path).handlers =
        (((buildEngine calls).groups.filter fun g => g.groupPrefix <+: path).flatMap
          fun g => g.middlewares) ∧
    ((buildEngine [Setup.group 0 "/api".toList, Setup.use 1 [X]]).serveContext method
        "/api/users".toList).handlers = [X] ∧
    ((buildEngine [Setup.group 0 "/api".toList, Setup.use 1 [X]]).serveContext method
        "/other".toList).handlers = [] := by
  refine ⟨?_, rfl, rfl⟩
  simp only [Engine.serveContext, collect_eq, List.nil_append]
  congr 1
  apply List.filter_congr
  intro g _
  rw [Bool.eq_iff_iff, decide_eq_true_iff]
  exact List.isPrefixOf_iff_prefix

/-! ## context.go: the handler chain -/

namespace Context

@[simp] theorem log_handlers (c : Context) (e : Event) : (c.log e).handlers = c.handlers := rfl
@[simp] theorem log_index (c : Context) (e : Event) : (c.log e).index = c.index := rfl
@[simp] theorem log_trace (c : Context) (e : Event) : (c.log e).trace = c.trace ++ [e] := rfl
@[simp] theorem setIndex_handlers (c : Context) (v : Int) :
    (c.setIndex v).handlers = c.handlers := rfl
@[simp] theorem setIndex_index (c : Context) (v : Int) : (c.setIndex v).index = v := rfl
@[simp] theorem setIndex_trace (c : Context) (v : Int) :
    (c.setIndex v).trace = c.trace ++ [Event.index v] := rfl
theorem SameRun.refl (c : Context) : SameRun c c :=
  ⟨rfl, rfl, rfl, rfl, rfl, rfl, [], by simp⟩

theorem SameRun.trans {a b c : Context} (h1 : SameRun a b) (h2 : SameRun b c) :
    SameRun a c := by
  obtain ⟨a1, a2, a3, a4, a5, a6, m1, a7⟩ := h1
  obtain ⟨b1, b2, b3, b4, b5, b6, m2, b7⟩ := h2
  exact ⟨b1.trans a1, b2.trans a2, b3.trans a3, b4.trans a4, b5.trans a5, b6.trans a6,
    m1 ++ m2, by rw [b7, a7, List.append_assoc]⟩

theorem SameRun.of_setHeader (c : Context) (key value : Str) :
    SameRun c (c.SetHeader key value) :=
  ⟨rfl, rfl, rfl, rfl, rfl, rfl, [Write.header key value], rfl⟩

/-- `Status` either returns, having changed the response only, or panics with
nothing but `StatusCode` set. -/
theorem Status_spec (c : Context) (code : Int) :
    (∃ c1, c.Status code = (Outcome.returned, c1) ∧ SameRun c c1) ∨
    (∃ v c1, c.Status code = (Outcome.panicked v, c1.log (Event.panicked v)) ∧
      SameRun c c1 ∧ c1.Writer = c.Writer ∧ c1.StatusCode = code) := by
  by_cases h : ({ c with StatusCode := code } : Context).wroteHeader = true ∨
      (100 ≤ code ∧ code ≤ 999)
  · refine Or.inl ⟨{ c with StatusCode := code, Writer := c.Writer ++ [Write.status code] },
      ?_, rfl, rfl, rfl, rfl, rfl, rfl, [Write.status code], rfl⟩
    simp only [Status, h, if_true]
  · refine Or.inr ⟨"invalid WriteHeader code".toList, { c with StatusCode := code }, ?_,
      ⟨rfl, rfl, rfl, rfl, rfl, rfl, [], by simp⟩, rfl, rfl⟩
    simp only [Status, h, if_false]

/-- With a code that `WriteHeader` accepts, `Status` returns. -/
theorem Status_valid (c : Context) (code : Int) (h1 : 100 ≤ code) (h2 : code ≤ 999) :
    c.Status code = (Outcome.returned,
      { c with StatusCode := code, Writer := c.Writer ++ [Write.status code] }) := by
  unfold Status
  simp only [h1, h2, and_self, or_true, if_true]

theorem String_spec (c : Context) (code : Int) (text : Str) :
    (∃ c1, c.String code text = (Outcome.returned, c1) ∧ SameRun c c1) ∨
    (∃ v c1, c.String code text = (Outcome.panicked v, c1.log (Event.panicked v)) ∧
      SameRun c c1) := by
  unfold String
  rcases Status_spec (c.SetHeader "Content-Type".toList "text/plain".toList) code with
    ⟨c1, h1, h2⟩ | ⟨v, c1, h1, h2, _⟩
  · rw [h1]
    refine Or.inl ⟨_, rfl, SameRun.trans (SameRun.of_setHeader c _ _) (SameRun.trans h2 ?_)⟩
    exact ⟨rfl, rfl, rfl, rfl, rfl, rfl, [Write.bytes text], rfl⟩
  · rw [h1]
    exact Or.inr ⟨v, c1, rfl, SameRun.trans (SameRun.of_setHeader c _ _) h2⟩

theorem String_valid (c : Context) (code : Int) (text : Str) (h1 : 100 ≤ code)
    (h2 : code ≤ 999) :
    c.String code text = (Outcome.returned,
      { c with StatusCode := code, Writer := c.Writer ++
        [Write.header "Content-Type".toList "text/plain".toList, Write.status code,
          Write.bytes text] }) := by
  unfold String
  rw [Status_valid _ code h1 h2]
  simp [SetHeader]

theorem JSON_spec (c : Context) (code : Int) (obj : List (Str × Str)) :
    (∃ c1, c.JSON code obj = (Outcome.returned, c1) ∧ SameRun c c1) ∨
    (∃ v c1, c.JSON code obj = (Outcome.panicked v, c1.log (Event.panicked v)) ∧
      SameRun c c1) := by
  unfold JSON
  rcases Status_spec (c.SetHeader "Content-Type".toList "application/json".toList) code with
    ⟨c1, h1, h2⟩ | ⟨v, c1, h1, h2, _⟩
  · rw [h1]
    refine Or.inl ⟨_, rfl, SameRun.trans (SameRun.of_setHeader c _ _) (SameRun.trans h2 ?_)⟩
    exact ⟨rfl, rfl, rfl, rfl, rfl, rfl, [Write.json obj], rfl⟩
  · rw [h1]
    exact Or.inr ⟨v, c1, rfl, SameRun.trans (SameRun.of_setHeader c _ _) h2⟩

theorem JSON_valid (c : Context) (code : Int) (obj : List (Str × Str)) (h1 : 100 ≤ code)
    (h2 : code ≤ 999) :
    c.JSON code obj = (Outcome.returned,
      { c with StatusCode := code, Writer := c.Writer ++
        [Write.header "Content-Type".toList "application/json".toList, Write.status code,
          Write.json obj] }) := by
  unfold JSON
  rw [Status_valid _ code h1 h2]
  simp [SetHeader]

/-- `Fail` logs the call and moves the cursor to the end of the chain; then it
either returns, having changed the response only, or panics. -/
theorem Fail_spec (c : Context) (code : Int) (err : Str) :
    (∃ c1, c.Fail code err = (Outcome.returned, c1) ∧
      SameRun ((c.log (Event.failed code err)).setIndex c.handlers.length) c1) ∨
    (∃ v c1, c.Fail code err = (Outcome.panicked v, c1.log (Event.panicked v)) ∧
      SameRun ((c.log (Event.failed code err)).setIndex c.handlers.length) c1) :=
  JSON_spec _ code _

/-- With a code that `WriteHeader` accepts, `Fail` returns, with the cursor at
the end of the chain, `StatusCode` set and the JSON message written. -/
theorem Fail_valid (c : Context) (code : Int) (err : Str) (h1 : 100 ≤ code)
    (h2 : code ≤ 999) :
    c.Fail code err = (Outcome.returned,
      { c with
        StatusCode := code,
        Writer := c.Writer ++
          [Write.header "Content-Type".toList "application/json".toList, Write.status code,
            Write.json [("message".toList, err)]],
        index := c.handlers.length,
        trace := c.trace ++ [Event.failed code err, Event.index c.handlers.length] }) := by
  unfold Fail
  rw [JSON_valid _ code _ h1 h2]
  simp [setIndex, log]

theorem String_handlers (c : Context) (code : Int) (text : Str) :
    (c.String code text).2.handlers = c.handlers := by
  rcases String_spec c code text with ⟨c1, h1, h2⟩ | ⟨v, c1, h1, h2⟩
  · rw [h1]; exact h2.2.2.1
  · rw [h1]; exact h2.2.2.1

theorem Fail_handlers (c : Context) (code : Int) (err : Str) :
    (c.Fail code err).2.handlers = c.handlers := by
  rcases Fail_spec c code err with ⟨c1, h1, h2⟩ | ⟨v, c1, h1, h2⟩
  · rw [h1]; exact h2.2.2.1
  · rw [h1]; exact h2.2.2.1

theorem Fail_index (c : Context) (code : Int) (err : Str) :
    (c.Fail code err).2.index = c.handlers.length := by
  rcases Fail_spec c code err with ⟨c1, h1, h2⟩ | ⟨v, c1, h1, h2⟩
  · rw [h1]; exact h2.2.1
  · rw [h1]; exact h2.2.1

end Context

theorem Outcome.pick_self {P : Context → Prop} {out : Outcome} {c : Context} :
    out.pick P P c ↔ P c := by
  cases out <;> exact Iff.rfl

theorem Stable.of_string {P Q : Context → Prop} (hP : Stable P Q) (c : Context)
    (code : Int) (text : Str) (hp : P c) :
    (c.String code text).1.pick P Q (c.String code text).2 := by
  rcases Context.String_spec c code text with ⟨c1, h1, h2⟩ | ⟨v, c1, h1, h2⟩
  · rw [h1]; exact hP.writes c c1 hp h2
  · rw [h1]; exact hP.panic c1 v (hP.writes c c1 hp h2)

theorem Stable.of_fail {P Q : Context → Prop} (hP : Stable P Q) (c : Context)
    (code : Int) (err : Str) (hp : P c) :
    (c.Fail code err).1.pick P Q (c.Fail code err).2 := by
  rcases Context.Fail_spec c code err with ⟨c1, h1, h2⟩ | ⟨v, c1, h1, h2⟩
  · rw [h1]; exact hP.writes _ c1 (hP.failing c code err hp) h2
  · rw [h1]; exact hP.panic c1 v (hP.writes _ c1 (hP.failing c code err hp) h2)

/-- The `Fail` call of `Recovery` returns and leads from `Q` back to `P`. -/
theorem Stable.of_recover {P Q : Context → Prop} (hP : Stable P Q) (c : Context)
    (hq : Q c) :
    ∃ c1, c.Fail 500 "Internal Server Error".toList = (Outcome.returned, c1) ∧
      c1.handlers = c.handlers ∧ P c1 := by
  have h := hP.recover c hq
  rw [Context.Fail_valid c 500 _ (by decide) (by decide)] at h
  exact ⟨_, Context.Fail_valid c 500 _ (by decide) (by decide), rfl, h⟩

/-- A property that the first two statements of `Fail` and changes of the
response keep is kept by the `Fail` call of `Recovery`. -/
theorem recover_of_failing {P : Context → Prop}
    (hf : ∀ c code err, P c →
      P ((c.log (Event.failed code err)).setIndex c.handlers.length))
    (hw : ∀ c c1, P c → SameRun c c1 → P c1) (c : Context) (h : P c) :
    P (c.Fail 500 "Internal Server Error".toList).2 := by
  rcases Context.Fail_spec c 500 "Internal Server Error".toList with
    ⟨c1, h1, h2⟩ | ⟨v, c1, h1, h2⟩
  · rw [h1]; exact hw _ c1 (hf c _ _ h) h2
  · rw [Context.Fail_valid c 500 _ (by decide) (by decide)] at h1
    cases h1

namespace Context

/-- The loop of `Next` is over once the cursor is past the end. -/
theorem nextLoop_done (fuel : Nat) (s : Int) (c : Context) (h : ¬ c.index < s) :
    nextLoop fuel s c = some (Outcome.returned, c) := by
  cases fuel <;> simp [nextLoop, h]

/-- One round of the loop of `Next`. -/
theorem nextLoop_step (fuel : Nat) (s : Int) (c : Context) (h : HandlerFunc)
    (h1 : c.index < s) (h2 : 0 ≤ c.index) (h3 : c.handlers.get? c.index.toNat = some h) :
    nextLoop (fuel + 1) s c =
      match runHandler (Next fuel) h (c.log (Event.enter c.index)) with
      | some (Outcome.returned, c1) => nextLoop fuel s (c1.setIndex (c1.index + 1))
      | other => other := by
  have h4 : ¬ c.index < 0 := by omega
  have h5 : c.handlers[c.index.toNat]? = some h := by simpa using h3
  simp only [nextLoop, h1, h4, if_true, if_false, List.get?_eq_getElem?, h5]
  rfl

theorem runActs_keeps2 {hs : List HandlerFunc} {P Q : Context → Prop} (hP : Stable P Q)
    {next : Context → Option (Outcome × Context)} (hnext : Keeps2 hs P Q next) :
    ∀ body : List Act, Keeps2 hs P Q (runActs next body) := by
  intro body
  induction body with
  | nil =>
    intro c out c1 hc hp h
    simp only [runActs, Option.some.injEq, Prod.mk.injEq] at h
    rw [← h.2, ← h.1]; exact ⟨hc, hp⟩
  | cons a k ih =>
    intro c out c1 hc hp h
    cases a with
    | record tag =>
      simp only [runActs] at h
      exact ih _ _ _ (by simpa using hc) (hP.note c tag hp) h
    | next =>
      simp only [runActs] at h
      cases hn : next c with
      | none => rw [hn] at h; cases h
      | some r =>
        obtain ⟨o, c2⟩ := r
        rw [hn] at h
        have h2 := hnext c o c2 hc hp hn
        cases o with
        | returned => exact ih _ _ _ h2.1 h2.2 h
        | panicked v =>
          simp only [Option.some.injEq, Prod.mk.injEq] at h
          rw [← h.2, ← h.1]; exact h2
    | fail code err =>
      simp only [runActs] at h
      have h1 := hP.of_fail c code err hp
      have h2 := Fail_handlers c code err
      cases hf : c.Fail code err with
      | mk o c2 =>
        rw [hf] at h h1 h2
        cases o with
        | returned => exact ih _ _ _ (h2.trans hc) h1 h
        | panicked v =>
          simp only [Option.some.injEq, Prod.mk.injEq] at h
          rw [← h.2, ← h.1]; exact ⟨h2.trans hc, h1⟩
    | string code text =>
      simp only [runActs] at h
      have h1 := hP.of_string c code text hp
      have h2 := String_handlers c code text
      cases hf : c.String code text with
      | mk o c2 =>
        rw [hf] at h h1 h2
        cases o with
        | returned => exact ih _ _ _ (h2.trans hc) h1 h
        | panicked v =>
          simp only [Option.some.injEq, Prod.mk.injEq] at h
          rw [← h.2, ← h.1]; exact ⟨h2.trans hc, h1⟩
    | panic v =>
      simp only [runActs, Option.some.injEq, Prod.mk.injEq] at h
      rw [← h.2, ← h.1]; exact ⟨hc, hP.panic c v hp⟩

theorem runHandler_keeps2 {hs : List HandlerFunc} {P Q : Context → Prop} (hP : Stable P Q)
    {next : Context → Option (Outcome × Context)} (hnext : Keeps2 hs P Q next)
    (h : HandlerFunc) (hsw : ∀ body, h = HandlerFunc.recovering body → ∀ c, Q c → P c) :
    Keeps2 hs P Q (runHandler next h) := by
  intro c out c1 hc hp hrun
  cases h with
  | steps body => exact runActs_keeps2 hP hnext body c out c1 hc hp hrun
  | recovering body =>
    simp only [runHandler] at hrun
    cases hn : runActs next body c with
    | none => rw [hn] at hrun; cases hrun
    | some r =>
      obtain ⟨o, c2⟩ := r
      rw [hn] at hrun
      have h2 := runActs_keeps2 hP hnext body c o c2 hc hp hn
      cases o with
      | returned =>
        simp only [Option.some.injEq, Prod.mk.injEq] at hrun
        rw [← hrun.2, ← hrun.1]; exact h2
      | panicked v =>
        simp only [Option.some.injEq, Prod.mk.injEq] at hrun
        rw [← hrun.2, ← hrun.1]; exact ⟨h2.1, hsw body rfl c2 h2.2⟩
  | Recovery =>
    simp only [runHandler] at hrun
    cases hn : next c with
    | none => rw [hn] at hrun; cases hrun
    | some r =>
      obtain ⟨o, c2⟩ := r
      rw [hn] at hrun
      have h2 := hnext c o c2 hc hp hn
      cases o with
      | returned =>
        simp only [Option.some.injEq, Prod.mk.injEq] at hrun
        rw [← hrun.2, ← hrun.1]; exact h2
      | panicked v =>
        obtain ⟨c3, h3, h4, h5⟩ := hP.of_recover c2 h2.2
        simp only [h3, Option.some.injEq, Prod.mk.injEq] at hrun
        rw [← hrun.2, ← hrun.1]; exact ⟨h4.trans h2.1, h5⟩
  | notFound =>
    simp only [runHandler, Option.some.injEq] at hrun
    have h1 := hP.of_string c 404 ("404 NOT FOUND: ".toList ++ c.Path ++ ['\n']) hp
    have h2 := String_handlers c 404 ("404 NOT FOUND: ".toList ++ c.Path ++ ['\n'])
    rw [hrun] at h1 h2
    exact ⟨h2.trans hc, h1⟩
  | nilFunc =>
    simp only [runHandler, Option.some.injEq, Prod.mk.injEq] at hrun
    rw [← hrun.2, ← hrun.1]; exact ⟨hc, hP.panic c _ hp⟩

theorem nextLoop_keeps2 {hs : List HandlerFunc} {P Q : Context → Prop} (hP : Stable P Q)
    (hsw : ∀ body, HandlerFunc.recovering body ∈ hs → ∀ c, Q c → P c) :
    ∀ fuel : Nat, Keeps2 hs P Q (nextLoop fuel hs.length) := by
  intro fuel
  induction fuel with
  | zero =>
    intro c out c1 hc hp h
    simp only [nextLoop] at h
    split at h
    · cases h
    · simp only [Option.some.injEq, Prod.mk.injEq] at h
      rw [← h.2, ← h.1]; exact ⟨hc, hp⟩
  | succ fuel ih =>
    have hnext : Keeps2 hs P Q (Next fuel) := by
      intro c out c1 hc hp h
      unfold Next at h
      rw [hc] at h
      exact ih _ _ _ (by simpa using hc) (hP.incr c hp) h
    intro c out c1 hc hp h
    by_cases h1 : c.index < (hs.length : Int)
    · by_cases h2 : 0 ≤ c.index
      · cases h3 : c.handlers.get? c.index.toNat with
        | none =>
          have h5 : c.handlers[c.index.toNat]? = none := by simpa using h3
          have h4 : ¬ c.index < 0 := by omega
          simp only [nextLoop, h1, h4, if_true, if_false, List.get?_eq_getElem?, h5,
            Option.some.injEq, Prod.mk.injEq] at h
          rw [← h.2, ← h.1]; exact ⟨hc, hP.panic c _ hp⟩
        | some hd =>
          rw [nextLoop_step fuel _ c hd h1 h2 h3] at h
          have hmem : hd ∈ hs := by
            rw [← hc]; exact List.get?_mem h3
          have hp0 : P (c.log (Event.enter c.index)) :=
            hP.enter c hp h2 (by rw [hc]; exact h1)
          cases hr : runHandler (Next fuel) hd (c.log (Event.enter c.index)) with
          | none => rw [hr] at h; cases h
          | some r =>
            obtain ⟨o, c2⟩ := r
            rw [hr] at h
            have h6 := runHandler_keeps2 hP hnext hd
              (fun body hb => hsw body (by rw [← hb]; exact hmem))
              _ o c2 (by simpa using hc) hp0 hr
            cases o with
            | returned =>
              exact ih _ _ _ (by simpa using h6.1) (hP.incr c2 h6.2) h
            | panicked v =>
              simp only [Option.some.injEq, Prod.mk.injEq] at h
              rw [← h.2, ← h.1]; exact h6
      · have h4 : c.index < 0 := by omega
        simp only [nextLoop, h1, h4, if_true, Option.some.injEq, Prod.mk.injEq] at h
        rw [← h.2, ← h.1]; exact ⟨hc, hP.panic c _ hp⟩
    · rw [nextLoop_done _ _ _ h1] at h
      simp only [Option.some.injEq, Prod.mk.injEq] at h
      rw [← h.2, ← h.1]; exact ⟨hc, hp⟩

theorem Next_keeps2 {hs : List HandlerFunc} {P Q : Context → Prop} (hP : Stable P Q)
    (hsw : ∀ body, HandlerFunc.recovering body ∈ hs → ∀ c, Q c → P c)
    (fuel : Nat) : Keeps2 hs P Q (Next fuel) := by
  intro c out c1 hc hp h
  unfold Next at h
  rw [hc] at h
  exact nextLoop_keeps2 hP hsw fuel _ _ _ (by simpa using hc) (hP.incr c hp) h

theorem keeps_iff {hs : List HandlerFunc} {P : Context → Prop}
    {f : Context → Option (Outcome × Context)} : Keeps hs P f ↔ Keeps2 hs P P f := by
  constructor
  · intro h c out c1 hc hp hf
    exact ⟨(h c out c1 hc hp hf).1, Outcome.pick_self.2 (h c out c1 hc hp hf).2⟩
  · intro h c out c1 hc hp hf
    exact ⟨(h c out c1 hc hp hf).1, Outcome.pick_self.1 (h c out c1 hc hp hf).2⟩

theorem runHandler_keeps {hs : List HandlerFunc} {P : Context → Prop} (hP : Stable P P)
    {next : Context → Option (Outcome × Context)} (hnext : Keeps hs P next) :
    ∀ h : HandlerFunc, Keeps hs P (runHandler next h) :=
  fun h => keeps_iff.2 (runHandler_keeps2 hP (keeps_iff.1 hnext) h (fun _ _ _ hq => hq))

theorem nextLoop_keeps {hs : List HandlerFunc} {P : Context → Prop} (hP : Stable P P) :
    ∀ fuel : Nat, Keeps hs P (nextLoop fuel hs.length) :=
  fun fuel => keeps_iff.2 (nextLoop_keeps2 hP (fun _ _ _ hq => hq) fuel)

theorem Next_keeps {hs : List HandlerFunc} {P : Context → Prop} (hP : Stable P P)
    (fuel : Nat) : Keeps hs P (Next fuel) :=
  keeps_iff.2 (Next_keeps2 hP (fun _ _ _ hq => hq) fuel)

end Context

/-! ## Fail: no handler is entered after it -/

theorem snoc_eq_split {α : Type} {tr pre post : List α} {e x : α}
    (h : tr ++ [e] = pre ++ x :: post) :
    (∃ post1, post = post1 ++ [e] ∧ tr = pre ++ x :: post1) ∨
      (post = [] ∧ tr = pre ∧ x = e) := by
  rcases List.eq_nil_or_concat post with h1 | ⟨post1, y, h1⟩
  · subst h1
    have h2 : tr ++ [e] = pre ++ [x] := h
    obtain ⟨h3, h4⟩ := List.append_inj' h2 rfl
    exact Or.inr ⟨rfl, h3, by simpa using h4.symm⟩
  · subst h1
    have h2 : tr ++ [e] = (pre ++ x :: post1) ++ [y] := by simpa using h
    obtain ⟨h3, h4⟩ := List.append_inj' h2 rfl
    have h5 : e = y := by simpa using h4
    exact Or.inl ⟨post1, by rw [h5, List.concat_eq_append], h3⟩

theorem NoEnterAfterFail.snoc {tr : List Event} (h : NoEnterAfterFail tr) (e : Event)
    (he : (∀ j, e ≠ Event.enter j) ∨ ∀ code err, Event.failed code err ∉ tr) :
    NoEnterAfterFail (tr ++ [e]) := by
  intro pre post code err hsplit j hj
  rcases snoc_eq_split hsplit with ⟨post1, h1, h2⟩ | ⟨h1, _, _⟩
  · rw [h1] at hj
    rcases List.mem_append.1 hj with h3 | h3
    · exact h pre post1 code err h2 j h3
    · rcases he with he | he
      · exact he j (List.mem_singleton.1 h3).symm
      · exact he code err (by rw [h2]; simp)
  · rw [h1] at hj; cases hj

theorem failedAtEnd_failing (c : Context) (code : Int) (err : Str) (h : FailedAtEnd c) :
    FailedAtEnd ((c.log (Event.failed code err)).setIndex c.handlers.length) := by
  refine ⟨fun _ _ _ => by simp, ?_⟩
  simp only [Context.setIndex_trace, Context.log_trace]
  exact (h.2.snoc _ (Or.inl (by simp))).snoc _ (Or.inl (by simp))

theorem failedAtEnd_writes (c c1 : Context) (h : FailedAtEnd c) (hs : SameRun c c1) :
    FailedAtEnd c1 := by
  obtain ⟨h1, h2, h3, _⟩ := hs
  refine ⟨fun code err hm => ?_, by rw [h1]; exact h.2⟩
  rw [h2, h3]
  exact h.1 code err (by rw [← h1]; exact hm)

theorem failedAtEnd_stable : Stable FailedAtEnd FailedAtEnd where
  note := by
    intro c tag h
    refine ⟨fun code err hm => h.1 code err ?_, h.2.snoc _ (Or.inl (by simp))⟩
    simpa using hm
  incr := by
    intro c h
    refine ⟨fun code err hm => ?_, h.2.snoc _ (Or.inl (by simp))⟩
    have := h.1 code err (by simpa using hm)
    simp only [Context.setIndex_handlers, Context.setIndex_index]
    omega
  enter := by
    intro c h _ h2
    have hno : ∀ code err, Event.failed code err ∉ c.trace := by
      intro code err hm
      have := h.1 code err hm
      omega
    refine ⟨fun code err hm => ?_, h.2.snoc _ (Or.inr hno)⟩
    exact absurd (by simpa using hm) (hno code err)
  failing := failedAtEnd_failing
  writes := failedAtEnd_writes
  panic := by
    intro c v h
    refine ⟨fun code err hm => h.1 code err ?_, h.2.snoc _ (Or.inl (by simp))⟩
    simpa using hm
  recover := recover_of_failing failedAtEnd_failing failedAtEnd_writes

/-- C5, refuted as stated: a handler calls `Fail(0, "x")` on a response whose
header is not written yet.  `Fail` moves the cursor to the end and sets
`StatusCode` to 0, but `WriteHeader(0)` panics, so that no JSON body is written
and the dispatch ends with that panic. -/
theorem fail_invalid_code_counterexample :
    Context.Next 1 { (NewContext [] []) with handlers :=
        [HandlerFunc.steps [Act.fail 0 "x".toList]] } =
      some (Outcome.panicked "invalid WriteHeader code".toList,
        { Writer := [Write.header "Content-Type".toList "application/json".toList],
          Path := [], Method := [], Params := none, StatusCode := 0,
          handlers := [HandlerFunc.steps [Act.fail 0 "x".toList]],
          index := 1,
          trace := [Event.index 0, Event.enter 0, Event.failed 0 "x".toList, Event.index 1,
            Event.panicked "invalid WriteHeader code".toList] }) := by
  rfl

/-- C5, amended. In a dispatch that starts from a context in which `Fail` was not
called yet, no handler begins executing after a call of `Fail(code, message)`,
whether or not `Next` is called afterwards.  For a code from 100 to 999 `Fail`
returns and leaves the context with `StatusCode = code`, the JSON body
`{"message": message}` written and the cursor at the end of the chain.  For any
other code, on a response whose header is not written yet, `Fail` sets the
cursor and `StatusCode` in the same way, but `WriteHeader` panics and no body is
written. -/
theorem fail_stops_chain (c c1 : Context) (fuel : Nat) (out : Outcome)
    (hfresh : ∀ code err, Event.failed code err ∉ c.trace)
    (hrun : c.Next fuel = some (out, c1)) :
    (∀ pre post code err, c1.trace = pre ++ Event.failed code err :: post →
      ∀ j, Event.enter j ∉ post) ∧
    (∀ (d : Context) (code : Int) (message : Str), 100 ≤ code → code ≤ 999 →
      d.Fail code message = (Outcome.returned,
        { d with
          StatusCode := code,
          Writer := d.Writer ++
            [Write.header "Content-Type".toList "application/json".toList,
              Write.status code, Write.json [("message".toList, message)]],
          index := d.handlers.length,
          trace := d.trace ++ [Event.failed code message, Event.index d.handlers.length] })) ∧
    ∀ (d : Context) (code : Int) (message : Str), ¬ (100 ≤ code ∧ code ≤ 999) →
      d.wroteHeader = false →
      d.Fail code message = (Outcome.panicked "invalid WriteHeader code".toList,
        { d with
          StatusCode := code,
          Writer := d.Writer ++
            [Write.header "Content-Type".toList "application/json".toList],
          index := d.handlers.length,
          trace := d.trace ++ [Event.failed code message, Event.index d.handlers.length,
            Event.panicked "invalid WriteHeader code".toList] }) := by
  refine ⟨?_, fun d code message h1 h2 => Context.Fail_valid d code message h1 h2, ?_⟩
  · have h0 : FailedAtEnd c := by
      refine ⟨fun code err hm => absurd hm (hfresh code err), ?_⟩
      intro pre post code err hsplit
      exact absurd (by rw [hsplit]; simp) (hfresh code err)
    exact (Context.Next_keeps failedAtEnd_stable fuel c out c1 rfl h0 hrun).2.2
  · intro d code message hcode hw
    have hw2 : d.Writer.any (fun w => match w with
        | Write.header _ _ => false
        | _ => true) = false := hw
    simp [Context.Fail, Context.JSON, Context.Status, Context.SetHeader, Context.setIndex,
      Context.log, Context.wroteHeader, hw2, hcode]

/-- C5, amended, on the chain `[A, F, H]`, where `A` wraps `Next` and `F` calls
`Fail(400, "bad")` and then `Next`: the dispatch ends with the events below, in
which nothing is entered after the failure. -/
theorem fail_stops_chain_witness :
    (Context.Next 3 { (NewContext [] []) with handlers :=
        [around "a".toList "z".toList,
          HandlerFunc.steps [Act.fail 400 "bad".toList, Act.next],
          HandlerFunc.steps [Act.record "H".toList]] }).map (fun r => r.2.trace) =
      some [Event.index 0, Event.enter 0, Event.note "a".toList, Event.index 1,
        Event.enter 1, Event.failed 400 "bad".toList, Event.index 3, Event.index 4,
        Event.index 5, Event.note "z".toList, Event.index 6] ∧
    ∀ j, Event.enter j ∉ [Event.index 3, Event.index 4, Event.index 5,
      Event.note "z".toList, Event.index 6] :=
  ⟨by decide,
    (fail_stops_chain
      { (NewContext [] []) with handlers :=
        [around "a".toList "z".toList,
          HandlerFunc.steps [Act.fail 400 "bad".toList, Act.next],
          HandlerFunc.steps [Act.record "H".toList]] }
      { Writer := [Write.header "Content-Type".toList "application/json".toList,
          Write.status 400, Write.json [("message".toList, "bad".toList)]],
        Path := [], Method := [], Params := none, StatusCode := 400,
        handlers := [around "a".toList "z".toList,
          HandlerFunc.steps [Act.fail 400 "bad".toList, Act.next],
          HandlerFunc.steps [Act.record "H".toList]],
        index := 6,
        trace := [Event.index 0, Event.enter 0, Event.note "a".toList, Event.index 1,
          Event.enter 1, Event.failed 400 "bad".toList, Event.index 3, Event.index 4,
          Event.index 5, Event.note "z".toList, Event.index 6] }
      3 Outcome.returned (by intro code err h; cases h) rfl).1
      [Event.index 0, Event.enter 0, Event.note "a".toList, Event.index 1, Event.enter 1]
      [Event.index 3, Event.index 4, Event.index 5, Event.note "z".toList, Event.index 6]
      400 "bad".toList rfl⟩

/-! ## A handler that does not call Next -/

theorem extends_failing (base : List Event) (c : Context) (code : Int) (err : Str)
    (h : Extends base c) :
    Extends base ((c.log (Event.failed code err)).setIndex c.handlers.length) := by
  obtain ⟨post, h⟩ := h
  exact ⟨post ++ [Event.failed code err] ++ [Event.index c.handlers.length], by simp [h]⟩

theorem extends_writes (base : List Event) (c c1 : Context) (h : Extends base c)
    (hs : SameRun c c1) : Extends base c1 := by
  obtain ⟨post, h⟩ := h
  exact ⟨post, by rw [hs.1, h]⟩

theorem extends_stable (base : List Event) : Stable (Extends base) (Extends base) where
  note := by
    rintro c tag ⟨post, h⟩
    exact ⟨post ++ [Event.note tag], by simp [h]⟩
  incr := by
    rintro c ⟨post, h⟩
    exact ⟨post ++ [Event.index (c.index + 1)], by simp [h]⟩
  enter := by
    rintro c ⟨post, h⟩ _ _
    exact ⟨post ++ [Event.enter c.index], by simp [h]⟩
  failing := extends_failing base
  writes := extends_writes base
  panic := by
    rintro c v ⟨post, h⟩
    exact ⟨post ++ [Event.panicked v], by simp [h]⟩
  recover := recover_of_failing (extends_failing base) (extends_writes base)

/-- A body of quiet calls returns, leaving the cursor and the chain alone and
its records in the trace. -/
theorem runActs_quiet (next : Context → Option (Outcome × Context)) :
    ∀ (body : List Act) (c : Context), (∀ a ∈ body, a.quiet = true) →
      ∃ c1, Context.runActs next body c = some (Outcome.returned, c1) ∧
        c1.handlers = c.handlers ∧ c1.index = c.index ∧
        c1.trace = c.trace ++ quietEvents body := by
  intro body
  induction body with
  | nil => intro c _; exact ⟨c, rfl, rfl, rfl, by simp [quietEvents]⟩
  | cons a k ih =>
    intro c hq
    have hk : ∀ a ∈ k, a.quiet = true := fun a ha => hq a (List.mem_cons_of_mem _ ha)
    have ha := hq a (List.mem_cons_self _ _)
    cases a with
    | record tag =>
      obtain ⟨c1, h1, h2, h3, h4⟩ := ih (c.log (Event.note tag)) hk
      exact ⟨c1, by simpa [Context.runActs] using h1, by simpa using h2, by simpa using h3,
        by simp [h4, quietEvents]⟩
    | string code text =>
      have hv : 100 ≤ code ∧ code ≤ 999 := by simpa [Act.quiet] using ha
      have hs := Context.String_valid c code text hv.1 hv.2
      obtain ⟨c1, h1, h2, h3, h4⟩ := ih
        { c with StatusCode := code, Writer := c.Writer ++
          [Write.header "Content-Type".toList "text/plain".toList, Write.status code,
            Write.bytes text] } hk
      exact ⟨c1, by simpa [Context.runActs, hs] using h1, by simpa using h2,
        by simpa using h3, by simp [h4, quietEvents]⟩
    | next => simp [Act.quiet] at ha
    | fail code err => simp [Act.quiet] at ha
    | panic v => simp [Act.quiet] at ha

/-- C4, refuted: on the chain `[A, H]` where `A` only records and returns
without calling `Next` or `Fail`, a single `Next` still enters the handler at
position 1 and `H` runs. -/
theorem no_next_truncates_counterexample :
    (Context.Next 2 { (NewContext [] []) with handlers :=
        [HandlerFunc.steps [Act.record "A".toList],
          HandlerFunc.steps [Act.record "H".toList]] }).map (fun r => r.2.trace) =
      some [Event.index 0, Event.enter 0, Event.note "A".toList, Event.index 1,
        Event.enter 1, Event.note "H".toList, Event.index 2] := by
  decide

/-- C4, amended. When the loop of `Next` stands at a position `i` whose handler
returns without calling `Next` or `Fail` (it only records or writes), and a
handler follows at `i + 1`, the loop enters the handler at `i`, then advances
the cursor to `i + 1` and enters the handler there: the chain is not
truncated. -/
theorem no_next_continues (c c1 : Context) (body : List Act) (fuel : Nat) (out : Outcome)
    (hidx : 0 ≤ c.index)
    (hbody : c.handlers.get? c.index.toNat = some (HandlerFunc.steps body))
    (hquiet : ∀ a ∈ body, a.quiet = true)
    (hmore : c.index + 1 < c.handlers.length)
    (hrun : Context.nextLoop fuel c.handlers.length c = some (out, c1)) :
    ∃ post, c1.trace = c.trace ++ [Event.enter c.index] ++ quietEvents body ++
      [Event.index (c.index + 1), Event.enter (c.index + 1)] ++ post := by
  have hlt : c.index < (c.handlers.length : Int) := by omega
  cases fuel with
  | zero => simp [Context.nextLoop, hlt] at hrun
  | succ fuel =>
    rw [Context.nextLoop_step fuel _ c _ hlt hidx hbody] at hrun
    obtain ⟨c2, h1, h2, h3, h4⟩ :=
      runActs_quiet (Context.Next fuel) body (c.log (Event.enter c.index)) hquiet
    simp only [Context.runHandler, h1] at hrun
    simp only [Context.log_handlers, Context.log_index, Context.log_trace] at h2 h3 h4
    have hlen : (c2.setIndex (c2.index + 1)).handlers.length = c.handlers.length := by
      simp [h2]
    cases fuel with
    | zero =>
      simp only [Context.nextLoop, Context.setIndex_index] at hrun
      split at hrun
      · cases hrun
      · omega
    | succ fuel =>
      have h5 : (c2.setIndex (c2.index + 1)).index < (c.handlers.length : Int) := by
        simp only [Context.setIndex_index]; omega
      have h6 : 0 ≤ (c2.setIndex (c2.index + 1)).index := by
        simp only [Context.setIndex_index]; omega
      have h7 : (c2.setIndex (c2.index + 1)).index.toNat < c.handlers.length := by
        simp only [Context.setIndex_index]; omega
      obtain ⟨hd, h8⟩ : ∃ hd, (c2.setIndex (c2.index + 1)).handlers.get?
          (c2.setIndex (c2.index + 1)).index.toNat = some hd := by
        refine ⟨c.handlers.get ⟨_, h7⟩, ?_⟩
        simp only [Context.setIndex_handlers, h2]
        exact List.get?_eq_get h7
      rw [Context.nextLoop_step fuel _ _ hd h5 h6 h8] at hrun
      have base : Extends
          (c.trace ++ [Event.enter c.index] ++ quietEvents body ++
            [Event.index (c.index + 1), Event.enter (c.index + 1)])
          ((c2.setIndex (c2.index + 1)).log
            (Event.enter (c2.setIndex (c2.index + 1)).index)) :=
        ⟨[], by simp [h3, h4]⟩
      have hnext := @Context.Next_keeps c.handlers _ (extends_stable
        (c.trace ++ [Event.enter c.index] ++ quietEvents body ++
          [Event.index (c.index + 1), Event.enter (c.index + 1)])) fuel
      cases hr : Context.runHandler (Context.Next fuel) hd
          ((c2.setIndex (c2.index + 1)).log
            (Event.enter (c2.setIndex (c2.index + 1)).index)) with
      | none => rw [hr] at hrun; cases hrun
      | some r =>
        obtain ⟨o, c3⟩ := r
        rw [hr] at hrun
        have h9 := Context.runHandler_keeps (extends_stable _) hnext hd _ o c3
          (by simpa using h2) base hr
        cases o with
        | returned =>
          simp only at hrun
          have h10 := @Context.nextLoop_keeps c.handlers _ (extends_stable
            (c.trace ++ [Event.enter c.index] ++ quietEvents body ++
              [Event.index (c.index + 1), Event.enter (c.index + 1)])) fuel
            _ _ _ (by simpa using h9.1)
            ((extends_stable _).incr c3 h9.2) hrun
          exact h10.2
        | panicked v =>
          simp only [Option.some.injEq, Prod.mk.injEq] at hrun
          rw [← hrun.2]; exact h9.2

/-- C4, amended, on the chain `[A, H]` with the loop standing at position 0:
`H` at position 1 is entered right after `A` returns. -/
theorem no_next_continues_witness :
    Context.nextLoop 2 (2 : Nat)
        { Writer := [], Path := [], Method := [], Params := none, StatusCode := 0,
          handlers := [HandlerFunc.steps [Act.record "A".toList],
            HandlerFunc.steps [Act.record "H".toList]],
          index := 0, trace := [Event.index 0] } =
      some (Outcome.returned,
        { Writer := [], Path := [], Method := [], Params := none, StatusCode := 0,
          handlers := [HandlerFunc.steps [Act.record "A".toList],
            HandlerFunc.steps [Act.record "H".toList]],
          index := 2,
          trace := [Event.index 0, Event.enter 0, Event.note "A".toList, Event.index 1,
            Event.enter 1, Event.note "H".toList, Event.index 2] }) ∧
    ∃ post, [Event.index 0, Event.enter 0, Event.note "A".toList, Event.index 1,
        Event.enter 1, Event.note "H".toList, Event.index 2] =
      [Event.index 0] ++ [Event.enter 0] ++ quietEvents [Act.record "A".toList] ++
        [Event.index (0 + 1), Event.enter (0 + 1)] ++ post :=
  ⟨rfl,
    no_next_continues
      { Writer := [], Path := [], Method := [], Params := none, StatusCode := 0,
        handlers := [HandlerFunc.steps [Act.record "A".toList],
          HandlerFunc.steps [Act.record "H".toList]],
        index := 0, trace := [Event.index 0] }
      { Writer := [], Path := [], Method := [], Params := none, StatusCode := 0,
        handlers := [HandlerFunc.steps [Act.record "A".toList],
          HandlerFunc.steps [Act.record "H".toList]],
        index := 2,
        trace := [Event.index 0, Event.enter 0, Event.note "A".toList, Event.index 1,
          Event.enter 1, Event.note "H".toList, Event.index 2] }
      [Act.record "A".toList] 2 Outcome.returned (by decide) rfl (by decide) (by decide) rfl⟩

/-! ## The order of the chain -/

theorem notes_append (a b : List Event) : notes (a ++ b) = notes a ++ notes b := by
  induction a with
  | nil => rfl
  | cons e a ih => cases e <;> simp [notes, ih]

theorem get?_append_length {α : Type} (l : List α) (a : α) (r : List α) :
    (l ++ a :: r).get? l.length = some a := by
  induction l with
  | nil => rfl
  | cons b l ih => simpa using ih

/-- The loop of `Next` over the rest of an onion chain, entered at its first
middleware. -/
theorem nextLoop_onion (h : Str) :
    ∀ (ms : List (Str × Str)) (before : List HandlerFunc) (c : Context) (fuel : Nat),
      c.handlers = before ++ onion ms h → c.index = before.length →
      ms.length + 1 ≤ fuel →
      ∃ c1, Context.nextLoop fuel c.handlers.length c = some (Outcome.returned, c1) ∧
        c1.handlers = c.handlers ∧ (c.handlers.length : Int) ≤ c1.index ∧
        notes c1.trace =
          notes c.trace ++ ms.map (fun m => m.1) ++ [h] ++ (ms.map fun m => m.2).reverse := by
  intro ms
  induction ms with
  | nil =>
    intro before c fuel hc hi hfuel
    obtain ⟨fuel, rfl⟩ : ∃ f, fuel = f + 1 := ⟨fuel - 1, by simp at hfuel; omega⟩
    have hlen : c.handlers.length = before.length + 1 := by simp [hc, onion]
    have h3 : c.handlers.get? c.index.toNat = some (HandlerFunc.steps [Act.record h]) := by
      rw [hc, hi]
      simp only [onion, List.map_nil, List.nil_append, Int.toNat_ofNat]
      exact get?_append_length _ _ _
    rw [Context.nextLoop_step fuel _ c _ (by omega) (by omega) h3]
    simp only [Context.runHandler, Context.runActs]
    rw [Context.nextLoop_done]
    · refine ⟨_, rfl, by simp, by simp; omega, ?_⟩
      simp [notes_append, notes]
    · simp; omega
  | cons m ms ih =>
    intro before c fuel hc hi hfuel
    obtain ⟨fuel, rfl⟩ : ∃ f, fuel = f + 1 := ⟨fuel - 1, by simp at hfuel; omega⟩
    have hlen : c.handlers.length = before.length + (ms.length + 2) := by
      simp [hc, onion]
    have h3 : c.handlers.get? c.index.toNat = some (around m.1 m.2) := by
      rw [hc, hi]
      simp only [onion, List.map_cons, List.cons_append, Int.toNat_ofNat]
      exact get?_append_length _ _ _
    rw [Context.nextLoop_step fuel _ c _ (by omega) (by omega) h3]
    have hc2 : ((c.log (Event.enter c.index)).log (Event.note m.1)).handlers =
        (before ++ [around m.1 m.2]) ++ onion ms h := by
      simp [hc, onion]
    obtain ⟨c1, h4, h5, h6, h7⟩ := ih (before ++ [around m.1 m.2])
      ((((c.log (Event.enter c.index)).log (Event.note m.1))).setIndex
        (((c.log (Event.enter c.index)).log (Event.note m.1)).index + 1)) fuel
      (by simpa using hc2) (by simp [hi]) (by simp at hfuel; omega)
    simp only [Context.setIndex_handlers, Context.log_handlers] at h4 h5 h6
    simp only [around, Context.runHandler, Context.runActs, Context.Next,
      Context.log_handlers, h4]
    rw [Context.nextLoop_done]
    · refine ⟨_, rfl, by simp [h5], by simp; omega, ?_⟩
      simp [notes_append, notes, h7]
    · simp; omega

/-- C3. For a context with index -1 whose chain is `m1 .. mn, H`, each `mi`
recording its before-tag, calling `Next` and recording its after-tag and `H`
only recording its tag, a single `Next` returns, and what it adds to the record
is the before-tags in chain order, then the tag of `H`, then the after-tags in
reverse chain order; for the chain `[A, B, H]` that is A-before, B-before, H,
B-after, A-after. -/
theorem onion_order (c : Context) (ms : List (Str × Str)) (h : Str) (fuel : Nat)
    (hchain : c.handlers = onion ms h) (hindex : c.index = -1)
    (hfuel : ms.length + 1 ≤ fuel) :
    (∃ c1, c.Next fuel = some (Outcome.returned, c1) ∧
      notes c1.trace =
        notes c.trace ++ ms.map (fun m => m.1) ++ [h] ++ (ms.map fun m => m.2).reverse) ∧
    ∀ a1 a2 b1 b2 : Str,
      (Context.Next 3 { (NewContext [] []) with handlers :=
        [around a1 a2, around b1 b2, HandlerFunc.steps [Act.record h]] }).map
          (fun r => notes r.2.trace) = some [a1, b1, h, b2, a2] := by
  refine ⟨?_, fun a1 a2 b1 b2 => rfl⟩
  obtain ⟨c1, h1, _, _, h2⟩ := nextLoop_onion h ms [] (c.setIndex (c.index + 1)) fuel
    (by simpa using hchain) (by simp [hindex]) hfuel
  refine ⟨c1, h1, ?_⟩
  simpa [notes_append, notes] using h2

/-- C3 on the chain `[A, B, H]`. -/
theorem onion_order_witness :
    ∃ c1, Context.Next 3 { (NewContext [] []) with handlers :=
        (onion [("A-before".toList, "A-after".toList), ("B-before".toList, "B-after".toList)]
          "H".toList) } = some (Outcome.returned, c1) ∧
      notes c1.trace = ["A-before".toList, "B-before".toList, "H".toList, "B-after".toList,
        "A-after".toList] :=
  (onion_order { (NewContext [] []) with handlers :=
      (onion [("A-before".toList, "A-after".toList), ("B-before".toList, "B-after".toList)]
        "H".toList) }
    [("A-before".toList, "A-after".toList), ("B-before".toList, "B-after".toList)]
    "H".toList 3 rfl rfl (by decide)).1

/-! ## Tries built without aliasing -/

theorem Faithful.stored {reg : Str → Prop} {pre : List Str} {n : node}
    (h : Faithful reg pre n) : n.pattern ≠ [] → reg n.pattern ∧ parsePattern n.pattern = pre := by
  cases h with
  | mk h1 _ _ => exact h1

theorem Faithful.sub {reg : Str → Prop} {pre : List Str} {n : node}
    (h : Faithful reg pre n) :
    ∀ c ∈ n.children, c.isWild = (isParam c.part || isStar c.part) ∧
      Faithful reg (pre ++ [c.part]) c := by
  cases h with
  | mk _ h2 h3 => exact fun c hc => ⟨h2 c hc, h3 c hc⟩

theorem Faithful.weaken {reg reg2 : Str → Prop} (hreg : ∀ p, reg p → reg2 p) :
    ∀ {pre : List Str} {n : node}, Faithful reg pre n → Faithful reg2 pre n := by
  intro pre n h
  induction h with
  | mk h1 h2 _ ih =>
    exact Faithful.mk (fun hp => ⟨hreg _ (h1 hp).1, (h1 hp).2⟩) h2 ih

theorem Faithful.fresh (reg : Str → Prop) (pre : List Str) (part : Str) :
    Faithful reg pre (node.newChild part) :=
  Faithful.mk (fun h => absurd rfl h) (fun c hc => by simp [node.newChild] at hc)
    (fun c hc => by simp [node.newChild] at hc)

theorem newChild_isWild (part : Str) :
    (node.newChild part).isWild = (isParam part || isStar part) := rfl

theorem aliases_newChild (parts : List Str) (part : Str) :
    node.aliases parts (node.newChild part) = false := by
  cases parts <;> simp [node.aliases, node.newChild, node.matchChild]

theorem aliases_empty (parts : List Str) :
    node.aliases parts (node.mk [] [] [] false) = false := by
  cases parts <;> simp [node.aliases, node.matchChild]

theorem aliases_cons_some {part : Str} {rest : List Str} {n c : node}
    (hc : n.children.find? (node.matchesPart part) = some c)
    (h : node.aliases (part :: rest) n = false) :
    c.part = part ∧ node.aliases rest c = false := by
  simp only [node.aliases, node.matchChild, hc, Bool.or_eq_false_iff, decide_eq_false_iff_not,
    ne_eq, not_not] at h
  exact h

theorem insertInto_mem_none {part : Str} {f : node → node} {cs : List node}
    (h : cs.find? (node.matchesPart part) = none) :
    f (node.newChild part) ∈ node.insertInto part f cs := by
  induction cs with
  | nil => simp [node.insertInto]
  | cons c cs ih =>
    by_cases hm : node.matchesPart part c = true
    · simp [List.find?, hm] at h
    · simp only [Bool.not_eq_true] at hm
      simp only [List.find?, hm] at h
      simp only [node.insertInto, hm, Bool.false_eq_true, if_false]
      exact List.mem_cons_of_mem _ (ih h)

theorem insertInto_mem_some {part : Str} {f : node → node} {cs : List node} {c0 : node}
    (h : cs.find? (node.matchesPart part) = some c0) :
    f c0 ∈ node.insertInto part f cs := by
  induction cs with
  | nil => simp at h
  | cons c cs ih =>
    by_cases hm : node.matchesPart part c = true
    · simp only [List.find?, hm, Option.some.injEq] at h
      subst h
      simp [node.insertInto, hm]
    · simp only [Bool.not_eq_true] at hm
      simp only [List.find?, hm] at h
      simp only [node.insertInto, hm, Bool.false_eq_true, if_false]
      exact List.mem_cons_of_mem _ (ih h)

/-- An insertion that does not alias keeps the trie faithful. -/
theorem Faithful.insert_faithful {reg : Str → Prop} (pattern : Str) (hreg : reg pattern) :
    ∀ (parts pre : List Str) (n : node), Faithful reg pre n →
      parsePattern pattern = pre ++ parts → node.aliases parts n = false →
      Faithful reg pre (node.insert pattern parts n) := by
  intro parts
  induction parts with
  | nil =>
    intro pre n hn hparse _
    rw [node.insert_nil]
    exact Faithful.mk (fun _ => ⟨hreg, by simpa using hparse⟩)
      (fun c hc => (hn.sub c (by simpa using hc)).1)
      (fun c hc => (hn.sub c (by simpa using hc)).2)
  | cons part rest ih =>
    intro pre n hn hparse halias
    rw [node.insert_cons]
    have hparse2 : parsePattern pattern = (pre ++ [part]) ++ rest := by simpa using hparse
    suffices key : ∀ x ∈ node.insertInto part (node.insert pattern rest) n.children,
        x.isWild = (isParam x.part || isStar x.part) ∧ Faithful reg (pre ++ [x.part]) x from
      Faithful.mk (by simpa using hn.stored) (fun c hc => (key c (by simpa using hc)).1)
        (fun c hc => (key c (by simpa using hc)).2)
    intro x hx
    rcases node.mem_insertInto hx with h | ⟨_, h⟩ | ⟨c, hc, h⟩
    · exact hn.sub x h
    · subst h
      refine ⟨by simp [node.newChild, isParam, isStar], ?_⟩
      have e : (node.insert pattern rest (node.newChild part)).part = part := by
        simp [node.newChild]
      rw [e]
      exact ih _ _ (Faithful.fresh reg _ part) hparse2 (aliases_newChild _ _)
    · subst h
      obtain ⟨hpart, hal⟩ := aliases_cons_some hc halias
      have hmem := List.mem_of_find?_eq_some hc
      refine ⟨by simpa using (hn.sub c hmem).1, ?_⟩
      have e : (node.insert pattern rest c).part = part := by simp [hpart]
      rw [e]
      have hc2 := (hn.sub c hmem).2
      rw [hpart] at hc2
      exact ih _ _ hc2 hparse2 hal

/-- A later insertion of a non-empty pattern keeps every route of the trie. -/
theorem HasRoute.insert_other (pattern : Str) (hp : pattern ≠ []) :
    ∀ (parts2 parts : List Str) (n : node), HasRoute parts n →
      HasRoute parts (node.insert pattern parts2 n) := by
  intro parts2
  induction parts2 with
  | nil =>
    intro parts n h
    rw [node.insert_nil]
    cases parts with
    | nil => simpa [HasRoute] using hp
    | cons p ps => simpa [HasRoute] using h
  | cons q qs ih =>
    intro parts n h
    rw [node.insert_cons]
    cases parts with
    | nil => simpa [HasRoute] using h
    | cons p ps =>
      obtain ⟨c, hc, hpart, hroute⟩ := h
      rcases @node.mem_insertInto_of_mem q (node.insert pattern qs) _ _ hc with h1 | h1
      · exact ⟨c, by simpa using h1, hpart, hroute⟩
      · exact ⟨_, by simpa using h1, by simpa using hpart, ih _ _ hroute⟩

/-- An insertion of a non-empty pattern that does not alias creates its route. -/
theorem HasRoute.insert_self (pattern : Str) (hp : pattern ≠ []) :
    ∀ (parts : List Str) (n : node), node.aliases parts n = false →
      HasRoute parts (node.insert pattern parts n) := by
  intro parts
  induction parts with
  | nil => intro n _; rw [node.insert_nil]; simpa [HasRoute] using hp
  | cons part rest ih =>
    intro n halias
    rw [node.insert_cons]
    cases hf : n.children.find? (node.matchesPart part) with
    | none =>
      exact ⟨_, by simpa using insertInto_mem_none hf, by simp [node.newChild],
        ih _ (aliases_newChild _ _)⟩
    | some c =>
      obtain ⟨hpart, hal⟩ := aliases_cons_some hf halias
      exact ⟨_, by simpa using insertInto_mem_some hf, by simpa using hpart, ih _ hal⟩

/-! ## `search` on a faithful trie -/

/-- At a `*` node that stores a pattern `search` stops at once. -/
theorem search_star {n : node} (hstar : isStar n.part = true) (hp : n.pattern ≠ [])
    (segs : List Str) : node.search segs n = some n := by
  cases segs with
  | nil => simp [search_nil, hp]
  | cons s ss => simp [search_cons, hstar, hp]

/-- From a `*` node `search` can only return the node itself. -/
theorem search_star_eq {n m : node} (hstar : isStar n.part = true) {segs : List Str}
    (h : node.search segs n = some m) : m = n := by
  cases segs with
  | nil =>
    rw [search_nil] at h
    split at h
    · cases h
    · injection h with h; exact h.symm
  | cons s ss =>
    rw [search_cons] at h
    simp only [hstar, if_true] at h
    split at h
    · cases h
    · injection h with h; exact h.symm

theorem findSome?_ne_none {α β : Type} {f : α → Option β} {l : List α} {a : α} {b : β}
    (ha : a ∈ l) (hb : f a = some b) : ∃ b2, l.findSome? f = some b2 := by
  cases h : l.findSome? f with
  | some b2 => exact ⟨b2, rfl⟩
  | none =>
    have := List.findSome?_eq_none_iff.1 h a ha
    rw [hb] at this
    cases this

/-- On a faithful trie `search` finds a node whenever some route of the trie
has the shape of the path. -/
theorem search_complete {reg : Str → Prop} :
    ∀ (parts segs pre : List Str) (n : node), Faithful reg pre n → HasRoute parts n →
      matchesShape parts segs = true → (isStar n.part = true → parts = []) →
      ∃ m, node.search segs n = some m := by
  intro parts
  induction parts with
  | nil =>
    intro segs pre n _ hroute hshape _
    cases segs with
    | nil => exact ⟨n, by simpa [search_nil, HasRoute] using hroute⟩
    | cons s ss => simp [matchesShape] at hshape
  | cons p ps ih =>
    intro segs pre n hn hroute hshape hstar
    cases segs with
    | nil => simp [matchesShape] at hshape
    | cons s ss =>
      have hns : ¬ isStar n.part = true := fun h => by cases hstar h
      obtain ⟨c, hc, hpart, hroute2⟩ := hroute
      obtain ⟨hflag, hfc⟩ := hn.sub c hc
      rw [search_cons]
      simp only [hns, if_false]
      simp only [matchesShape] at hshape
      by_cases hps : isStar p = true
      · -- the child is the trailing `*name`
        simp only [hps, if_true, List.isEmpty_iff] at hshape
        subst hshape
        have hcs : isStar c.part = true := by rw [hpart]; exact hps
        have hmatch : node.matchesPart s c = true := by
          simp [node.matchesPart, hflag, hcs]
        exact findSome?_ne_none (List.mem_filter.2 ⟨hc, hmatch⟩)
          (search_star hcs (by simpa [HasRoute] using hroute2) ss)
      · simp only [hps, Bool.false_eq_true, if_false, Bool.and_eq_true, Bool.or_eq_true,
          decide_eq_true_eq] at hshape
        have hmatch : node.matchesPart s c = true := by
          rcases hshape.1 with h | h
          · simp [node.matchesPart, hflag, hpart, h]
          · simp [node.matchesPart, hpart, h]
        obtain ⟨m, hm⟩ := ih ss _ c hfc hroute2 hshape.2
          (fun h => by rw [hpart] at h; exact absurd h hps)
        exact findSome?_ne_none (List.mem_filter.2 ⟨hc, hmatch⟩) hm

/-- On a faithful trie a node returned by `search` stores a registered pattern
whose shape the path has. -/
theorem search_sound {reg : Str → Prop} :
    ∀ (segs pre : List Str) (n m : node), Faithful reg pre n → isStar n.part = false →
      node.search segs n = some m →
      ∃ post, parsePattern m.pattern = pre ++ post ∧ reg m.pattern ∧
        matchesShape post segs = true := by
  intro segs
  induction segs with
  | nil =>
    intro pre n m hn _ h
    rw [search_nil] at h
    split at h
    · cases h
    · rename_i hp
      injection h with h
      subst h
      exact ⟨[], by simpa using (hn.stored hp).2, (hn.stored hp).1, rfl⟩
  | cons s ss ih =>
    intro pre n m hn hns h
    rw [search_cons] at h
    simp only [hns, Bool.false_eq_true, if_false] at h
    obtain ⟨c, hc, hcm⟩ := List.exists_of_findSome?_eq_some h
    obtain ⟨hc1, hmatch⟩ := List.mem_filter.1 hc
    obtain ⟨hflag, hfc⟩ := hn.sub c hc1
    by_cases hcs : isStar c.part = true
    · have e := search_star_eq hcs hcm
      subst e
      have hp := search_pattern_ne_nil _ _ _ hcm
      exact ⟨[m.part], (hfc.stored hp).2, (hfc.stored hp).1, by simp [matchesShape, hcs]⟩
    · simp only [Bool.not_eq_true] at hcs
      obtain ⟨post, h1, h2, h3⟩ := ih _ c m hfc hcs hcm
      refine ⟨c.part :: post, by simpa using h1, h2, ?_⟩
      simp only [matchesShape, hcs, Bool.false_eq_true, if_false, h3, Bool.and_true,
        Bool.or_eq_true, decide_eq_true_eq]
      simp only [node.matchesPart, hflag, hcs, Bool.or_false, Bool.or_eq_true,
        decide_eq_true_eq] at hmatch
      exact hmatch.symm

/-! ## The parameter loop succeeds and binds nothing else -/

/-- The parameter loop succeeds when the path has a segment for every segment
of the pattern. -/
theorem bindParams_total (segs : List Str) :
    ∀ (parts : List Str) (i : Nat) (params : Params), (∀ p ∈ parts, p ≠ []) →
      i + parts.length ≤ segs.length → ∃ ps, bindParams segs parts i params = some ps := by
  intro parts
  induction parts with
  | nil => intro i params _ _; exact ⟨params, rfl⟩
  | cons part rest ih =>
    intro i params hne hlen
    have hrest : ∀ p ∈ rest, p ≠ [] := fun p hp => hne p (List.mem_cons_of_mem _ hp)
    simp only [List.length_cons] at hlen
    cases part with
    | nil => exact absurd rfl (hne [] (List.mem_cons_self _ _))
    | cons ch nm =>
      rcases part_cases ch nm with h1 | ⟨h1, h2⟩ | ⟨h1, h2⟩
      · subst h1
        rw [bindParams_colon]
        have hi : i < segs.length := by omega
        rw [List.get?_eq_get hi]
        exact ih _ _ hrest (by omega)
      · subst h1
        rw [bindParams_star _ _ _ h2]
        have hi : i ≤ segs.length := by omega
        simp [hi]
      · rw [bindParams_other _ _ _ _ _ _ h1 h2]
        exact ih _ _ hrest (by omega)

/-- Every binding in the result of the parameter loop was there before or
comes from a `:name` or `*name` segment of the pattern. -/
theorem bindParams_only (segs : List Str) (name v : Str) :
    ∀ (parts : List Str) (i : Nat) (params ps : Params),
      bindParams segs parts i params = some ps → ps name = some v →
      params name = some v ∨
      ∃ j, (parts.get? j = some (':' :: name) ∧ segs.get? (i + j) = some v) ∨
        (parts.get? j = some ('*' :: name) ∧ name ≠ [] ∧
          v = Join ['/'] (segs.drop (i + j))) := by
  intro parts
  induction parts with
  | nil =>
    intro i params ps h hv
    simp only [bindParams, Option.some.injEq] at h
    rw [← h] at hv
    exact Or.inl hv
  | cons part rest ih =>
    intro i params ps h hv
    have shift : (∃ j, (rest.get? j = some (':' :: name) ∧ segs.get? (i + 1 + j) = some v) ∨
        (rest.get? j = some ('*' :: name) ∧ name ≠ [] ∧
          v = Join ['/'] (segs.drop (i + 1 + j)))) →
        ∃ j, ((part :: rest).get? j = some (':' :: name) ∧ segs.get? (i + j) = some v) ∨
          ((part :: rest).get? j = some ('*' :: name) ∧ name ≠ [] ∧
            v = Join ['/'] (segs.drop (i + j))) := by
      rintro ⟨j, hj⟩
      refine ⟨j + 1, ?_⟩
      rw [show i + (j + 1) = i + 1 + j by omega]
      simpa using hj
    cases part with
    | nil => rw [bindParams_nil_part] at h; cases h
    | cons ch nm =>
      rcases part_cases ch nm with h1 | ⟨h1, h2⟩ | ⟨h1, h2⟩
      · subst h1
        rw [bindParams_colon] at h
        cases hg : segs.get? i with
        | none => rw [hg] at h; cases h
        | some w =>
          rw [hg] at h
          simp only [Option.some_bind] at h
          rcases ih _ _ _ h hv with h3 | h3
          · by_cases hn : name = nm
            · subst hn
              simp only [Function.update_same, Option.some.injEq] at h3
              subst h3
              exact Or.inr ⟨0, Or.inl ⟨rfl, by simpa using hg⟩⟩
            · rw [Function.update_noteq hn] at h3
              exact Or.inl h3
          · exact Or.inr (shift h3)
      · subst h1
        rw [bindParams_star _ _ _ h2] at h
        split at h
        · injection h with h
          rw [← h] at hv
          by_cases hn : name = nm
          · subst hn
            simp only [Function.update_same, Option.some.injEq] at hv
            exact Or.inr ⟨0, Or.inr ⟨rfl, h2, by simpa using hv.symm⟩⟩
          · rw [Function.update_noteq hn] at hv
            exact Or.inl hv
        · cases h
      · rw [bindParams_other _ _ _ _ _ _ h1 h2] at h
        rcases ih _ _ _ h hv with h3 | h3
        · exact Or.inl h3
        · exact Or.inr (shift h3)

/-! ## Routers built without aliasing -/

theorem TrieOK.relax {H : Type} {r : router H} {method : Str} {reg reg2 : Str → Prop}
    (h : TrieOK r method reg) (hreg : ∀ p, reg p → reg2 p) : TrieOK r method reg2 :=
  fun root hroot => ⟨(h root hroot).1, (h root hroot).2.weaken hreg⟩

theorem aliasFree_cons {H : Type} {method : Str} {r : router H} {c : Route H}
    {cs : List (Route H)} (h : aliasFree method r (c :: cs) = true) :
    (c.method = method →
      node.aliases (parsePattern c.pattern)
        ((r.roots method).getD (node.mk [] [] [] false)) = false) ∧
    aliasFree method (r.addRoute c.method c.pattern c.handler) cs = true := by
  simp only [aliasFree, Bool.and_eq_true] at h
  refine ⟨fun hm => ?_, h.2⟩
  have h1 := h.1
  simp only [hm, if_true, Bool.not_eq_true'] at h1
  exact h1

theorem addRoute_trieOK {H : Type} {r : router H} {method : Str} {reg : Str → Prop}
    (hr : TrieOK r method reg) (c : Route H)
    (halias : c.method = method →
      node.aliases (parsePattern c.pattern)
        ((r.roots method).getD (node.mk [] [] [] false)) = false) :
    TrieOK (r.addRoute c.method c.pattern c.handler) method
      (fun p => reg p ∨ (c.method = method ∧ c.pattern = p)) := by
  intro root hroot
  by_cases hm : c.method = method
  · rw [hm, addRoute_roots_same] at hroot
    injection hroot with hroot
    subst hroot
    have h0 : ((r.roots method).getD (node.mk [] [] [] false)).part = [] ∧
        Faithful (fun p => reg p ∨ (c.method = method ∧ c.pattern = p)) []
          ((r.roots method).getD (node.mk [] [] [] false)) := by
      cases h : r.roots method with
      | none =>
        exact ⟨rfl, Faithful.mk (fun hh => absurd rfl hh) (fun c hc => by simp at hc)
          (fun c hc => by simp at hc)⟩
      | some root0 => exact ⟨(hr root0 h).1, (hr root0 h).2.weaken (fun p hp => Or.inl hp)⟩
    refine ⟨by simpa using h0.1, ?_⟩
    exact Faithful.insert_faithful c.pattern (Or.inr ⟨hm, rfl⟩) _ [] _ h0.2 (by simp) (halias hm)
  · rw [addRoute_roots_other _ _ _ _ (fun e => hm e.symm)] at hroot
    exact ⟨(hr root hroot).1, (hr root hroot).2.weaken (fun p hp => Or.inl hp)⟩

theorem addRoute_routesOK {H : Type} {r : router H} {method : Str} {reg : Str → Prop}
    (hr : RoutesOK r method reg) (c : Route H)
    (hne : c.method = method → c.pattern ≠ [])
    (halias : c.method = method →
      node.aliases (parsePattern c.pattern)
        ((r.roots method).getD (node.mk [] [] [] false)) = false) :
    RoutesOK (r.addRoute c.method c.pattern c.handler) method
      (fun p => reg p ∨ (c.method = method ∧ c.pattern = p)) := by
  intro p hp
  by_cases hm : c.method = method
  · rw [hm, addRoute_roots_same]
    refine ⟨_, rfl, ?_⟩
    rcases hp with hp | ⟨_, hp⟩
    · obtain ⟨root0, h0, hroute⟩ := hr p hp
      rw [h0]
      exact HasRoute.insert_other c.pattern (hne hm) _ _ _ hroute
    · rw [← hp]
      exact HasRoute.insert_self c.pattern (hne hm) _ _ (halias hm)
  · rw [addRoute_roots_other _ _ _ _ (fun e => hm e.symm)]
    rcases hp with hp | ⟨h1, _⟩
    · exact hr p hp
    · exact absurd h1 hm

theorem foldl_trieOK {H : Type} (method : Str) :
    ∀ (calls : List (Route H)) (r : router H) (reg : Str → Prop), TrieOK r method reg →
      aliasFree method r calls = true →
      TrieOK (calls.foldl (fun r c => r.addRoute c.method c.pattern c.handler) r) method
        (fun p => reg p ∨ Registered calls method p) := by
  intro calls
  induction calls with
  | nil => intro r reg hr _; exact hr.relax (fun p hp => Or.inl hp)
  | cons c cs ih =>
    intro r reg hr halias
    obtain ⟨h1, h2⟩ := aliasFree_cons halias
    refine (ih _ _ (addRoute_trieOK hr c h1) h2).relax ?_
    rintro p ((hp | ⟨hm, hp⟩) | ⟨d, hd, hp⟩)
    · exact Or.inl hp
    · exact Or.inr ⟨c, List.mem_cons_self _ _, hm, hp⟩
    · exact Or.inr ⟨d, List.mem_cons_of_mem _ hd, hp⟩

theorem foldl_routesOK {H : Type} (method : Str) :
    ∀ (calls : List (Route H)) (r : router H) (reg : Str → Prop), RoutesOK r method reg →
      aliasFree method r calls = true →
      (∀ c ∈ calls, c.method = method → c.pattern ≠ []) →
      RoutesOK (calls.foldl (fun r c => r.addRoute c.method c.pattern c.handler) r) method
        (fun p => reg p ∨ Registered calls method p) := by
  intro calls
  induction calls with
  | nil =>
    intro r reg hr _ _ p hp
    rcases hp with hp | ⟨c, hc, _⟩
    · exact hr p hp
    · cases hc
  | cons c cs ih =>
    intro r reg hr halias hne p hp
    obtain ⟨h1, h2⟩ := aliasFree_cons halias
    apply ih _ _ (addRoute_routesOK hr c (hne c (List.mem_cons_self _ _)) h1) h2
      (fun d hd => hne d (List.mem_cons_of_mem _ hd)) p
    rcases hp with hp | ⟨d, hd, hm, hp⟩
    · exact Or.inl (Or.inl hp)
    · rcases List.mem_cons.1 hd with e | e
      · subst e; exact Or.inl (Or.inr ⟨hm, hp⟩)
      · exact Or.inr ⟨d, e, hm, hp⟩

/-- In a router built without aliasing under `method`, a node found by `search`
stores a pattern registered under `method` whose shape the path has. -/
theorem built_sound {H : Type} (calls : List (Route H)) (method : Str)
    (halias : aliasFree method newRouter calls = true) {root n : node} {segs : List Str}
    (hroot : (buildRouter calls).roots method = some root)
    (hn : root.search segs = some n) :
    Registered calls method n.pattern ∧ matchesShape (parsePattern n.pattern) segs = true := by
  have h0 : TrieOK (newRouter : router H) method (fun _ => False) := by
    intro root h; simp [newRouter] at h
  obtain ⟨hpart, hf⟩ := foldl_trieOK method calls _ _ h0 halias root hroot
  obtain ⟨post, h1, h2, h3⟩ := search_sound segs [] root n hf (by simp [hpart, isStar]) hn
  rcases h2 with h2 | h2
  · exact absurd h2 id
  · refine ⟨h2, ?_⟩
    rw [h1]; simpa using h3

/-- In a router built without aliasing and without empty patterns under
`method`, `search` finds a node for every path that has the shape of a
registered pattern. -/
theorem built_complete {H : Type} (calls : List (Route H)) (method P : Str)
    (halias : aliasFree method newRouter calls = true)
    (hne : ∀ c ∈ calls, c.method = method → c.pattern ≠ [])
    (hreg : Registered calls method P) {segs : List Str}
    (hshape : matchesShape (parsePattern P) segs = true) :
    ∃ root n, (buildRouter calls).roots method = some root ∧ root.search segs = some n := by
  have h0 : TrieOK (newRouter : router H) method (fun _ => False) := by
    intro root h; simp [newRouter] at h
  have h1 : RoutesOK (newRouter : router H) method (fun _ => False) := fun p hp => absurd hp id
  obtain ⟨root, hroot, hroute⟩ := foldl_routesOK method calls _ _ h1 halias hne P (Or.inr hreg)
  obtain ⟨hpart, hf⟩ := foldl_trieOK method calls _ _ h0 halias root hroot
  obtain ⟨n, hn⟩ := search_complete _ segs [] root hf hroute hshape
    (fun h => by simp [hpart, isStar] at h)
  exact ⟨root, n, hroot, hn⟩

/-- In a reachable router the parameter loop of `getRoute` never fails. -/
theorem built_getRoute {H : Type} (calls : List (Route H)) {method path : Str}
    {root n : node} (hroot : (buildRouter calls).roots method = some root)
    (hn : root.search (parsePattern path) = some n) :
    ∃ params, (buildRouter calls).getRoute method path = some (some (n, params)) ∧
      bindParams (parsePattern path) (parsePattern n.pattern) 0 (fun _ => none) =
        some params := by
  obtain ⟨k, hk, _, hlen⟩ :=
    search_depth _ 0 root n (buildRouter_sound calls method root hroot) hn
  obtain ⟨params, hb⟩ := bindParams_total (parsePattern path) (parsePattern n.pattern) 0
    (fun _ => none) (parsePattern_ne_nil _) (by omega)
  exact ⟨params, getRoute_of_search hroot hn hb, hb⟩

/-- In a router built without aliasing under `method`, a path with the shape of
no registered pattern finds nothing. -/
theorem getRoute_none_of_no_shape {H : Type} {calls : List (Route H)} {method path : Str}
    (halias : aliasFree method newRouter calls = true)
    (hnone : ∀ Q, Registered calls method Q →
      matchesShape (parsePattern Q) (parsePattern path) = false) :
    (buildRouter calls).getRoute method path = some none := by
  cases hroot : (buildRouter calls).roots method with
  | none => simp [router.getRoute, hroot]
  | some root =>
    cases hn : root.search (parsePattern path) with
    | none => exact getRoute_of_search_none hroot hn
    | some n =>
      obtain ⟨hr, hs⟩ := built_sound calls method halias hroot hn
      rw [hnone _ hr] at hs
      cases hs

/-! ## A router with one route -/

theorem paramNames_cons_of_binds {p name : Str} (rest : List Str) (h : bindsName p name) :
    paramNames (p :: rest) = name :: paramNames rest := by
  rcases h with h | ⟨h, hn⟩
  · subst h; simp [paramNames]
  · subst h; simp [paramNames, hn]

theorem paramNames_sublist (p : Str) (rest : List Str) :
    (paramNames rest).Sublist (paramNames (p :: rest)) := by
  cases p with
  | nil => simp [paramNames]
  | cons ch nm =>
    simp only [paramNames]
    split
    · exact List.sublist_cons_self _ _
    · split
      · exact List.sublist_cons_self _ _
      · exact List.Sublist.refl _

theorem mem_paramNames {name : Str} :
    ∀ (parts : List Str) (q : Str), q ∈ parts → bindsName q name → name ∈ paramNames parts := by
  intro parts
  induction parts with
  | nil => intro q hq; cases hq
  | cons p rest ih =>
    intro q hq hb
    rcases List.mem_cons.1 hq with e | e
    · subst e
      rw [paramNames_cons_of_binds rest hb]
      exact List.mem_cons_self _ _
    · exact (paramNames_sublist p rest).subset (ih q e hb)

/-- When the names of a pattern are pairwise distinct no later segment rebinds
the name of a segment. -/
theorem nodup_no_rebind {name : Str} :
    ∀ (parts : List Str) (j : Nat) (p : Str), (paramNames parts).Nodup →
      parts.get? j = some p → bindsName p name →
      ∀ k q, j < k → parts.get? k = some q → ¬ bindsName q name := by
  intro parts
  induction parts with
  | nil => intro j p _ hj; simp at hj
  | cons a rest ih =>
    intro j p hnd hj hb k q hk hq hbq
    cases k with
    | zero => omega
    | succ k =>
      simp only [List.get?_cons_succ] at hq
      cases j with
      | zero =>
        simp only [List.get?_cons_zero, Option.some.injEq] at hj
        subst hj
        rw [paramNames_cons_of_binds rest hb] at hnd
        exact (List.nodup_cons.1 hnd).1 (mem_paramNames rest q (List.get?_mem hq) hbq)
      | succ j =>
        simp only [List.get?_cons_succ] at hj
        exact ih j p (hnd.sublist (paramNames_sublist a rest)) hj hb k q (by omega) hq hbq

/-- C7, refuted: in the router whose only route is GET with the empty pattern,
the path `/` has the shape of the pattern (no segments), yet `getRoute` returns
no match. -/
theorem single_route_counterexample :
    (paramNames (parsePattern [])).Nodup ∧
    matchesShape (parsePattern []) (parsePattern "/".toList) = true ∧
    (buildRouter [Route.mk "GET".toList [] ()]).getRoute "GET".toList "/".toList =
      some none :=
  ⟨by decide, by decide, rfl⟩

/-- C7, amended. In a router with exactly one registered route `(M, P)`, `P`
non-empty and its parameter names pairwise distinct, for every path: if the
parsed segments of the path have the shape of `P`, `getRoute(M, path)` returns
the node that stores `P` with a parameter map holding exactly the bindings of
the `:name` and `*name` segments of `P` to the corresponding request segments;
otherwise it returns no match.  With only GET `/hello/:name` registered,
`/hello/world` matches with `name = "world"` and `/hello` does not match. -/
theorem single_route {H : Type} (M P path : Str) (h : H) (hP : P ≠ [])
    (hdistinct : (paramNames (parsePattern P)).Nodup) :
    (matchesShape (parsePattern P) (parsePattern path) = true →
      ∃ n params, (buildRouter [Route.mk M P h]).getRoute M path = some (some (n, params)) ∧
        n.pattern = P ∧
        ∀ name v, params name = some v ↔
          ∃ j, ((parsePattern P).get? j = some (':' :: name) ∧
              (parsePattern path).get? j = some v) ∨
            ((parsePattern P).get? j = some ('*' :: name) ∧ name ≠ [] ∧
              v = Join ['/'] ((parsePattern path).drop j))) ∧
    (matchesShape (parsePattern P) (parsePattern path) = false →
      (buildRouter [Route.mk M P h]).getRoute M path = some none) ∧
    ((buildRouter [Route.mk "GET".toList "/hello/:name".toList h]).getRoute "GET".toList
        "/hello/world".toList).map
        (fun o => o.map fun x => (x.1.pattern, x.2 "name".toList)) =
      some (some ("/hello/:name".toList, some "world".toList)) ∧
    (buildRouter [Route.mk "GET".toList "/hello/:name".toList h]).getRoute "GET".toList
      "/hello".toList = some none := by
  have halias : aliasFree M newRouter [Route.mk M P h] = true := by
    simp [aliasFree, newRouter, aliases_empty]
  have hreg : ∀ Q, Registered [Route.mk M P h] M Q → Q = P := by
    rintro Q ⟨c, hc, _, hQ⟩
    simp only [List.mem_singleton] at hc
    subst hc
    exact hQ.symm
  refine ⟨?_, ?_, rfl, rfl⟩
  · intro hshape
    obtain ⟨root, n, hroot, hn⟩ := built_complete [Route.mk M P h] M P halias
      (by
        intro c hc _
        simp only [List.mem_singleton] at hc
        subst hc
        exact hP)
      ⟨_, List.mem_singleton.2 rfl, rfl, rfl⟩ hshape
    obtain ⟨params, hget, hb⟩ := built_getRoute _ hroot hn
    have hnP : n.pattern = P := hreg _ (built_sound _ M halias hroot hn).1
    rw [hnP] at hb
    refine ⟨n, params, hget, hnP, ?_⟩
    intro name v
    constructor
    · intro hv
      rcases bindParams_only _ name v _ 0 _ _ hb hv with h1 | ⟨j, h1⟩
      · cases h1
      · exact ⟨j, by simpa using h1⟩
    · rintro ⟨j, ⟨hj, hv⟩ | ⟨hj, hname, hv⟩⟩
      · obtain ⟨w, hw, hpw⟩ := bindParams_at_colon (parsePattern path) name _ 0 j _ _ hb
          (parsePattern_starLast _) hj
          (nodup_no_rebind _ j _ hdistinct hj (Or.inl rfl))
        rw [hpw]
        rw [Nat.zero_add, hv] at hw
        exact hw.symm
      · have := bindParams_at_star (parsePattern path) name hname _ 0 j _ _ hb
          (parsePattern_starLast _) hj
        rw [this, hv]
        simp
  · intro hshape
    apply getRoute_none_of_no_shape halias
    intro Q hQ
    rw [hreg Q hQ]
    exact hshape

/-- C7, amended, for the one route GET `/hello/:name` and the path
`/hello/world`. -/
theorem single_route_witness :
    "/hello/:name".toList ≠ [] ∧
    (paramNames (parsePattern "/hello/:name".toList)).Nodup ∧
    matchesShape (parsePattern "/hello/:name".toList)
      (parsePattern "/hello/world".toList) = true ∧
    ∃ n params, (buildRouter [Route.mk "GET".toList "/hello/:name".toList ()]).getRoute
        "GET".toList "/hello/world".toList = some (some (n, params)) ∧
      n.pattern = "/hello/:name".toList :=
  ⟨by decide, by decide, by decide,
    ((single_route "GET".toList "/hello/:name".toList "/hello/world".toList ()
      (by decide) (by decide)).1 (by decide)).imp
      fun n h => h.imp fun params h2 => ⟨h2.1, h2.2.1⟩⟩

/-! ## Nodes without a pattern are never returned -/

/-- C11. For every node `n`, segment list `parts` and `height ≤ len(parts)`, a
node returned by `n.search(parts, height)` stores a non-empty pattern; so does
the node of every match returned by `getRoute`, on any router. -/
theorem returned_node_has_pattern {H : Type} (n m : node) (parts : List Str) (height : Nat)
    (r : router H) (method path : Str) (found : node) (params : Params)
    (hheight : height ≤ parts.length)
    (hsearch : n.search (parts.drop height) = some m)
    (hget : r.getRoute method path = some (some (found, params))) :
    m.pattern ≠ [] ∧ found.pattern ≠ [] := by
  refine ⟨search_pattern_ne_nil _ _ _ hsearch, ?_⟩
  obtain ⟨root, _, hfound, _⟩ := getRoute_eq_match hget
  exact search_pattern_ne_nil _ _ _ hfound

/-- C11 on the trie of the one route `GET /hello`, searched from its root at
height 0 and through `getRoute`. -/
theorem returned_node_has_pattern_witness :
    (0 ≤ ["hello".toList].length ∧
      (node.mk [] [] [node.mk "/hello".toList "hello".toList [] false] false).search
        (["hello".toList].drop 0) = some (node.mk "/hello".toList "hello".toList [] false)) ∧
    (node.mk "/hello".toList "hello".toList [] false).pattern ≠ [] :=
  ⟨⟨Nat.zero_le _, rfl⟩,
    (returned_node_has_pattern
      (node.mk [] [] [node.mk "/hello".toList "hello".toList [] false] false)
      (node.mk "/hello".toList "hello".toList [] false) ["hello".toList] 0
      (buildRouter [Route.mk "GET".toList "/hello".toList ()]) "GET".toList "/hello".toList
      (node.mk "/hello".toList "hello".toList [] false) (fun _ => none)
      (Nat.zero_le _) rfl rfl).1⟩

/-! ## Methods do not interfere -/

/-- The result of `getRoute` depends on the router only through the trie of
the method. -/
theorem getRoute_congr {H : Type} {r1 r2 : router H} {method : Str}
    (h : r1.roots method = r2.roots method) (path : Str) :
    r1.getRoute method path = r2.getRoute method path := by
  simp only [router.getRoute, h]

/-- The trie of a method that no call names is absent. -/
theorem foldl_roots_absent {H : Type} (method : Str) :
    ∀ (calls : List (Route H)) (r : router H), r.roots method = none →
      (∀ c ∈ calls, c.method ≠ method) →
      (calls.foldl (fun r c => r.addRoute c.method c.pattern c.handler) r).roots method =
        none := by
  intro calls
  induction calls with
  | nil => intro r h _; exact h
  | cons c cs ih =>
    intro r h hne
    apply ih _ _ (fun d hd => hne d (List.mem_cons_of_mem _ hd))
    rw [addRoute_roots_other _ _ _ _ (fun e => hne c (List.mem_cons_self _ _) e.symm)]
    exact h

/-- C20. For every router `r`, methods `m ≠ m2`, pattern `p`, handler `h` and
path `q`, `getRoute(m2, q)` returns the same result (the same node and parameter
map, or no match) before and after `addRoute(m, p, h)`; and in a router built by
`addRoute` calls `getRoute` returns no match for a method under which nothing
was registered. -/
theorem other_methods_untouched {H : Type} (r : router H) (m m2 p q : Str) (h : H)
    (calls : List (Route H)) (hm : m ≠ m2) (hnever : ∀ c ∈ calls, c.method ≠ m2) :
    (r.addRoute m p h).getRoute m2 q = r.getRoute m2 q ∧
    (buildRouter calls).getRoute m2 q = some none := by
  constructor
  · exact getRoute_congr (addRoute_roots_other _ _ _ _ (fun e => hm e.symm)) q
  · have := foldl_roots_absent m2 calls (newRouter : router H) rfl hnever
    simp [router.getRoute, buildRouter, this]

/-- C20 for a router with the route `GET /hello/:name`, to which `POST /hello/:id`
is added, looked up under GET; and a lookup under the unused method PUT. -/
theorem other_methods_untouched_witness :
    "POST".toList ≠ "GET".toList ∧
    ((buildRouter [Route.mk "GET".toList "/hello/:name".toList ()]).addRoute "POST".toList
        "/hello/:id".toList ()).getRoute "GET".toList "/hello/world".toList =
      (buildRouter [Route.mk "GET".toList "/hello/:name".toList ()]).getRoute "GET".toList
        "/hello/world".toList :=
  ⟨by decide,
    (other_methods_untouched (buildRouter [Route.mk "GET".toList "/hello/:name".toList ()])
      "POST".toList "GET".toList "/hello/:id".toList "/hello/world".toList ()
      [Route.mk "POST".toList "/x".toList ()] (by decide)
      (by
        intro c hc
        simp only [List.mem_singleton] at hc
        subst hc
        decide)).1⟩

/-! ## router.go: handle -/

/-- No step of a dispatch changes `Params`. -/
theorem params_stable (x : Option Params) :
    Stable (fun c => c.Params = x) (fun c => c.Params = x) where
  note := fun _ _ h => h
  incr := fun _ h => h
  enter := fun _ h _ _ => h
  failing := fun _ _ _ h => h
  writes := fun _ _ h h1 => h1.2.2.2.1.trans h
  panic := fun _ _ h => h
  recover := recover_of_failing (fun _ _ _ h => h) (fun _ _ h h1 => h1.2.2.2.1.trans h)

/-- What the not-found handler does when it runs. -/
theorem runHandler_notFound (next : Context → Option (Outcome × Context)) (d : Context) :
    Context.runHandler next HandlerFunc.notFound d =
      some (Outcome.returned,
        { d with
          StatusCode := 404,
          Writer := d.Writer ++ [Write.header "Content-Type".toList "text/plain".toList,
            Write.status 404,
            Write.bytes ("404 NOT FOUND: ".toList ++ d.Path ++ ['\n'])] }) := by
  simp only [Context.runHandler]
  rw [Context.String_valid d 404 _ (by decide) (by decide)]

/-! ## recovery.go: Recovery -/

/-- Once the cursor is at or past the end of the chain, `Next` enters no
handler: it only advances the cursor. -/
theorem Next_at_end (fuel : Nat) (c : Context) (h : (c.handlers.length : Int) ≤ c.index) :
    c.Next fuel = some (Outcome.returned, c.setIndex (c.index + 1)) := by
  unfold Context.Next
  apply Context.nextLoop_done
  simp only [Context.setIndex_index]
  omega

theorem PanicsAnswered.snoc_other {len : Nat} {tr : List Event} (h : PanicsAnswered len tr)
    (e : Event) (he : ∀ v, e ≠ Event.panicked v) : PanicsAnswered len (tr ++ [e]) := by
  intro pre post v hsplit
  rcases snoc_eq_split hsplit with ⟨post1, h1, h2⟩ | ⟨_, _, h3⟩
  · obtain ⟨p, hp⟩ := h pre post1 v h2
    exact ⟨p ++ [e], by rw [h1, hp]; simp⟩
  · exact absurd h3.symm (he v)

theorem PanicsAnswered.answer {len : Nat} {tr : List Event} (h : PanicsAnswered len tr)
    (v : Str) :
    PanicsAnswered len (tr ++ [Event.panicked v] ++
      [Event.failed 500 "Internal Server Error".toList] ++ [Event.index len]) := by
  intro pre post w hsplit
  rcases snoc_eq_split hsplit with ⟨post1, h1, h2⟩ | ⟨_, _, h3⟩
  · rcases snoc_eq_split h2 with ⟨post2, h3, h4⟩ | ⟨_, _, h5⟩
    · rcases snoc_eq_split h4 with ⟨post3, h5, h6⟩ | ⟨h5, _, _⟩
      · obtain ⟨p, hp⟩ := h pre post3 w h6
        exact ⟨p ++ [Event.panicked v] ++
          [Event.failed 500 "Internal Server Error".toList] ++ [Event.index len],
          by rw [h1, h3, h5, hp]; simp⟩
      · exact ⟨[], by rw [h1, h3, h5]; simp⟩
    · cases h5
  · cases h3

theorem mem_snoc_panicked {tr : List Event} {e : Event} (he : ∀ v, e ≠ Event.panicked v)
    (h : ∃ v, Event.panicked v ∈ tr ++ [e]) : ∃ v, Event.panicked v ∈ tr := by
  obtain ⟨v, hv⟩ := h
  rcases List.mem_append.1 hv with h1 | h1
  · exact ⟨v, h1⟩
  · exact absurd (List.mem_singleton.1 h1).symm (he v)

theorem running_stable : Stable Running Unwinding where
  note := fun c tag h =>
    ⟨failedAtEnd_stable.note c tag h.1, h.2.1.snoc_other _ (by simp),
      fun hv => h.2.2 (mem_snoc_panicked (by simp) hv)⟩
  incr := fun c h =>
    ⟨failedAtEnd_stable.incr c h.1, h.2.1.snoc_other _ (by simp),
      fun hv => h.2.2 (mem_snoc_panicked (by simp) hv)⟩
  enter := fun c h h1 h2 =>
    ⟨failedAtEnd_stable.enter c h.1 h1 h2, h.2.1.snoc_other _ (by simp),
      fun hv => h.2.2 (mem_snoc_panicked (by simp) hv)⟩
  failing := fun c code err h =>
    ⟨failedAtEnd_stable.failing c code err h.1,
      (h.2.1.snoc_other (Event.failed code err) (by simp)).snoc_other _ (by simp),
      fun hv => h.2.2 (mem_snoc_panicked (by simp)
        (@mem_snoc_panicked _ (Event.index c.handlers.length) (by simp) hv))⟩
  writes := by
    rintro c c1 h hs
    refine ⟨failedAtEnd_stable.writes c c1 h.1 hs, ?_, ?_⟩
    · rw [hs.1, hs.2.2.1]
      exact h.2.1
    · intro hv
      obtain ⟨more, hm⟩ := hs.2.2.2.2.2.2
      rw [hs.1] at hv
      rw [hm]
      exact ⟨List.mem_append_left _ (h.2.2 hv).1, List.mem_append_left _ (h.2.2 hv).2⟩
  panic := fun c v h => ⟨c.trace, v, rfl, h.2.1, h.1.2, h.1.1⟩
  recover := by
    rintro c ⟨tr, v, h1, h2, h3, _⟩
    rw [Context.Fail_valid c 500 _ (by decide) (by decide)]
    refine ⟨⟨fun _ _ _ => le_refl _, ?_⟩, ?_, fun _ => ⟨by simp, by simp⟩⟩
    · show NoEnterAfterFail (c.trace ++ [Event.failed 500 "Internal Server Error".toList,
        Event.index c.handlers.length])
      rw [h1]
      have := (((h3.snoc (Event.panicked v) (Or.inl (by simp))).snoc
        (Event.failed 500 "Internal Server Error".toList) (Or.inl (by simp))).snoc
        (Event.index c.handlers.length) (Or.inl (by simp)))
      simpa using this
    · show PanicsAnswered c.handlers.length
        (c.trace ++ [Event.failed 500 "Internal Server Error".toList,
          Event.index c.handlers.length])
      rw [h1]
      have := h2.answer v
      simpa using this

/-- In a running dispatch no handler is entered after a panic. -/
theorem Running.no_enter_after_panic {c : Context} (h : Running c) (pre post : List Event)
    (v : Str) (hsplit : c.trace = pre ++ Event.panicked v :: post) :
    (∃ post1, post = Event.failed 500 "Internal Server Error".toList ::
        Event.index c.handlers.length :: post1) ∧
      ∀ j, Event.enter j ∉ post := by
  obtain ⟨post1, hp⟩ := h.2.1 pre post v hsplit
  refine ⟨⟨post1, hp⟩, ?_⟩
  intro j hj
  rw [hp] at hj
  rcases List.mem_cons.1 hj with h1 | h1
  · cases h1
  · exact h.1.2 (pre ++ [Event.panicked v]) (Event.index c.handlers.length :: post1) 500
      "Internal Server Error".toList (by rw [hsplit, hp]; simp) j h1

theorem trivial_stable : Stable (fun _ => True) (fun _ => True) where
  note := fun _ _ _ => trivial
  incr := fun _ _ => trivial
  enter := fun _ _ _ _ => trivial
  failing := fun _ _ _ _ => trivial
  writes := fun _ _ _ _ => trivial
  panic := fun _ _ _ => trivial
  recover := fun _ _ => trivial

/-- A dispatch keeps the chain. -/
theorem Next_handlers (fuel : Nat) (c c1 : Context) (out : Outcome)
    (h : c.Next fuel = some (out, c1)) : c1.handlers = c.handlers :=
  (Context.Next_keeps trivial_stable fuel c out c1 rfl trivial h).1

/-- When the loop of `Next` returns, the cursor is at or past its bound. -/
theorem nextLoop_returned :
    ∀ (fuel : Nat) (s : Int) (c c1 : Context),
      Context.nextLoop fuel s c = some (Outcome.returned, c1) → ¬ c1.index < s := by
  intro fuel
  induction fuel with
  | zero =>
    intro s c c1 h
    simp only [Context.nextLoop] at h
    split at h
    · cases h
    · simp only [Option.some.injEq, Prod.mk.injEq, true_and] at h
      rw [← h]; assumption
  | succ fuel ih =>
    intro s c c1 h
    by_cases h1 : c.index < s
    · by_cases h2 : 0 ≤ c.index
      · cases h3 : c.handlers.get? c.index.toNat with
        | none =>
          have h5 : c.handlers[c.index.toNat]? = none := by simpa using h3
          have h4 : ¬ c.index < 0 := by omega
          simp [Context.nextLoop, h1, h4, h5] at h
        | some hd =>
          rw [Context.nextLoop_step fuel _ c hd h1 h2 h3] at h
          cases hr : Context.runHandler (Context.Next fuel) hd
              (c.log (Event.enter c.index)) with
          | none => rw [hr] at h; cases h
          | some r =>
            obtain ⟨o, c2⟩ := r
            rw [hr] at h
            cases o with
            | returned => exact ih _ _ _ h
            | panicked v => simp at h
      · have h4 : c.index < 0 := by omega
        simp [Context.nextLoop, h1, h4] at h
    · rw [Context.nextLoop_done _ _ _ h1] at h
      simp only [Option.some.injEq, Prod.mk.injEq, true_and] at h
      rw [← h]; exact h1

/-- A body of calls that do not panic of their own returns when its `Next`
calls return, and keeps the cursor before `i` or at the end. -/
theorem runActs_safe (hs : List HandlerFunc) (i : Nat)
    (next : Context → Option (Outcome × Context))
    (hnext : ∀ c out c1, Below hs i c → next c = some (out, c1) →
      out = Outcome.returned ∧ Below hs i c1) :
    ∀ (body : List Act) (c c1 : Context) (out : Outcome),
      (∀ a ∈ body, a.safe = true) → Below hs i c →
      Context.runActs next body c = some (out, c1) →
      out = Outcome.returned ∧ Below hs i c1 := by
  intro body
  induction body with
  | nil =>
    intro c c1 out _ hb h
    simp only [Context.runActs, Option.some.injEq, Prod.mk.injEq] at h
    rw [← h.1, ← h.2]; exact ⟨rfl, hb⟩
  | cons a k ih =>
    intro c c1 out hsafe hb h
    have hk : ∀ a ∈ k, a.safe = true := fun a ha => hsafe a (List.mem_cons_of_mem _ ha)
    have ha := hsafe a (List.mem_cons_self _ _)
    cases a with
    | record tag =>
      simp only [Context.runActs] at h
      exact ih (c.log (Event.note tag)) _ _ hk hb h
    | next =>
      simp only [Context.runActs] at h
      cases hn : next c with
      | none => rw [hn] at h; cases h
      | some r =>
        obtain ⟨o, c2⟩ := r
        rw [hn] at h
        obtain ⟨h1, h2⟩ := hnext c o c2 hb hn
        subst h1
        exact ih c2 _ _ hk h2 h
    | fail code err =>
      have hv : 100 ≤ code ∧ code ≤ 999 := by simpa [Act.safe] using ha
      simp only [Context.runActs, Context.Fail_valid c code err hv.1 hv.2] at h
      refine ih _ _ _ hk ?_ h
      refine ⟨hb.1, ?_, Or.inr ?_⟩
      · show (-1 : Int) ≤ (c.handlers.length : Int)
        omega
      · show (hs.length : Int) ≤ (c.handlers.length : Int)
        rw [hb.1]
    | string code text =>
      have hv : 100 ≤ code ∧ code ≤ 999 := by simpa [Act.safe] using ha
      simp only [Context.runActs, Context.String_valid c code text hv.1 hv.2] at h
      refine ih _ _ _ hk ?_ h
      exact hb
    | panic v => simp [Act.safe] at ha

/-- The loop of `Next` on a chain with `Recovery` at position `i` and, before
it, handlers that do not panic of their own: started at or before `i`, it
returns. -/
theorem nextLoop_safe (hs : List HandlerFunc) (i : Nat)
    (hrec : hs.get? i = some HandlerFunc.Recovery)
    (hsafe : ∀ k < i, ∀ h, hs.get? k = some h → h.safe = true) :
    ∀ (fuel : Nat) (c c1 : Context) (out : Outcome), c.handlers = hs → 0 ≤ c.index →
      (c.index ≤ i ∨ (hs.length : Int) ≤ c.index) →
      Context.nextLoop fuel hs.length c = some (out, c1) →
      out = Outcome.returned ∧ c1.handlers = hs ∧ (hs.length : Int) ≤ c1.index := by
  have hi : i < hs.length := by
    have h1 : hs[i]? = some HandlerFunc.Recovery := by simpa using hrec
    exact (List.getElem?_eq_some_iff.1 h1).1
  intro fuel
  induction fuel with
  | zero =>
    intro c c1 out hc _ _ h
    simp only [Context.nextLoop] at h
    split at h
    · cases h
    · simp only [Option.some.injEq, Prod.mk.injEq] at h
      rw [← h.1, ← h.2]
      exact ⟨rfl, hc, by omega⟩
  | succ fuel ih =>
    have hnext : ∀ c out c1, Below hs i c → Context.Next fuel c = some (out, c1) →
        out = Outcome.returned ∧ Below hs i c1 := by
      intro c out c1 hb h
      unfold Context.Next at h
      rw [hb.1] at h
      obtain ⟨h1, h2, h3⟩ := ih (c.setIndex (c.index + 1)) c1 out (by simpa using hb.1)
        (by simp only [Context.setIndex_index]; have := hb.2.1; omega)
        (by simp only [Context.setIndex_index]; have := hb.2.2; omega) h
      exact ⟨h1, h2, by omega, Or.inr h3⟩
    intro c c1 out hc h0 hpos h
    by_cases h1 : c.index < (hs.length : Int)
    · have hle : c.index ≤ i := by omega
      have hlt : c.index.toNat < hs.length := by omega
      have hget : c.handlers.get? c.index.toNat = some (hs.get ⟨c.index.toNat, hlt⟩) := by
        rw [hc]; exact List.get?_eq_get hlt
      rw [Context.nextLoop_step fuel _ c _ h1 h0 hget] at h
      have key : ∀ o c2, Context.runHandler (Context.Next fuel) (hs.get ⟨c.index.toNat, hlt⟩)
          (c.log (Event.enter c.index)) = some (o, c2) →
          o = Outcome.returned ∧ Below hs i c2 := by
        intro o c2 hr
        by_cases hlt2 : c.index < i
        · have hb : Below hs i (c.log (Event.enter c.index)) :=
            ⟨by simpa using hc, by simp only [Context.log_index]; omega,
              Or.inl (by simpa using hlt2)⟩
          have hh := hsafe c.index.toNat (by omega) _ (by rw [← hc]; exact hget)
          cases hg : hs.get ⟨c.index.toNat, hlt⟩ with
          | steps body =>
            rw [hg] at hh hr
            exact runActs_safe hs i _ hnext body _ _ _
              (by simpa [HandlerFunc.safe, List.all_eq_true] using hh) hb hr
          | recovering body =>
            rw [hg] at hh hr
            simp only [Context.runHandler] at hr
            cases hn : Context.runActs (Context.Next fuel) body
                (c.log (Event.enter c.index)) with
            | none => rw [hn] at hr; cases hr
            | some r =>
              obtain ⟨o2, c3⟩ := r
              rw [hn] at hr
              obtain ⟨h2, h3⟩ := runActs_safe hs i _ hnext body _ _ _
                (by simpa [HandlerFunc.safe, List.all_eq_true] using hh) hb hn
              subst h2
              simp only [Option.some.injEq, Prod.mk.injEq] at hr
              rw [← hr.1, ← hr.2]; exact ⟨rfl, h3⟩
          | Recovery =>
            rw [hg] at hr
            simp only [Context.runHandler] at hr
            cases hn : Context.Next fuel (c.log (Event.enter c.index)) with
            | none => rw [hn] at hr; cases hr
            | some r =>
              obtain ⟨o2, c3⟩ := r
              rw [hn] at hr
              obtain ⟨h2, h3⟩ := hnext _ _ _ hb hn
              subst h2
              simp only [Option.some.injEq, Prod.mk.injEq] at hr
              rw [← hr.1, ← hr.2]; exact ⟨rfl, h3⟩
          | notFound =>
            rw [hg] at hr
            rw [runHandler_notFound] at hr
            simp only [Option.some.injEq, Prod.mk.injEq] at hr
            rw [← hr.1, ← hr.2]; exact ⟨rfl, hb⟩
          | nilFunc => rw [hg] at hh; simp [HandlerFunc.safe] at hh
        · have heq : c.index.toNat = i := by omega
          have hg : hs.get ⟨c.index.toNat, hlt⟩ = HandlerFunc.Recovery := by
            have h2 : hs.get? c.index.toNat = some (hs.get ⟨c.index.toNat, hlt⟩) :=
              List.get?_eq_get hlt
            have h3 : hs.get? c.index.toNat = some HandlerFunc.Recovery := by
              rw [heq]; exact hrec
            exact Option.some.inj (h2.symm.trans h3)
          rw [hg] at hr
          simp only [Context.runHandler] at hr
          cases hn : Context.Next fuel (c.log (Event.enter c.index)) with
          | none => rw [hn] at hr; cases hr
          | some r =>
            obtain ⟨o2, c3⟩ := r
            rw [hn] at hr
            have hh3 : c3.handlers = hs := by
              rw [Next_handlers fuel _ c3 o2 hn]; simpa using hc
            cases o2 with
            | returned =>
              simp only [Option.some.injEq, Prod.mk.injEq] at hr
              have h4 := nextLoop_returned fuel _ _ c3 hn
              simp only [Context.log_handlers, hc] at h4
              rw [← hr.1, ← hr.2]
              exact ⟨rfl, hh3, by omega, Or.inr (by omega)⟩
            | panicked v =>
              simp only [Context.Fail_valid c3 500 "Internal Server Error".toList (by decide)
                (by decide), Option.some.injEq, Prod.mk.injEq] at hr
              rw [← hr.1, ← hr.2]
              refine ⟨rfl, hh3, ?_, Or.inr ?_⟩
              · show (-1 : Int) ≤ (c3.handlers.length : Int)
                omega
              · show (hs.length : Int) ≤ (c3.handlers.length : Int)
                rw [hh3]
      cases hr : Context.runHandler (Context.Next fuel) (hs.get ⟨c.index.toNat, hlt⟩)
          (c.log (Event.enter c.index)) with
      | none => rw [hr] at h; cases h
      | some r =>
        obtain ⟨o, c2⟩ := r
        rw [hr] at h
        obtain ⟨h2, h3, h4, h5⟩ := key o c2 hr
        subst h2
        exact ih (c2.setIndex (c2.index + 1)) c1 out (by simpa using h3)
          (by simp only [Context.setIndex_index]; omega)
          (by simp only [Context.setIndex_index]; omega) h
    · rw [Context.nextLoop_done _ _ _ h1] at h
      simp only [Option.some.injEq, Prod.mk.injEq] at h
      rw [← h.1, ← h.2]
      exact ⟨rfl, hc, by omega⟩

/-- A handler body run at position `i` of a chain without recovering handlers
ends, when its `Next` calls end; if it returns, the cursor is still `i` or at or
past the end. -/
theorem runActs_total (hs : List HandlerFunc) (i : Int) (fuel : Nat)
    (hnext : ∀ d : Context, d.handlers = hs → (d.index = i ∨ (hs.length : Int) ≤ d.index) →
      ∃ r, Context.Next fuel d = some r) :
    ∀ (body : List Act) (d : Context), d.handlers = hs →
      (d.index = i ∨ (hs.length : Int) ≤ d.index) →
      ∃ o d1, Context.runActs (Context.Next fuel) body d = some (o, d1) ∧
        (o = Outcome.returned → d1.handlers = hs ∧
          (d1.index = i ∨ (hs.length : Int) ≤ d1.index)) := by
  intro body
  induction body with
  | nil => intro d hd hi; exact ⟨_, _, rfl, fun _ => ⟨hd, hi⟩⟩
  | cons a k ih =>
    intro d hd hi
    cases a with
    | record tag =>
      obtain ⟨o, d1, h1, h2⟩ := ih (d.log (Event.note tag)) hd hi
      exact ⟨o, d1, by simpa [Context.runActs] using h1, h2⟩
    | next =>
      obtain ⟨⟨o, d1⟩, hr⟩ := hnext d hd hi
      cases o with
      | returned =>
        have h3 : d1.handlers = hs := (Next_handlers fuel d d1 _ hr).trans hd
        have h4 : (hs.length : Int) ≤ d1.index := by
          have := nextLoop_returned fuel _ _ d1 hr
          simp only [Context.setIndex_handlers, hd] at this
          omega
        obtain ⟨o2, d2, h5, h6⟩ := ih d1 h3 (Or.inr h4)
        exact ⟨o2, d2, by simp only [Context.runActs, hr]; exact h5, h6⟩
      | panicked v =>
        exact ⟨Outcome.panicked v, d1, by simp only [Context.runActs, hr],
          fun h => by cases h⟩
    | fail code err =>
      have h1 := Context.Fail_handlers d code err
      have h2 := Context.Fail_index d code err
      cases hf : d.Fail code err with
      | mk o d1 =>
        rw [hf] at h1 h2
        cases o with
        | returned =>
          obtain ⟨o2, d2, h5, h6⟩ := ih d1 (h1.trans hd)
            (Or.inr (by simp only [] at h2; rw [h2, hd]))
          exact ⟨o2, d2, by simp only [Context.runActs, hf]; exact h5, h6⟩
        | panicked v =>
          exact ⟨Outcome.panicked v, d1, by simp only [Context.runActs, hf],
            fun h => by cases h⟩
    | string code text =>
      rcases Context.String_spec d code text with ⟨d1, h1, h2⟩ | ⟨v, d1, h1, _⟩
      · obtain ⟨o2, d2, h5, h6⟩ := ih d1 (h2.2.2.1.trans hd) (by rw [h2.2.1]; exact hi)
        exact ⟨o2, d2, by simp only [Context.runActs, h1]; exact h5, h6⟩
      · exact ⟨Outcome.panicked v, d1.log (Event.panicked v),
          by simp only [Context.runActs, h1], fun h => by cases h⟩
    | panic v => exact ⟨Outcome.panicked v, _, rfl, fun h => by cases h⟩

/-- On a chain without recovering handlers the loop of `Next` ends when it has
fuel for the handlers that remain. -/
theorem nextLoop_total (hs : List HandlerFunc)
    (honly : ∀ body, HandlerFunc.recovering body ∉ hs) :
    ∀ (k fuel : Nat) (c : Context), c.handlers = hs → 0 ≤ c.index →
      (hs.length : Int) ≤ c.index + k → k ≤ fuel →
      ∃ r, Context.nextLoop fuel hs.length c = some r := by
  intro k
  induction k with
  | zero =>
    intro fuel c _ _ hk _
    exact ⟨_, Context.nextLoop_done _ _ _ (by simp at hk; omega)⟩
  | succ k ih =>
    intro fuel c hc h0 hk hfuel
    by_cases h1 : c.index < (hs.length : Int)
    · obtain ⟨fuel, rfl⟩ : ∃ f, fuel = f + 1 := ⟨fuel - 1, by omega⟩
      have hlt : c.index.toNat < hs.length := by omega
      have hget : c.handlers.get? c.index.toNat = some (hs.get ⟨c.index.toNat, hlt⟩) := by
        rw [hc]; exact List.get?_eq_get hlt
      have hnext : ∀ d : Context, d.handlers = hs →
          (d.index = c.index ∨ (hs.length : Int) ≤ d.index) →
          ∃ r, Context.Next fuel d = some r := by
        intro d hd hi
        unfold Context.Next
        rw [hd]
        rcases hi with hi | hi
        · exact ih fuel _ (by simpa using hd) (by simp only [Context.setIndex_index]; omega)
            (by simp only [Context.setIndex_index]; push_cast at hk ⊢; omega) (by omega)
        · exact ⟨_, Context.nextLoop_done _ _ _ (by simp only [Context.setIndex_index]; omega)⟩
      rw [Context.nextLoop_step fuel _ c _ h1 h0 hget]
      have key : ∃ o c2, Context.runHandler (Context.Next fuel) (hs.get ⟨c.index.toNat, hlt⟩)
          (c.log (Event.enter c.index)) = some (o, c2) ∧
          (o = Outcome.returned → c2.handlers = hs ∧
            (c2.index = c.index ∨ (hs.length : Int) ≤ c2.index)) := by
        cases hg : hs.get ⟨c.index.toNat, hlt⟩ with
        | steps body =>
          exact runActs_total hs c.index fuel hnext body _ (by simpa using hc) (Or.inl rfl)
        | recovering body =>
          exact absurd (by rw [← hg]; exact List.get_mem hs _ hlt) (honly body)
        | Recovery =>
          obtain ⟨⟨o, c2⟩, hr⟩ := hnext (c.log (Event.enter c.index)) (by simpa using hc)
            (Or.inl rfl)
          have h3 : c2.handlers = hs := (Next_handlers fuel _ c2 _ hr).trans (by simpa using hc)
          cases o with
          | returned =>
            refine ⟨Outcome.returned, c2, by simp only [Context.runHandler, hr],
              fun _ => ⟨h3, Or.inr ?_⟩⟩
            have := nextLoop_returned fuel _ _ c2 hr
            simp only [Context.setIndex_handlers, Context.log_handlers, hc] at this
            omega
          | panicked v =>
            refine ⟨Outcome.returned, (c2.Fail 500 "Internal Server Error".toList).2, by
              simp only [Context.runHandler, hr]
              rw [Context.Fail_valid c2 500 _ (by decide) (by decide)],
              fun _ => ⟨(Context.Fail_handlers c2 _ _).trans h3, Or.inr ?_⟩⟩
            rw [Context.Fail_index, h3]
        | notFound =>
          exact ⟨Outcome.returned, _, runHandler_notFound _ _,
            fun _ => ⟨by simpa using hc, Or.inl rfl⟩⟩
        | nilFunc =>
          exact ⟨Outcome.panicked "nil func".toList, _, rfl, fun h => by cases h⟩
      obtain ⟨o, c2, hr, hpost⟩ := key
      rw [hr]
      cases o with
      | returned =>
        obtain ⟨h3, h4⟩ := hpost rfl
        simp only []
        rcases h4 with h4 | h4
        · exact ih fuel _ (by simpa using h3) (by simp only [Context.setIndex_index]; omega)
            (by simp only [Context.setIndex_index]; push_cast at hk ⊢; omega) (by omega)
        · exact ⟨_, Context.nextLoop_done _ _ _ (by simp only [Context.setIndex_index]; omega)⟩
      | panicked v => exact ⟨_, rfl⟩
    · exact ⟨_, Context.nextLoop_done _ _ _ h1⟩

/-- C12, refuted as stated.  On the chain `[Recovery, A, H]` where `A` calls `Next`
and then panics, the handler `H`, positioned after the panicking `A`, is entered
and records; the panic comes after it and is answered by `Fail(500, ...)`.  On
the chain `[Recovery, M, P, H]` where the middleware `M` calls `Next` and recovers
every panic itself, and `P` panics, the handler `H` is even entered after the
panic, which never reaches `Recovery`. -/
theorem recovery_counterexample :
    (Context.Next 3 { (NewContext [] []) with handlers :=
        [HandlerFunc.Recovery,
          HandlerFunc.steps [Act.next, Act.panic "boom".toList],
          HandlerFunc.steps [Act.record "H".toList]] }).map
        (fun r => (r.1, r.2.StatusCode, r.2.trace)) =
      some (Outcome.returned, 500,
        [Event.index 0, Event.enter 0, Event.index 1, Event.enter 1, Event.index 2,
          Event.enter 2, Event.note "H".toList, Event.index 3,
          Event.panicked "boom".toList,
          Event.failed 500 "Internal Server Error".toList, Event.index 3,
          Event.index 4]) ∧
    (Context.Next 4 { (NewContext [] []) with handlers :=
        [HandlerFunc.Recovery,
          HandlerFunc.recovering [Act.next],
          HandlerFunc.steps [Act.panic "boom".toList],
          HandlerFunc.steps [Act.record "H".toList]] }).map
        (fun r => (r.1, r.2.StatusCode, r.2.trace)) =
      some (Outcome.returned, 0,
        [Event.index 0, Event.enter 0, Event.index 1, Event.enter 1, Event.index 2,
          Event.enter 2, Event.panicked "boom".toList, Event.index 3, Event.enter 3,
          Event.note "H".toList, Event.index 4, Event.index 5]) := by
  decide

/-- C12, amended. Take a chain with `Recovery` at a position `i`, in which no
other handler recovers panics and the handlers before `i` do not panic of their
own, and dispatch a fresh context on it.  With fuel for every handler of the
chain the dispatch ends, and whatever panics, with whatever value, it returns
normally: the panic does not leave `Recovery`.  Every panic
is answered at once by `Fail(500, "Internal Server Error")`, which sets
`StatusCode` to 500, writes the JSON body `{"message": "Internal Server Error"}`
and moves the cursor to the end of the chain; no handler begins executing after
a panic; and when the dispatch has ended after a panic, the status 500 and that
JSON body are among the calls made on the response writer.  Handlers positioned
after the panicking one run only if they were entered before the panic. -/
theorem recovery_contains_panic (c c1 : Context) (fuel : Nat) (out : Outcome) (i : Nat)
    (hfresh : ∀ e ∈ c.trace, (∀ code err, e ≠ Event.failed code err) ∧
      ∀ v, e ≠ Event.panicked v)
    (hindex : c.index = -1)
    (hrec : c.handlers.get? i = some HandlerFunc.Recovery)
    (hbefore : ∀ k < i, ∀ h, c.handlers.get? k = some h → h.safe = true)
    (honly : ∀ body, HandlerFunc.recovering body ∉ c.handlers)
    (hrun : c.Next fuel = some (out, c1)) :
    (∀ fuel2, c.handlers.length ≤ fuel2 →
      ∃ c2, c.Next fuel2 = some (Outcome.returned, c2)) ∧
    out = Outcome.returned ∧
    (∀ pre post v, c1.trace = pre ++ Event.panicked v :: post →
      (∃ post1, post = Event.failed 500 "Internal Server Error".toList ::
          Event.index c.handlers.length :: post1) ∧
        ∀ j, Event.enter j ∉ post) ∧
    ((∃ v, Event.panicked v ∈ c1.trace) →
      Write.status 500 ∈ c1.Writer ∧
        Write.json [("message".toList, "Internal Server Error".toList)] ∈ c1.Writer) ∧
    ∀ d : Context, d.Fail 500 "Internal Server Error".toList =
      (Outcome.returned,
        { d with
          StatusCode := 500,
          Writer := d.Writer ++
            [Write.header "Content-Type".toList "application/json".toList,
              Write.status 500,
              Write.json [("message".toList, "Internal Server Error".toList)]],
          index := d.handlers.length,
          trace := d.trace ++ [Event.failed 500 "Internal Server Error".toList,
            Event.index d.handlers.length] }) := by
  have hret : ∀ f o d, c.Next f = some (o, d) → o = Outcome.returned := by
    intro f o d h
    unfold Context.Next at h
    exact (nextLoop_safe c.handlers i hrec hbefore f _ d o (by simp)
      (by simp only [Context.setIndex_index]; omega)
      (Or.inl (by simp only [Context.setIndex_index]; omega)) h).1
  have hout : out = Outcome.returned := hret fuel out c1 hrun
  have htotal : ∀ fuel2, c.handlers.length ≤ fuel2 →
      ∃ c2, c.Next fuel2 = some (Outcome.returned, c2) := by
    intro fuel2 hf
    obtain ⟨⟨o, c2⟩, hr⟩ := nextLoop_total c.handlers honly c.handlers.length fuel2
      (c.setIndex (c.index + 1)) (by simp) (by simp only [Context.setIndex_index]; omega)
      (by simp only [Context.setIndex_index]; omega) hf
    have ho := hret fuel2 o c2 hr
    subst ho
    exact ⟨c2, hr⟩
  have h0 : Running c := by
    refine ⟨⟨fun code err hm => absurd rfl ((hfresh _ hm).1 code err), ?_⟩, ?_, ?_⟩
    · intro pre post code err hsplit
      exact absurd rfl ((hfresh (Event.failed code err) (by rw [hsplit]; simp)).1 code err)
    · intro pre post v hsplit
      exact absurd rfl ((hfresh (Event.panicked v) (by rw [hsplit]; simp)).2 v)
    · rintro ⟨v, hv⟩
      exact absurd rfl ((hfresh _ hv).2 v)
  have h1 := Context.Next_keeps2 running_stable
    (fun body hb => absurd hb (honly body)) fuel c out c1 rfl h0 hrun
  subst hout
  have h3 : Running c1 := h1.2
  refine ⟨htotal, rfl, ?_, h3.2.2,
    fun d => Context.Fail_valid d 500 _ (by decide) (by decide)⟩
  intro pre post v hsplit
  have h2 := Running.no_enter_after_panic h3 pre post v hsplit
  rw [h1.1] at h2
  exact h2

/-- C12, amended, on the chain `[Recovery, P, H]` where `P` records and then
panics with `boom`: the dispatch returns with status 500, and after the panic
come only the events of `Fail` and of the loops that end. -/
theorem recovery_contains_panic_witness :
    Context.Next 3 { (NewContext [] []) with handlers :=
        [HandlerFunc.Recovery,
          HandlerFunc.steps [Act.record "P".toList, Act.panic "boom".toList],
          HandlerFunc.steps [Act.record "H".toList]] } =
      some (Outcome.returned,
        { Writer := [Write.header "Content-Type".toList "application/json".toList,
            Write.status 500,
            Write.json [("message".toList, "Internal Server Error".toList)]],
          Path := [], Method := [], Params := none, StatusCode := 500,
          handlers := [HandlerFunc.Recovery,
            HandlerFunc.steps [Act.record "P".toList, Act.panic "boom".toList],
            HandlerFunc.steps [Act.record "H".toList]],
          index := 4,
          trace := [Event.index 0, Event.enter 0, Event.index 1, Event.enter 1,
            Event.note "P".toList, Event.panicked "boom".toList,
            Event.failed 500 "Internal Server Error".toList, Event.index 3,
            Event.index 4] }) ∧
    ∀ j, Event.enter j ∉ [Event.failed 500 "Internal Server Error".toList, Event.index 3,
      Event.index 4] :=
  ⟨rfl,
    ((recovery_contains_panic
      { (NewContext [] []) with handlers :=
        [HandlerFunc.Recovery,
          HandlerFunc.steps [Act.record "P".toList, Act.panic "boom".toList],
          HandlerFunc.steps [Act.record "H".toList]] }
      { Writer := [Write.header "Content-Type".toList "application/json".toList,
          Write.status 500,
          Write.json [("message".toList, "Internal Server Error".toList)]],
        Path := [], Method := [], Params := none, StatusCode := 500,
        handlers := [HandlerFunc.Recovery,
          HandlerFunc.steps [Act.record "P".toList, Act.panic "boom".toList],
          HandlerFunc.steps [Act.record "H".toList]],
        index := 4,
        trace := [Event.index 0, Event.enter 0, Event.index 1, Event.enter 1,
          Event.note "P".toList, Event.panicked "boom".toList,
          Event.failed 500 "Internal Server Error".toList, Event.index 3,
          Event.index 4] }
      3 Outcome.returned 0 (by intro e h; cases h) rfl rfl
      (by intro k hk; omega)
      (by intro body h; simp at h) rfl).2.2.1
      [Event.index 0, Event.enter 0, Event.index 1, Event.enter 1, Event.note "P".toList]
      [Event.failed 500 "Internal Server Error".toList, Event.index 3, Event.index 4]
      "boom".toList rfl).2⟩

/-! ## The cursor during a dispatch -/

theorem indexValues_append (a b : List Event) :
    indexValues (a ++ b) = indexValues a ++ indexValues b := by
  induction a with
  | nil => rfl
  | cons e a ih => cases e <;> simp [indexValues, ih]

theorem steady_snoc (len : Int) :
    ∀ (l : List Int) (a v : Int), Steady len a l →
      (lastOr a l ≤ v ∨ (len ≤ lastOr a l ∧ v = len)) →
      Steady len a (l ++ [v]) ∧ lastOr a (l ++ [v]) = v := by
  intro l
  induction l with
  | nil => intro a v _ h; exact ⟨⟨h, trivial⟩, rfl⟩
  | cons w l ih =>
    intro a v hs h
    obtain ⟨h1, h2⟩ := ih w v hs.2 h
    exact ⟨⟨hs.1, h1⟩, h2⟩

theorem steadySince_failing (base : List Event) (start : Int) (len : Nat) (c : Context)
    (code : Int) (err : Str) (h : SteadySince base start len c) :
    SteadySince base start len ((c.log (Event.failed code err)).setIndex c.handlers.length) := by
  obtain ⟨hl, post, h1, h2, h3⟩ := h
  have hs := steady_snoc len (indexValues post) start len h2
    (by
      rcases Int.le_total (lastOr start (indexValues post)) len with h | h
      · exact Or.inl h
      · exact Or.inr ⟨h, rfl⟩)
  refine ⟨hl, post ++ [Event.failed code err] ++ [Event.index len], ?_, ?_, ?_⟩
  · simp [h1, hl]
  · simpa [indexValues_append, indexValues] using hs.1
  · simpa [indexValues_append, indexValues, hl] using hs.2.symm

theorem steadySince_writes (base : List Event) (start : Int) (len : Nat) (c c1 : Context)
    (h : SteadySince base start len c) (hs : SameRun c c1) :
    SteadySince base start len c1 := by
  obtain ⟨hl, post, h1, h2, h3⟩ := h
  obtain ⟨e1, e2, e3, _⟩ := hs
  exact ⟨by rw [e3]; exact hl, post, by rw [e1]; exact h1, h2, by rw [e2]; exact h3⟩

theorem steadySince_stable (base : List Event) (start : Int) (len : Nat) :
    Stable (SteadySince base start len) (SteadySince base start len) where
  note := by
    rintro c tag ⟨hl, post, h1, h2, h3⟩
    exact ⟨hl, post ++ [Event.note tag], by simp [h1],
      by simpa [indexValues_append, indexValues] using h2,
      by simpa [indexValues_append, indexValues] using h3⟩
  incr := by
    rintro c ⟨hl, post, h1, h2, h3⟩
    have hs := steady_snoc len (indexValues post) start (c.index + 1) h2
      (Or.inl (by rw [← h3]; omega))
    refine ⟨hl, post ++ [Event.index (c.index + 1)], by simp [h1], ?_, ?_⟩
    · simpa [indexValues_append, indexValues] using hs.1
    · simpa [indexValues_append, indexValues] using hs.2.symm
  enter := by
    rintro c ⟨hl, post, h1, h2, h3⟩ _ _
    exact ⟨hl, post ++ [Event.enter c.index], by simp [h1],
      by simpa [indexValues_append, indexValues] using h2,
      by simpa [indexValues_append, indexValues] using h3⟩
  failing := steadySince_failing base start len
  writes := steadySince_writes base start len
  panic := by
    rintro c v ⟨hl, post, h1, h2, h3⟩
    exact ⟨hl, post ++ [Event.panicked v], by simp [h1],
      by simpa [indexValues_append, indexValues] using h2,
      by simpa [indexValues_append, indexValues] using h3⟩
  recover := recover_of_failing (steadySince_failing base start len)
    (steadySince_writes base start len)

/-- C17, refuted: on the chain `[A, B, H]` where `A` calls `Next` and then
`Fail`, and `B` calls `Next`, the cursor has reached 4 when `Fail` sets it to
`len(handlers) = 3`. -/
theorem index_monotone_counterexample :
    (Context.Next 3 { (NewContext [] []) with handlers :=
        [HandlerFunc.steps [Act.next, Act.fail 500 "late".toList],
          HandlerFunc.steps [Act.next],
          HandlerFunc.steps [Act.record "H".toList]] }).map
        (fun r => indexValues r.2.trace) = some [0, 1, 2, 3, 4, 3, 4] := by
  decide

/-- C17, amended. During any dispatch, across every sequence of `Next` and
`Fail` calls made by the handlers, an assignment to `index` never decreases it,
except that `Fail`, called when `index` is already at or past `len(handlers)`,
sets it to `len(handlers)`; so `index` never decreases while it is below
`len(handlers)` and never falls below `len(handlers)` once it got there. -/
theorem index_steady (c c1 : Context) (fuel : Nat) (out : Outcome)
    (hrun : c.Next fuel = some (out, c1)) :
    ∃ post, c1.trace = c.trace ++ post ∧
      Steady c.handlers.length c.index (indexValues post) ∧
      c1.index = lastOr c.index (indexValues post) := by
  have h0 : SteadySince c.trace c.index c.handlers.length c :=
    ⟨rfl, [], by simp, trivial, rfl⟩
  exact (Context.Next_keeps (steadySince_stable c.trace c.index c.handlers.length) fuel
    c out c1 rfl h0 hrun).2.2

/-- C17, amended, on the chain `[A, B, H]` of the counterexample. -/
theorem index_steady_witness :
    Context.Next 3 { (NewContext [] []) with handlers :=
        [HandlerFunc.steps [Act.next, Act.fail 500 "late".toList],
          HandlerFunc.steps [Act.next],
          HandlerFunc.steps [Act.record "H".toList]] } =
      some (Outcome.returned,
        { Writer := [Write.header "Content-Type".toList "application/json".toList,
            Write.status 500, Write.json [("message".toList, "late".toList)]],
          Path := [], Method := [], Params := none, StatusCode := 500,
          handlers := [HandlerFunc.steps [Act.next, Act.fail 500 "late".toList],
            HandlerFunc.steps [Act.next],
            HandlerFunc.steps [Act.record "H".toList]],
          index := 4,
          trace := [Event.index 0, Event.enter 0, Event.index 1, Event.enter 1,
            Event.index 2, Event.enter 2, Event.note "H".toList, Event.index 3,
            Event.index 4, Event.failed 500 "late".toList, Event.index 3,
            Event.index 4] }) ∧
    ∃ post, [Event.index 0, Event.enter 0, Event.index 1, Event.enter 1,
          Event.index 2, Event.enter 2, Event.note "H".toList, Event.index 3,
          Event.index 4, Event.failed 500 "late".toList, Event.index 3,
          Event.index 4] = [] ++ post ∧
      Steady (3 : Nat) (-1) (indexValues post) ∧
      (4 : Int) = lastOr (-1) (indexValues post) :=
  ⟨rfl,
    index_steady
      { (NewContext [] []) with handlers :=
        [HandlerFunc.steps [Act.next, Act.fail 500 "late".toList],
          HandlerFunc.steps [Act.next],
          HandlerFunc.steps [Act.record "H".toList]] }
      { Writer := [Write.header "Content-Type".toList "application/json".toList,
          Write.status 500, Write.json [("message".toList, "late".toList)]],
        Path := [], Method := [], Params := none, StatusCode := 500,
        handlers := [HandlerFunc.steps [Act.next, Act.fail 500 "late".toList],
          HandlerFunc.steps [Act.next],
          HandlerFunc.steps [Act.record "H".toList]],
        index := 4,
        trace := [Event.index 0, Event.enter 0, Event.index 1, Event.enter 1,
          Event.index 2, Event.enter 2, Event.note "H".toList, Event.index 3,
          Event.index 4, Event.failed 500 "late".toList, Event.index 3,
          Event.index 4] }
      3 Outcome.returned rfl⟩
/-! ## Every handler runs once -/

theorem enters_append (a b : List Event) : enters (a ++ b) = enters a ++ enters b := by
  induction a with
  | nil => rfl
  | cons e a ih => cases e <;> simp [enters, ih]

/-- With the cursor at or past the end, a body without `Fail` and `panic`
returns and enters no handler, however often it calls `Next`. -/
theorem runActs_calm_at_end (fuel : Nat) :
    ∀ (body : List Act) (c : Context), (∀ a ∈ body, a.calm = true) →
      (c.handlers.length : Int) ≤ c.index →
      ∃ c1, Context.runActs (Context.Next fuel) body c = some (Outcome.returned, c1) ∧
        c1.handlers = c.handlers ∧ (c.handlers.length : Int) ≤ c1.index ∧
        enters c1.trace = enters c.trace := by
  intro body
  induction body with
  | nil => intro c _ h; exact ⟨c, rfl, rfl, h, rfl⟩
  | cons a k ih =>
    intro c hcalm hend
    have hk : ∀ a ∈ k, a.calm = true := fun a ha => hcalm a (List.mem_cons_of_mem _ ha)
    have ha := hcalm a (List.mem_cons_self _ _)
    cases a with
    | record tag =>
      obtain ⟨c1, h1, h2, h3, h4⟩ := ih (c.log (Event.note tag)) hk (by simpa using hend)
      exact ⟨c1, by simpa [Context.runActs] using h1, by simpa using h2, by simpa using h3,
        by simpa [enters_append, enters] using h4⟩
    | next =>
      obtain ⟨c1, h1, h2, h3, h4⟩ := ih (c.setIndex (c.index + 1)) hk
        (by simp only [Context.setIndex_handlers, Context.setIndex_index]; omega)
      refine ⟨c1, ?_, by simpa using h2, by simpa using h3,
        by simpa [enters_append, enters] using h4⟩
      simp only [Context.runActs, Next_at_end fuel c hend]
      exact h1
    | string code text =>
      have hv : 100 ≤ code ∧ code ≤ 999 := by simpa [Act.calm] using ha
      have hs := Context.String_valid c code text hv.1 hv.2
      obtain ⟨c1, h1, h2, h3, h4⟩ := ih
        { c with StatusCode := code, Writer := c.Writer ++
          [Write.header "Content-Type".toList "text/plain".toList, Write.status code,
            Write.bytes text] } hk hend
      exact ⟨c1, by simpa [Context.runActs, hs] using h1, by simpa using h2,
        by simpa using h3, by simpa using h4⟩
    | fail code err => simp [Act.calm] at ha
    | panic v => simp [Act.calm] at ha

/-- A body without `Fail` and `panic`, run at position `i`, returns; either it
has not called `Next` and the cursor is still `i`, or it has and the rest of the
chain was entered once, by its first call of `Next`. -/
theorem runActs_calm (fuel : Nat) (hs : List HandlerFunc) (i : Int) (E : List Int)
    (hloop : ∀ c : Context, c.handlers = hs → c.index = i + 1 →
      ∃ c1, Context.nextLoop fuel hs.length c = some (Outcome.returned, c1) ∧
        c1.handlers = hs ∧ (hs.length : Int) ≤ c1.index ∧
        enters c1.trace = enters c.trace ++ E) :
    ∀ (body : List Act) (c : Context), (∀ a ∈ body, a.calm = true) →
      c.handlers = hs → c.index = i →
      ∃ c1, Context.runActs (Context.Next fuel) body c = some (Outcome.returned, c1) ∧
        c1.handlers = hs ∧
        ((c1.index = i ∧ enters c1.trace = enters c.trace) ∨
          ((hs.length : Int) ≤ c1.index ∧ enters c1.trace = enters c.trace ++ E)) := by
  intro body
  induction body with
  | nil => intro c _ hc hi; exact ⟨c, rfl, hc, Or.inl ⟨hi, rfl⟩⟩
  | cons a k ih =>
    intro c hcalm hc hi
    have hk : ∀ a ∈ k, a.calm = true := fun a ha => hcalm a (List.mem_cons_of_mem _ ha)
    have ha := hcalm a (List.mem_cons_self _ _)
    cases a with
    | record tag =>
      obtain ⟨c1, h1, h2, h3⟩ := ih (c.log (Event.note tag)) hk (by simpa using hc)
        (by simpa using hi)
      exact ⟨c1, by simpa [Context.runActs] using h1, h2,
        by simpa [enters_append, enters] using h3⟩
    | next =>
      obtain ⟨c1, h1, h2, h3, h4⟩ := hloop (c.setIndex (c.index + 1)) (by simpa using hc)
        (by simp [hi])
      obtain ⟨c2, h5, h6, h7, h8⟩ := runActs_calm_at_end fuel k c1 hk (by rw [h2]; exact h3)
      refine ⟨c2, ?_, by rw [h6, h2], Or.inr ⟨by rw [h2] at h7; exact h7, ?_⟩⟩
      · simp only [Context.runActs, Context.Next, hc, h1]
        exact h5
      · rw [h8, h4]
        simp [enters_append, enters]
    | string code text =>
      have hv : 100 ≤ code ∧ code ≤ 999 := by simpa [Act.calm] using ha
      have hs := Context.String_valid c code text hv.1 hv.2
      obtain ⟨c1, h1, h2, h3⟩ := ih
        { c with StatusCode := code, Writer := c.Writer ++
          [Write.header "Content-Type".toList "text/plain".toList, Write.status code,
            Write.bytes text] } hk hc hi
      exact ⟨c1, by simpa [Context.runActs, hs] using h1, h2, by simpa using h3⟩
    | fail code err => simp [Act.calm] at ha
    | panic v => simp [Act.calm] at ha

/-- The loop of `Next` at position `i` of a chain of handlers without `Fail`
and `panic` enters each of the `k` remaining handlers once, in order. -/
theorem nextLoop_calm (hs : List HandlerFunc) (hcalm : ∀ h ∈ hs, h.calm = true) :
    ∀ (k i fuel : Nat) (c : Context), i + k = hs.length → k ≤ fuel → c.handlers = hs →
      c.index = i →
      ∃ c1, Context.nextLoop fuel hs.length c = some (Outcome.returned, c1) ∧
        c1.handlers = hs ∧ (hs.length : Int) ≤ c1.index ∧
        enters c1.trace = enters c.trace ++ (List.range' i k).map Int.ofNat := by
  intro k
  induction k with
  | zero =>
    intro i fuel c hik _ hc hi
    refine ⟨c, Context.nextLoop_done _ _ _ (by omega), hc, by omega, by simp⟩
  | succ k ih =>
    intro i fuel c hik hfuel hc hi
    obtain ⟨fuel, rfl⟩ : ∃ f, fuel = f + 1 := ⟨fuel - 1, by omega⟩
    have hlt : i < hs.length := by omega
    have hget : c.handlers.get? c.index.toNat = some (hs.get ⟨i, hlt⟩) := by
      rw [hc, hi]
      exact List.get?_eq_get hlt
    have hloop : ∀ d : Context, d.handlers = hs → d.index = (i : Int) + 1 →
        ∃ c1, Context.nextLoop fuel hs.length d = some (Outcome.returned, c1) ∧
          c1.handlers = hs ∧ (hs.length : Int) ≤ c1.index ∧
          enters c1.trace = enters d.trace ++ (List.range' (i + 1) k).map Int.ofNat :=
      fun d hd hdi => ih (i + 1) fuel d (by omega) (by omega) hd (by simpa using hdi)
    rw [Context.nextLoop_step fuel _ c _ (by omega) (by omega) hget]
    have hh := hcalm _ (List.get_mem hs i hlt)
    have key : ∃ c1, Context.runHandler (Context.Next fuel) (hs.get ⟨i, hlt⟩)
          (c.log (Event.enter c.index)) = some (Outcome.returned, c1) ∧
        c1.handlers = hs ∧
        ((c1.index = i ∧ enters c1.trace = enters c.trace ++ [(i : Int)]) ∨
          ((hs.length : Int) ≤ c1.index ∧
            enters c1.trace = enters c.trace ++ [(i : Int)] ++
              (List.range' (i + 1) k).map Int.ofNat)) := by
      have he : enters (c.log (Event.enter c.index)).trace = enters c.trace ++ [(i : Int)] := by
        simp [enters_append, enters, hi]
      cases hg : hs.get ⟨i, hlt⟩ with
      | steps body =>
        rw [hg] at hh
        obtain ⟨c1, h1, h2, h3⟩ := runActs_calm fuel hs i _ hloop body
          (c.log (Event.enter c.index))
          (by simpa [HandlerFunc.calm, List.all_eq_true] using hh) (by simpa using hc)
          (by simpa using hi)
        exact ⟨c1, h1, h2, by rw [he] at h3; exact h3⟩
      | recovering body =>
        rw [hg] at hh
        obtain ⟨c1, h1, h2, h3⟩ := runActs_calm fuel hs i _ hloop body
          (c.log (Event.enter c.index))
          (by simpa [HandlerFunc.calm, List.all_eq_true] using hh) (by simpa using hc)
          (by simpa using hi)
        refine ⟨c1, ?_, h2, by rw [he] at h3; exact h3⟩
        simp only [Context.runHandler, h1]
      | Recovery =>
        obtain ⟨c1, h1, h2, h3, h4⟩ := hloop
          ((c.log (Event.enter c.index)).setIndex ((c.log (Event.enter c.index)).index + 1))
          (by simpa using hc) (by simp [hi])
        refine ⟨c1, ?_, h2, Or.inr ⟨h3, ?_⟩⟩
        · simp only [Context.runHandler, Context.Next, Context.log_handlers, hc, h1]
        · rw [h4]
          simp [enters_append, enters, hi]
      | notFound =>
        exact ⟨_, runHandler_notFound _ _, by simpa using hc,
          Or.inl ⟨by simpa using hi, by simpa using he⟩⟩
      | nilFunc => rw [hg] at hh; simp [HandlerFunc.calm] at hh
    obtain ⟨c1, h1, h2, h3⟩ := key
    simp only [h1]
    rcases h3 with ⟨h3, h4⟩ | ⟨h3, h4⟩
    · obtain ⟨c2, h5, h6, h7, h8⟩ := ih (i + 1) fuel (c1.setIndex (c1.index + 1))
        (by omega) (by omega) (by simpa using h2) (by simp [h3])
      refine ⟨c2, h5, h6, h7, ?_⟩
      rw [h8]
      simp [enters_append, enters, h4, List.range'_succ]
    · refine ⟨_, Context.nextLoop_done _ _ _ (by simp; omega), by simpa using h2,
        by simp; omega, ?_⟩
      simp [enters_append, enters, h4, List.range'_succ]

/-- C19. For a context with index -1 and a chain of `n` handlers none of which
calls `Fail` or panics, a single `Next` with fuel for `n` handler calls returns,
having entered every handler of the chain exactly once, in chain order, however
often each handler itself calls `Next`; and it ends with `index ≥ n`. -/
theorem every_handler_once (c : Context) (fuel : Nat)
    (hindex : c.index = -1) (hcalm : ∀ h ∈ c.handlers, h.calm = true)
    (hfuel : c.handlers.length ≤ fuel) :
    ∃ c1, c.Next fuel = some (Outcome.returned, c1) ∧
      enters c1.trace = enters c.trace ++ (List.range c.handlers.length).map Int.ofNat ∧
      (c.handlers.length : Int) ≤ c1.index := by
  obtain ⟨c1, h1, _, h3, h4⟩ := nextLoop_calm c.handlers hcalm c.handlers.length 0 fuel
    (c.setIndex (c.index + 1)) (by simp) hfuel rfl (by simp [hindex])
  refine ⟨c1, h1, ?_, h3⟩
  rw [h4, List.range_eq_range']
  simp [enters_append, enters]

/-- C19 on a chain of three handlers: the first calls `Next` twice, the second
not at all, the third once. -/
theorem every_handler_once_witness :
    ∃ c1, Context.Next 3 { (NewContext [] []) with handlers :=
        [HandlerFunc.steps [Act.next, Act.record "a".toList, Act.next],
          HandlerFunc.steps [Act.record "b".toList],
          HandlerFunc.steps [Act.next]] } = some (Outcome.returned, c1) ∧
      enters c1.trace = [] ++ (List.range 3).map Int.ofNat ∧ ((3 : Nat) : Int) ≤ c1.index :=
  every_handler_once { (NewContext [] []) with handlers :=
      [HandlerFunc.steps [Act.next, Act.record "a".toList, Act.next],
        HandlerFunc.steps [Act.record "b".toList],
        HandlerFunc.steps [Act.next]] } 3 rfl (by decide) (by decide)

/-! ## router.go: what handle appends -/

/-- C13. On a miss `handle` appends exactly one handler, the not-found handler,
leaves `Params` as it was and runs the chain with `Next`; the chain and `Params`
stay so until the dispatch ends.  With no middleware the dispatch returns with
`StatusCode` 404 and the body `404 NOT FOUND: `, the request path and a newline;
with middlewares that neither call `Fail` nor panic it returns having entered
every middleware and then the not-found handler, each once.  When the not-found
handler runs it sets `StatusCode` to 404 and writes that body.  On a hit
`handle` appends exactly one handler, the one stored under
`Method + "-" + pattern`, sets `Params` to the extracted map and runs the chain;
in a router built by `addRoute` calls that entry exists. -/
theorem handle_appends_one (r : router HandlerFunc) (fuel : Nat) :
    (∀ c : Context, r.getRoute c.Method c.Path = some none →
      r.handle fuel c =
        Context.Next fuel { c with handlers := c.handlers ++ [HandlerFunc.notFound] } ∧
      (∀ out c1, r.handle fuel c = some (out, c1) →
        c1.handlers = c.handlers ++ [HandlerFunc.notFound] ∧ c1.Params = c.Params) ∧
      (c.handlers = [] → c.index = -1 →
        r.handle (fuel + 1) c = some (Outcome.returned,
          { c with
            handlers := [HandlerFunc.notFound],
            StatusCode := 404,
            Writer := c.Writer ++ [Write.header "Content-Type".toList "text/plain".toList,
              Write.status 404,
              Write.bytes ("404 NOT FOUND: ".toList ++ c.Path ++ ['\n'])],
            index := 1,
            trace := c.trace ++ [Event.index 0, Event.enter 0, Event.index 1] })) ∧
      (c.index = -1 → (∀ h ∈ c.handlers, h.calm = true) → c.handlers.length + 1 ≤ fuel →
        ∃ c1, r.handle fuel c = some (Outcome.returned, c1) ∧
          enters c1.trace = enters c.trace ++
            (List.range (c.handlers.length + 1)).map Int.ofNat)) ∧
    (∀ (next : Context → Option (Outcome × Context)) (e : Context),
      Context.runHandler next HandlerFunc.notFound e =
        some (Outcome.returned,
          { e with
            StatusCode := 404,
            Writer := e.Writer ++ [Write.header "Content-Type".toList "text/plain".toList,
              Write.status 404,
              Write.bytes ("404 NOT FOUND: ".toList ++ e.Path ++ ['\n'])] })) ∧
    (∀ (d : Context) (n : node) (params : Params),
      r.getRoute d.Method d.Path = some (some (n, params)) →
      r.handle fuel d =
        Context.Next fuel { d with
          Params := some params,
          handlers := d.handlers ++
            [(r.Handlers (routeKey d.Method n.pattern)).getD HandlerFunc.nilFunc] } ∧
      (∀ out d1, r.handle fuel d = some (out, d1) →
        d1.handlers = d.handlers ++
            [(r.Handlers (routeKey d.Method n.pattern)).getD HandlerFunc.nilFunc] ∧
          d1.Params = some params)) ∧
    ∀ (calls : List (Route HandlerFunc)) (d : Context) (n : node) (params : Params),
      (buildRouter calls).getRoute d.Method d.Path = some (some (n, params)) →
      ∃ h, (buildRouter calls).Handlers (routeKey d.Method n.pattern) = some h ∧
        ((buildRouter calls).Handlers (routeKey d.Method n.pattern)).getD
          HandlerFunc.nilFunc = h := by
  refine ⟨?_, runHandler_notFound, ?_, ?_⟩
  · intro c hmiss
    have e1 : ∀ f, r.handle f c =
        Context.Next f { c with handlers := c.handlers ++ [HandlerFunc.notFound] } := by
      intro f
      simp only [router.handle, hmiss]
    refine ⟨e1 fuel, ?_, ?_, ?_⟩
    · intro out c1 hrun
      rw [e1] at hrun
      exact @Context.Next_keeps (c.handlers ++ [HandlerFunc.notFound]) _
        (params_stable c.Params) fuel
        { c with handlers := c.handlers ++ [HandlerFunc.notFound] } out c1 rfl rfl hrun
    · intro hnil hidx
      rw [e1, hnil]
      unfold Context.Next
      rw [Context.nextLoop_step fuel _ _ HandlerFunc.notFound (by simp [hidx])
        (by simp [hidx]) (by simp [hidx])]
      rw [runHandler_notFound]
      simp only []
      rw [Context.nextLoop_done _ _ _ (by simp [hidx])]
      simp [Context.setIndex, Context.log, hidx]
    · intro hidx hcalm hfuel
      rw [e1]
      have hcalm2 : ∀ h ∈ c.handlers ++ [HandlerFunc.notFound], h.calm = true := by
        intro h hm
        rcases List.mem_append.1 hm with h1 | h1
        · exact hcalm h h1
        · rw [List.mem_singleton.1 h1]; rfl
      obtain ⟨c1, h1, _, _, h4⟩ := nextLoop_calm (c.handlers ++ [HandlerFunc.notFound])
        hcalm2 (c.handlers.length + 1) 0 fuel
        (({ c with handlers := c.handlers ++ [HandlerFunc.notFound] } : Context).setIndex
          (c.index + 1)) (by simp) hfuel rfl (by simp [hidx])
      refine ⟨c1, h1, ?_⟩
      rw [h4, List.range_eq_range']
      simp [enters_append, enters, Context.setIndex]
  · intro d n params hhit
    have e2 : r.handle fuel d =
        Context.Next fuel { d with
          Params := some params,
          handlers := d.handlers ++
            [(r.Handlers (routeKey d.Method n.pattern)).getD HandlerFunc.nilFunc] } := by
      simp only [router.handle, hhit]
    refine ⟨e2, ?_⟩
    intro out d1 hrun
    rw [e2] at hrun
    exact @Context.Next_keeps (d.handlers ++
        [(r.Handlers (routeKey d.Method n.pattern)).getD HandlerFunc.nilFunc]) _
      (params_stable (some params)) fuel
      { d with
        Params := some params,
        handlers := d.handlers ++
          [(r.Handlers (routeKey d.Method n.pattern)).getD HandlerFunc.nilFunc] }
      out d1 rfl rfl hrun
  · intro calls d n params hhit
    obtain ⟨root, hroot, hn, _⟩ := getRoute_eq_match hhit
    obtain ⟨k, _, hsome, _⟩ := search_depth _ 0 root n
      (buildRouter_sound calls d.Method root hroot) hn
    cases hh : (buildRouter calls).Handlers (routeKey d.Method n.pattern) with
    | none => rw [hh] at hsome; simp at hsome
    | some h => exact ⟨h, rfl, rfl⟩

/-- C13 on the router without routes, where `GET /nope` misses, and on the
router with the one route `GET /hello`, whose handler records `hi`, where
`GET /hello` hits. -/
theorem handle_appends_one_witness :
    (buildRouter ([] : List (Route HandlerFunc))).handle 1
        (NewContext "GET".toList "/nope".toList) =
      some (Outcome.returned,
        { Writer := [Write.header "Content-Type".toList "text/plain".toList,
            Write.status 404, Write.bytes "404 NOT FOUND: /nope\n".toList],
          Path := "/nope".toList, Method := "GET".toList, Params := none,
          StatusCode := 404, handlers := [HandlerFunc.notFound], index := 1,
          trace := [Event.index 0, Event.enter 0, Event.index 1] }) ∧
    (buildRouter [Route.mk "GET".toList "/hello".toList
        (HandlerFunc.steps [Act.record "hi".toList])]).handle 1
        (NewContext "GET".toList "/hello".toList) =
      Context.Next 1 { (NewContext "GET".toList "/hello".toList) with
        Params := some (fun _ => none),
        handlers := [] ++ [((buildRouter [Route.mk "GET".toList "/hello".toList
          (HandlerFunc.steps [Act.record "hi".toList])]).Handlers
            (routeKey "GET".toList "/hello".toList)).getD HandlerFunc.nilFunc] } :=
  ⟨((handle_appends_one (buildRouter ([] : List (Route HandlerFunc))) 0).1
      (NewContext "GET".toList "/nope".toList) rfl).2.2.1 rfl rfl,
    ((handle_appends_one
      (buildRouter [Route.mk "GET".toList "/hello".toList
        (HandlerFunc.steps [Act.record "hi".toList])]) 1).2.2.1
      (NewContext "GET".toList "/hello".toList)
      (node.mk "/hello".toList "hello".toList [] false) (fun _ => none) rfl).1⟩

/-! ## getRoute stays in range -/

theorem NodesOK.depthAt {P : Nat → Str → Prop} {k : Nat} {m n : node} (hs : DepthAt k m n) :
    ∀ {d : Nat}, NodesOK P d n → m.pattern ≠ [] → P (d + k) m.pattern := by
  induction hs with
  | self => intro d h hp; exact h.here hp
  | @child k m c n hc _ ih =>
    intro d h hp
    rw [show d + (k + 1) = d + 1 + k by omega]
    exact ih (h.kids _ hc) hp

/-- C18. In every router built from `newRouter()` by `addRoute` calls, for every
method and path, `getRoute` makes no out-of-range access (its result is never
the panic `none`): every node that stores a pattern lies at the depth that is
the number of parsed segments of the pattern; a node that `search` returns
stores a pattern with at most as many parsed segments as the path; and every
parsed segment, of which `insert` and `getRoute` take `part[0]`, is non-empty. -/
theorem getRoute_in_range {H : Type} (calls : List (Route H)) (method path : Str) :
    (buildRouter calls).getRoute method path ≠ none ∧
    (∀ (root n : node) (k : Nat), (buildRouter calls).roots method = some root →
      DepthAt k n root → n.pattern ≠ [] → (parsePattern n.pattern).length = k) ∧
    (∀ root n : node, (buildRouter calls).roots method = some root →
      root.search (parsePattern path) = some n →
      (parsePattern n.pattern).length ≤ (parsePattern path).length) ∧
    ∀ pattern : Str, ∀ part ∈ parsePattern pattern, part ≠ [] := by
  refine ⟨?_, ?_, ?_, parsePattern_ne_nil⟩
  · cases hroot : (buildRouter calls).roots method with
    | none => simp [router.getRoute, hroot]
    | some root =>
      cases hn : root.search (parsePattern path) with
      | none => rw [getRoute_of_search_none hroot hn]; simp
      | some n =>
        obtain ⟨params, hget, _⟩ := built_getRoute calls hroot hn
        rw [hget]; simp
  · intro root n k hroot hd hp
    have := NodesOK.depthAt hd (buildRouter_sound calls method root hroot) hp
    simpa using this.2
  · intro root n hroot hn
    obtain ⟨k, hk, _, hlen⟩ :=
      search_depth _ 0 root n (buildRouter_sound calls method root hroot) hn
    omega

/-! ## What parsePattern returns -/

theorem split_ne_nil (sep : Char) (s : Str) : Split sep s ≠ [] := by
  induction s with
  | nil => simp [Split]
  | cons c cs ih =>
    simp only [Split]
    split
    · simp
    · split <;> simp

theorem split_no_sep (sep : Char) : ∀ (s : Str), ∀ w ∈ Split sep s, sep ∉ w := by
  intro s
  induction s with
  | nil => intro w hw; simp [Split] at hw; subst hw; simp
  | cons c cs ih =>
    intro w hw
    simp only [Split] at hw
    split at hw
    · rcases List.mem_cons.1 hw with e | e
      · subst e; simp
      · exact ih w e
    · rename_i hc
      split at hw
      · simp only [List.mem_singleton] at hw
        subst hw
        simpa using fun e => hc e.symm
      · rename_i w1 ws hsplit
        rcases List.mem_cons.1 hw with e | e
        · subst e
          have := ih w1 (by rw [hsplit]; exact List.mem_cons_self _ _)
          simp only [List.mem_cons, not_or]
          exact ⟨fun e => hc e.symm, this⟩
        · exact ih w (by rw [hsplit]; exact List.mem_cons_of_mem _ e)

theorem split_append (sep : Char) (b : Str) :
    ∀ a : Str, Split sep (a ++ sep :: b) = Split sep a ++ Split sep b := by
  intro a
  induction a with
  | nil => simp [Split]
  | cons c a ih =>
    by_cases hc : c = sep
    · simp [Split, hc, ih]
    · simp only [List.cons_append, Split, hc, if_false]
      have ih2 : Split sep (a.append (sep :: b)) = Split sep a ++ Split sep b := ih
      rw [ih2]
      cases h : Split sep a with
      | nil => exact absurd h (split_ne_nil sep a)
      | cons w ws => simp

theorem parseItems_subset : ∀ (vs : List Str), ∀ p ∈ parseItems vs, p ∈ vs := by
  intro vs
  induction vs with
  | nil => intro p hp; simp [parseItems] at hp
  | cons item vs ih =>
    intro p hp
    unfold parseItems at hp
    by_cases h : item = []
    · simp only [h, ne_eq, not_true_eq_false, if_false] at hp
      exact List.mem_cons_of_mem _ (ih p hp)
    · simp only [ne_eq, h, not_false_eq_true, if_true] at hp
      split at hp
      · simp only [List.mem_singleton] at hp
        rw [hp]; exact List.mem_cons_self _ _
      · rcases List.mem_cons.1 hp with e | e
        · rw [e]; exact List.mem_cons_self _ _
        · exact List.mem_cons_of_mem _ (ih p e)

theorem parseItems_eq_uptoStar (vs : List Str) :
    parseItems vs = uptoStar (vs.filter fun s => decide (s ≠ [])) := by
  induction vs with
  | nil => rfl
  | cons item vs ih =>
    unfold parseItems
    by_cases h : item = []
    · simp [h, ih]
    · simp only [ne_eq, h, not_false_eq_true, if_true, List.filter_cons, decide_True,
        uptoStar, isStar, decide_eq_true_eq, ih]

theorem parseItems_append_star (l2 : List Str) :
    ∀ l1 : List Str, (∃ s ∈ parseItems l1, isStar s = true) →
      parseItems (l1 ++ l2) = parseItems l1 := by
  intro l1
  induction l1 with
  | nil => rintro ⟨s, hs, _⟩; simp [parseItems] at hs
  | cons item l1 ih =>
    rintro ⟨s, hs, hstar⟩
    simp only [List.cons_append]
    unfold parseItems at hs ⊢
    by_cases h : item = []
    · simp only [h, ne_eq, not_true_eq_false, if_false] at hs ⊢
      exact ih ⟨s, hs, hstar⟩
    · simp only [ne_eq, h, not_false_eq_true, if_true] at hs ⊢
      by_cases h2 : item.head? = some '*'
      · simp [h2]
      · simp only [h2, if_false] at hs ⊢
        rcases List.mem_cons.1 hs with e | e
        · subst e
          simp [isStar] at hstar
          exact absurd hstar h2
        · rw [ih ⟨s, e, hstar⟩]

theorem starLast_get? :
    ∀ (l : List Str) (i : Nat) (s : Str), StarLast l → l.get? i = some s →
      isStar s = true → i + 1 = l.length := by
  intro l
  induction l with
  | nil => intro i s _ hi; simp at hi
  | cons a l ih =>
    intro i s hsl hi hs
    cases i with
    | zero =>
      simp only [List.get?_cons_zero, Option.some.injEq] at hi
      subst hi
      simp [hsl.1 hs]
    | succ i =>
      simp only [List.get?_cons_succ] at hi
      simp only [List.length_cons]
      rw [ih i s hsl.2 hi hs]

theorem skeletonList_eq_map (cs : List node) : skeletonList cs = cs.map node.skeleton := by
  induction cs with
  | nil => rfl
  | cons c cs ih => simp [skeletonList, ih]

theorem skeleton_mk (p q : Str) (cs : List node) (w : Bool) :
    (node.mk p q cs w).skeleton = node.mk [] q (cs.map node.skeleton) w := by
  simp [node.skeleton, skeletonList_eq_map]

theorem map_skeleton_insertInto (a : Str) (f g : node → node)
    (hfg : ∀ c, (f c).skeleton = (g c).skeleton) :
    ∀ cs : List node, (node.insertInto a f cs).map node.skeleton =
      (node.insertInto a g cs).map node.skeleton := by
  intro cs
  induction cs with
  | nil => simp [node.insertInto, hfg]
  | cons c cs ih =>
    by_cases h : node.matchesPart a c = true
    · simp [node.insertInto, h, hfg]
    · simp only [Bool.not_eq_true] at h
      simp [node.insertInto, h, ih]

/-- The nodes that `insert` creates or walks do not depend on the pattern
string that is stored, only on the segments. -/
theorem skeleton_insert (p q : Str) :
    ∀ (parts : List Str) (n : node),
      (node.insert p parts n).skeleton = (node.insert q parts n).skeleton := by
  intro parts
  induction parts with
  | nil => intro n; simp [node.insert_nil, skeleton_mk]
  | cons a rest ih =>
    intro n
    simp only [node.insert_cons, skeleton_mk]
    rw [map_skeleton_insertInto a _ _ (fun c => ih c)]

/-- C16. For every string `p`, `parsePattern(p)` is the list of the non-empty
`/`-separated segments of `p` cut off right after the first segment that begins
with `*`; every returned segment is non-empty and contains no `/`, and only the
last one can begin with `*`.  So a pattern with further segments after a `*`
segment is parsed like the pattern without them and its registration creates
the same trie levels. -/
theorem parsePattern_spec {H : Type} (p t : Str) (r : router H) (m : Str) (h : H) :
    parsePattern p = uptoStar ((Split '/' p).filter fun s => decide (s ≠ [])) ∧
    (∀ s ∈ parsePattern p, s ≠ [] ∧ '/' ∉ s) ∧
    (∀ i s, (parsePattern p).get? i = some s → isStar s = true →
      i + 1 = (parsePattern p).length) ∧
    ((∃ s ∈ parsePattern p, isStar s = true) →
      parsePattern (p ++ '/' :: t) = parsePattern p ∧
      ∀ m2, ((r.addRoute m (p ++ '/' :: t) h).roots m2).map node.skeleton =
        ((r.addRoute m p h).roots m2).map node.skeleton) ∧
    parsePattern "/assets/*filepath/x/y".toList = parsePattern "/assets/*filepath".toList := by
  refine ⟨parseItems_eq_uptoStar _, ?_, ?_, ?_, by decide⟩
  · intro s hs
    exact ⟨parsePattern_ne_nil p s hs, split_no_sep '/' p s (parseItems_subset _ s hs)⟩
  · intro i s hi hs
    exact starLast_get? _ i s (parsePattern_starLast p) hi hs
  · intro hstar
    have e : parsePattern (p ++ '/' :: t) = parsePattern p := by
      simp only [parsePattern, split_append]
      exact parseItems_append_star _ _ hstar
    refine ⟨e, fun m2 => ?_⟩
    by_cases hm : m2 = m
    · subst hm
      rw [addRoute_roots_same, addRoute_roots_same, e]
      simp only [Option.map_some', Option.some.injEq]
      exact skeleton_insert _ _ _ _
    · rw [addRoute_roots_other _ _ _ _ hm, addRoute_roots_other _ _ _ _ hm]

/-! ## search is a depth-first search with backtracking -/

theorem head?_flatMap {α β : Type} (g : α → List β) :
    ∀ l : List α, (l.flatMap g).head? = l.findSome? fun a => (g a).head? := by
  intro l
  induction l with
  | nil => rfl
  | cons a l ih =>
    simp only [List.flatMap_cons, List.findSome?_cons]
    cases h : g a with
    | nil => simpa using ih
    | cons b bs => simp

/-- The node that `search` returns is the first of `allMatches`. -/
theorem search_eq_head? :
    ∀ (parts : List Str) (n : node), node.search parts n = (node.allMatches parts n).head? := by
  intro parts
  induction parts with
  | nil =>
    intro n
    rw [search_nil]
    simp only [node.allMatches]
    split <;> rfl
  | cons part rest ih =>
    intro n
    rw [search_cons]
    simp only [node.allMatches]
    split
    · split <;> rfl
    · rw [head?_flatMap]
      congr 1
      funext c
      exact ih c

theorem matchesPart_iff (part : Str) (c : node) :
    node.matchesPart part c = true ↔ (c.part = part ∨ c.isWild = true) := by
  simp [node.matchesPart]

theorem mem_allMatches :
    ∀ (parts : List Str) (n m : node),
      m ∈ node.allMatches parts n ↔ (Descends parts n m ∧ m.pattern ≠ []) := by
  intro parts
  induction parts with
  | nil =>
    intro n m
    simp only [node.allMatches]
    constructor
    · intro h
      split at h
      · cases h
      · rename_i hp
        simp only [List.mem_singleton] at h
        subst h
        exact ⟨Descends.atEnd _, hp⟩
    · rintro ⟨hd, hp⟩
      cases hd with
      | atEnd => simp [hp]
      | atStar _ _ _ => simp [hp]
  | cons part rest ih =>
    intro n m
    simp only [node.allMatches]
    constructor
    · intro h
      split at h
      · rename_i hs
        split at h
        · cases h
        · rename_i hp
          simp only [List.mem_singleton] at h
          subst h
          exact ⟨Descends.atStar _ _ hs, hp⟩
      · rename_i hs
        obtain ⟨c, hc, hm⟩ := List.mem_flatMap.1 h
        obtain ⟨hc1, hc2⟩ := List.mem_filter.1 hc
        obtain ⟨hd, hp⟩ := (ih c m).1 hm
        exact ⟨Descends.step (by simpa using hs) hc1 ((matchesPart_iff _ _).1 hc2) hd, hp⟩
    · rintro ⟨hd, hp⟩
      cases hd with
      | atStar _ _ hs => simp [hs, hp]
      | step hs hc hmatch hd =>
        simp only [hs, Bool.false_eq_true, if_false]
        exact List.mem_flatMap.2 ⟨_, List.mem_filter.2 ⟨hc, (matchesPart_iff _ _).2 hmatch⟩,
          (ih _ m).2 ⟨hd, hp⟩⟩

/-- C14. `n.search(parts, 0)` returns a node if and only if there is a downward
path from `n`, each step into a child whose part equals the current segment or
whose `isWild` is set, with no `*` node before its end, ending when the segments
are used up or at a `*` node, and whose end stores a pattern.  The node returned
is the end of the first such path in depth-first order of the children, so a
first matching child below which nothing is found does not hide a later matching
sibling: with `/a/b/c` and `/a/:x/d` registered, `/a/b/d` finds `/a/:x/d`. -/
theorem search_is_backtracking_dfs (n : node) (parts : List Str) :
    ((∃ m, n.search parts = some m) ↔ ∃ m, Descends parts n m ∧ m.pattern ≠ []) ∧
    (∀ m, n.search parts = some m → Descends parts n m ∧ m.pattern ≠ []) ∧
    n.search parts = (n.allMatches parts).head? ∧
    (∀ m, m ∈ n.allMatches parts ↔ (Descends parts n m ∧ m.pattern ≠ [])) ∧
    (node.mk [] "b".toList [node.mk "/a/b/c".toList "c".toList [] false] false).search
        ["d".toList] = none ∧
    ((buildRouter [Route.mk "GET".toList "/a/b/c".toList (),
        Route.mk "GET".toList "/a/:x/d".toList ()]).getRoute "GET".toList
        "/a/b/d".toList).map (fun o => o.map fun x => (x.1.pattern, x.2 "x".toList)) =
      some (some ("/a/:x/d".toList, some "b".toList)) := by
  have hmem := mem_allMatches parts n
  have hhead := search_eq_head? parts n
  refine ⟨?_, ?_, hhead, hmem, rfl, by decide⟩
  · constructor
    · rintro ⟨m, hm⟩
      rw [hhead] at hm
      exact ⟨m, (hmem m).1 (List.mem_of_mem_head? hm)⟩
    · rintro ⟨m, hm⟩
      have h1 := (hmem m).2 hm
      rw [hhead]
      cases h : n.allMatches parts with
      | nil => rw [h] at h1; cases h1
      | cons a l => exact ⟨a, rfl⟩
  · intro m hm
    rw [hhead] at hm
    exact (hmem m).1 (List.mem_of_mem_head? hm)

/-! ## Patterns that differ in parameter names only -/

theorem Flagged.flags {n : node} (h : Flagged n) :
    ∀ c ∈ n.children, c.isWild = (isParam c.part || isStar c.part) := by
  cases h with
  | mk h1 _ => exact h1

theorem Flagged.children_flagged {n : node} (h : Flagged n) : ∀ c ∈ n.children, Flagged c := by
  cases h with
  | mk _ h2 => exact h2

theorem Flagged.of_newChild (part : Str) : Flagged (node.newChild part) :=
  Flagged.mk (fun c hc => by simp [node.newChild] at hc)
    (fun c hc => by simp [node.newChild] at hc)

theorem Flagged.insert_flagged (pattern : Str) :
    ∀ (parts : List Str) (n : node), Flagged n → Flagged (node.insert pattern parts n) := by
  intro parts
  induction parts with
  | nil =>
    intro n hn
    rw [node.insert_nil]
    exact Flagged.mk (by simpa using hn.flags) (by simpa using hn.children_flagged)
  | cons part rest ih =>
    intro n hn
    rw [node.insert_cons]
    suffices key : ∀ x ∈ node.insertInto part (node.insert pattern rest) n.children,
        x.isWild = (isParam x.part || isStar x.part) ∧ Flagged x from
      Flagged.mk (fun c hc => (key c (by simpa using hc)).1)
        (fun c hc => (key c (by simpa using hc)).2)
    intro x hx
    rcases node.mem_insertInto hx with h | ⟨_, h⟩ | ⟨c, hc, h⟩
    · exact ⟨hn.flags x h, hn.children_flagged x h⟩
    · subst h
      exact ⟨by simp [node.newChild, isParam, isStar], ih _ (Flagged.of_newChild part)⟩
    · subst h
      have hmem := List.mem_of_find?_eq_some hc
      exact ⟨by simpa using hn.flags c hmem, ih _ (hn.children_flagged c hmem)⟩

/-- Every trie of a router built by `addRoute` calls is flagged. -/
theorem foldl_flagged {H : Type} :
    ∀ (calls : List (Route H)) (r : router H),
      (∀ m root, r.roots m = some root → Flagged root) →
      ∀ m root, (calls.foldl (fun r c => r.addRoute c.method c.pattern c.handler) r).roots m =
        some root → Flagged root := by
  intro calls
  induction calls with
  | nil => intro r hr; exact hr
  | cons c cs ih =>
    intro r hr
    apply ih
    intro m root hroot
    by_cases hm : m = c.method
    · subst hm
      rw [addRoute_roots_same] at hroot
      injection hroot with hroot
      subst hroot
      apply Flagged.insert_flagged
      cases h0 : r.roots c.method with
      | none => exact Flagged.mk (fun c hc => by simp at hc) (fun c hc => by simp at hc)
      | some root0 => exact hr _ root0 h0
    · rw [addRoute_roots_other _ _ _ _ hm] at hroot
      exact hr m root hroot

theorem find?_insertInto (a b : Str) (g : node → node)
    (hg : ∀ c, node.matchesPart a (g c) = node.matchesPart a c) :
    ∀ (cs : List node) (c : node), cs.find? (node.matchesPart a) = some c →
      (node.insertInto b g cs).find? (node.matchesPart a) = some c ∨
      (node.insertInto b g cs).find? (node.matchesPart a) = some (g c) := by
  intro cs
  induction cs with
  | nil => intro c h; simp at h
  | cons d cs ih =>
    intro c h
    by_cases hb : node.matchesPart b d = true
    · simp only [node.insertInto, hb, if_true]
      by_cases ha : node.matchesPart a d = true
      · simp only [List.find?, ha, Option.some.injEq] at h
        subst h
        right
        simp [List.find?, hg, ha]
      · simp only [Bool.not_eq_true] at ha
        simp only [List.find?, ha] at h
        left
        simp [List.find?, hg, ha, h]
    · simp only [Bool.not_eq_true] at hb
      simp only [node.insertInto, hb, Bool.false_eq_true, if_false]
      by_cases ha : node.matchesPart a d = true
      · simp only [List.find?, ha, Option.some.injEq] at h
        subst h
        left
        simp [List.find?, ha]
      · simp only [Bool.not_eq_true] at ha
        simp only [List.find?, ha] at h
        rcases ih c h with h1 | h1
        · left; simp [List.find?, ha, h1]
        · right; simp [List.find?, ha, h1]

theorem find?_insertInto_self (a : Str) (f : node → node)
    (hf : ∀ c, node.matchesPart a (f c) = node.matchesPart a c) :
    ∀ cs : List node, ∃ c0, (node.insertInto a f cs).find? (node.matchesPart a) = some (f c0) := by
  intro cs
  induction cs with
  | nil =>
    refine ⟨node.newChild a, ?_⟩
    have h : node.matchesPart a (f (node.newChild a)) = true := by
      rw [hf]; simp [node.matchesPart, node.newChild]
    simp [node.insertInto, List.find?, h]
  | cons d cs ih =>
    by_cases h : node.matchesPart a d = true
    · exact ⟨d, by simp [node.insertInto, List.find?, h, hf]⟩
    · simp only [Bool.not_eq_true] at h
      obtain ⟨c0, h0⟩ := ih
      exact ⟨c0, by simp [node.insertInto, List.find?, h, h0]⟩

theorem PathFor_congr {n n2 : node} (h : n2.children = n.children) :
    ∀ parts : List Str, PathFor parts n → PathFor parts n2 := by
  intro parts hp
  cases parts with
  | nil => trivial
  | cons a rest =>
    obtain ⟨c, hc, hrest⟩ := hp
    exact ⟨c, by rw [h]; exact hc, hrest⟩

/-- After an insertion the trie has every node that the same insertion walks. -/
theorem PathFor.after_insert (p : Str) :
    ∀ (parts : List Str) (n : node), PathFor parts (node.insert p parts n) := by
  intro parts
  induction parts with
  | nil => intro n; trivial
  | cons a rest ih =>
    intro n
    rw [node.insert_cons]
    obtain ⟨c0, h0⟩ := find?_insertInto_self a (node.insert p rest)
      (fun c => node.matchesPart_insert p a rest c) n.children
    exact ⟨_, by simpa using h0, ih c0⟩

/-- A later insertion keeps the nodes that an earlier one walks. -/
theorem PathFor.kept_by_insert (q : Str) :
    ∀ (parts2 parts : List Str) (n : node), PathFor parts n →
      PathFor parts (node.insert q parts2 n) := by
  intro parts2
  induction parts2 with
  | nil =>
    intro parts n h
    rw [node.insert_nil]
    exact PathFor_congr (by simp) parts h
  | cons b rest2 ih =>
    intro parts n h
    rw [node.insert_cons]
    cases parts with
    | nil => trivial
    | cons a rest =>
      obtain ⟨c, hc, hrest⟩ := h
      rcases find?_insertInto a b (node.insert q rest2)
        (fun c => node.matchesPart_insert q a rest2 c) n.children c hc with h1 | h1
      · exact ⟨c, by simpa using h1, hrest⟩
      · exact ⟨_, by simpa using h1, ih rest c hrest⟩

/-- When the child that an insertion of `a` walks into exists, an insertion of a
segment `b` that is the same, or like `a` a `:name` segment, walks into it. -/
theorem insertInto_same_child (a b : Str) (g1 g2 : node → node) (c1 : node)
    (hg : g2 c1 = g1 c1) (hab : a = b ∨ (isParam a = true ∧ isParam b = true)) :
    ∀ cs : List node, (∀ c ∈ cs, c.isWild = (isParam c.part || isStar c.part)) →
      cs.find? (node.matchesPart a) = some c1 →
      node.insertInto b g2 cs = node.insertInto a g1 cs := by
  intro cs
  induction cs with
  | nil => intro _ h; simp at h
  | cons d cs ih =>
    intro hflags hfind
    have hd := hflags d (List.mem_cons_self _ _)
    by_cases h : node.matchesPart a d = true
    · simp only [List.find?, h, Option.some.injEq] at hfind
      subst hfind
      have h2 : node.matchesPart b d = true := by
        rcases hab with e | ⟨ha, _⟩
        · subst e; exact h
        · rcases (matchesPart_iff a d).1 h with e | e
          · simp [node.matchesPart, hd, e, ha]
          · simp [node.matchesPart, e]
      simp [node.insertInto, h, h2, hg]
    · simp only [Bool.not_eq_true] at h
      simp only [List.find?, h] at hfind
      have h2 : node.matchesPart b d = false := by
        rcases hab with e | ⟨_, hb⟩
        · subst e; exact h
        · simp only [node.matchesPart, Bool.or_eq_false_iff, decide_eq_false_iff_not] at h ⊢
          refine ⟨fun e => ?_, h.2⟩
          rw [hd, e, hb] at h
          simp at h
      simp only [node.insertInto, h, h2, Bool.false_eq_true, if_false]
      rw [ih (fun c hc => hflags c (List.mem_cons_of_mem _ hc)) hfind]

/-- On a flagged trie that has the nodes for `parts1`, an insertion along
segments that differ from `parts1` in parameter names only walks those nodes. -/
theorem insert_along (q : Str) :
    ∀ (parts1 parts2 : List Str) (n : node), Flagged n → PathFor parts1 n →
      sameButParams parts1 parts2 = true →
      node.insert q parts2 n = node.insert q parts1 n := by
  intro parts1
  induction parts1 with
  | nil =>
    intro parts2 n _ _ h
    cases parts2 with
    | nil => rfl
    | cons b bs => simp [sameButParams] at h
  | cons a rest1 ih =>
    intro parts2 n hn hpath h
    cases parts2 with
    | nil => simp [sameButParams] at h
    | cons b rest2 =>
      simp only [sameButParams, Bool.and_eq_true, Bool.or_eq_true, decide_eq_true_eq] at h
      obtain ⟨hab, hrest⟩ := h
      obtain ⟨c1, hc1, hp1⟩ := hpath
      rw [node.insert_cons q b, node.insert_cons q a]
      rw [insertInto_same_child a b (node.insert q rest1) (node.insert q rest2) c1
        (ih rest2 c1 (hn.children_flagged c1 (List.mem_of_find?_eq_some hc1)) hp1 hrest) hab _ hn.flags hc1]

theorem map_skeleton_insertInto_found (a : Str) (f : node → node) (c1 : node)
    (hf : (f c1).skeleton = c1.skeleton) :
    ∀ cs : List node, cs.find? (node.matchesPart a) = some c1 →
      (node.insertInto a f cs).map node.skeleton = cs.map node.skeleton := by
  intro cs
  induction cs with
  | nil => intro h; simp at h
  | cons d cs ih =>
    intro h
    by_cases hd : node.matchesPart a d = true
    · simp only [List.find?, hd, Option.some.injEq] at h
      subst h
      simp [node.insertInto, hd, hf]
    · simp only [Bool.not_eq_true] at hd
      simp only [List.find?, hd] at h
      simp [node.insertInto, hd, ih h]

/-- An insertion into a trie that has all the nodes it walks creates no node:
only a stored pattern changes. -/
theorem skeleton_insert_along (q : Str) :
    ∀ (parts : List Str) (n : node), PathFor parts n →
      (node.insert q parts n).skeleton = n.skeleton := by
  intro parts
  induction parts with
  | nil =>
    intro n _
    cases n with
    | mk p part cs w => simp [node.insert_nil, skeleton_mk]
  | cons a rest ih =>
    intro n hpath
    obtain ⟨c1, hc1, hp1⟩ := hpath
    rw [node.insert_cons]
    cases n with
    | mk p part cs w =>
      simp only [skeleton_mk, node.pattern_mk, node.part_mk, node.children_mk,
        node.isWild_mk] at hc1 ⊢
      rw [map_skeleton_insertInto_found a _ c1 (ih c1 hp1) cs hc1]

theorem foldl_pathFor {H : Type} (m : Str) (parts : List Str) :
    ∀ (calls : List (Route H)) (r : router H),
      (∃ root, r.roots m = some root ∧ PathFor parts root) →
      ∃ root, (calls.foldl (fun r c => r.addRoute c.method c.pattern c.handler) r).roots m =
        some root ∧ PathFor parts root := by
  intro calls
  induction calls with
  | nil => intro r h; exact h
  | cons c cs ih =>
    intro r h
    apply ih
    obtain ⟨root, hroot, hpath⟩ := h
    by_cases hm : m = c.method
    · subst hm
      rw [addRoute_roots_same, hroot]
      exact ⟨_, rfl, PathFor.kept_by_insert _ _ _ _ hpath⟩
    · rw [addRoute_roots_other _ _ _ _ hm]
      exact ⟨root, hroot, hpath⟩

/-- C15. In a router built by `addRoute` calls in which `P1` was registered
under a method, when the parsed segments of `P2` are as many as those of `P1` and
equal to them at every position except positions where both have a `:name`
segment, registering `P2` under the same method creates no new trie node: it
walks the nodes that the registration of `P1` walked and ends at the node where
`P1` ended, so the trie keeps its nodes, parts, flags and child order, and the
stored pattern of that node becomes `P2`.  With `/p/:lang` then `/p/:id` the one
wild node keeps the part `:lang` and stores `/p/:id`. -/
theorem param_rename_collapses {H : Type} (before between : List (Route H))
    (m P1 P2 : Str) (h1 h2 : H)
    (hsame : sameButParams (parsePattern P1) (parsePattern P2) = true) :
    (∃ root, (buildRouter (before ++ Route.mk m P1 h1 :: between)).roots m = some root ∧
      ((buildRouter (before ++ Route.mk m P1 h1 :: between)).addRoute m P2 h2).roots m =
        some (node.insert P2 (parsePattern P1) root) ∧
      (node.insert P2 (parsePattern P1) root).skeleton = root.skeleton) ∧
    ((((buildRouter ([] : List (Route H))).addRoute "GET".toList "/p/:lang".toList
        h1).addRoute "GET".toList "/p/:id".toList h2).roots "GET".toList =
      some (node.mk [] [] [node.mk [] "p".toList
        [node.mk "/p/:id".toList ":lang".toList [] true] false] false)) := by
  refine ⟨?_, rfl⟩
  obtain ⟨root, hroot, hpath⟩ : ∃ root,
      (buildRouter (before ++ Route.mk m P1 h1 :: between)).roots m = some root ∧
        PathFor (parsePattern P1) root := by
    simp only [buildRouter, List.foldl_append, List.foldl_cons]
    apply foldl_pathFor
    exact ⟨_, addRoute_roots_same _ _ _ _, PathFor.after_insert _ _ _⟩
  have hflag : Flagged root :=
    foldl_flagged _ newRouter (fun m root h => by simp [newRouter] at h) m root hroot
  refine ⟨root, hroot, ?_, skeleton_insert_along _ _ _ hpath⟩
  rw [addRoute_roots_same, hroot]
  simp only [Option.getD_some, Option.some.injEq]
  exact insert_along P2 _ _ _ hflag hpath hsame

/-- C15 for `/p/:lang` registered under GET between `/p/doc` and `/q`, and then
`/p/:id`. -/
theorem param_rename_collapses_witness :
    sameButParams (parsePattern "/p/:lang".toList) (parsePattern "/p/:id".toList) = true ∧
    ∃ root, (buildRouter ([Route.mk "GET".toList "/p/doc".toList ()] ++
        Route.mk "GET".toList "/p/:lang".toList () ::
          [Route.mk "GET".toList "/q".toList ()])).roots "GET".toList = some root ∧
      ((buildRouter ([Route.mk "GET".toList "/p/doc".toList ()] ++
        Route.mk "GET".toList "/p/:lang".toList () ::
          [Route.mk "GET".toList "/q".toList ()])).addRoute "GET".toList
          "/p/:id".toList ()).roots "GET".toList =
        some (node.insert "/p/:id".toList (parsePattern "/p/:lang".toList) root) ∧
      (node.insert "/p/:id".toList (parsePattern "/p/:lang".toList) root).skeleton =
        root.skeleton :=
  ⟨by decide,
    (param_rename_collapses [Route.mk "GET".toList "/p/doc".toList ()]
      [Route.mk "GET".toList "/q".toList ()] "GET".toList
      "/p/:lang".toList "/p/:id".toList () () (by decide)).1⟩

/-! ## The segments of a request -/

theorem uptoStar_eq_self :
    ∀ l : List Str, (∀ s ∈ l.dropLast, isStar s = false) → uptoStar l = l := by
  intro l
  induction l with
  | nil => intro _; rfl
  | cons a l ih =>
    intro h
    cases l with
    | nil => simp [uptoStar]
    | cons b l =>
      have ha : isStar a = false := h a (by simp)
      have hrest : ∀ s ∈ (b :: l).dropLast, isStar s = false := by
        intro s hs
        exact h s (by simp only [List.dropLast_cons₂]; exact List.mem_cons_of_mem _ hs)
      simp only [uptoStar, ha, Bool.false_eq_true, if_false, List.cons.injEq, true_and]
      have := ih hrest
      simpa [uptoStar] using this

/-- For a request path none of whose segments before the last begins with `*`,
`parsePattern` returns all its segments. -/
theorem parsePattern_eq_segments (path : Str)
    (h : ∀ s ∈ (segments path).dropLast, isStar s = false) :
    parsePattern path = segments path := by
  unfold parsePattern
  rw [parseItems_eq_uptoStar]
  exact uptoStar_eq_self _ h

/-- C6, a defect of the code: `getRoute` cuts the request path off after its
first segment that begins with `*`, although the comment above the statement
says that it splits the path.  With `/assets/*filepath` registered, the request
`/assets/*v/y.css` has the segments `assets`, `*v` and `y.css`, of which those
from index 1 on joined by `/` are `*v/y.css`; `getRoute` binds `filepath` to
`*v`. -/
theorem wildcard_capture_truncated :
    ((buildRouter [Route.mk "GET".toList "/assets/*filepath".toList ()]).getRoute
        "GET".toList "/assets/*v/y.css".toList).map
        (fun o => o.map fun x => (x.1.pattern, x.2 "filepath".toList)) =
      some (some ("/assets/*filepath".toList, some "*v".toList)) ∧
    segments "/assets/*v/y.css".toList = ["assets".toList, "*v".toList, "y.css".toList] ∧
    Join ['/'] ((segments "/assets/*v/y.css".toList).drop 1) = "*v/y.css".toList ∧
    parsePattern "/assets/*v/y.css".toList = ["assets".toList, "*v".toList] := by
  decide

/-! ## Registration and lookup -/

theorem foldl_root_part {H : Type} :
    ∀ (calls : List (Route H)) (r : router H),
      (∀ m root, r.roots m = some root → root.part = []) →
      ∀ m root, (calls.foldl (fun r c => r.addRoute c.method c.pattern c.handler) r).roots m =
        some root → root.part = [] := by
  intro calls
  induction calls with
  | nil => intro r hr; exact hr
  | cons c cs ih =>
    intro r hr
    apply ih
    intro m root hroot
    by_cases hm : m = c.method
    · subst hm
      rw [addRoute_roots_same] at hroot
      injection hroot with hroot
      subst hroot
      cases h0 : r.roots c.method with
      | none => simp
      | some root0 => simpa using hr _ root0 h0
    · rw [addRoute_roots_other _ _ _ _ hm] at hroot
      exact hr m root hroot

/-- In a router built by `addRoute` calls the trie of a method has every node
that the registration of a pattern registered under the method walks. -/
theorem registered_pathFor {H : Type} (calls : List (Route H)) (M P : Str)
    (hreg : Registered calls M P) :
    ∃ root, (buildRouter calls).roots M = some root ∧ PathFor (parsePattern P) root := by
  obtain ⟨c, hc, hm, hp⟩ := hreg
  obtain ⟨before, after, e⟩ := List.append_of_mem hc
  subst e
  unfold buildRouter
  rw [List.foldl_append, List.foldl_cons]
  apply foldl_pathFor
  subst hm
  subst hp
  rw [addRoute_roots_same]
  exact ⟨_, rfl, PathFor.after_insert _ _ _⟩

theorem walk_of_pathFor :
    ∀ (parts : List Str) (n : node), PathFor parts n → ∃ m, n.walk parts = some m := by
  intro parts
  induction parts with
  | nil => intro n _; exact ⟨n, rfl⟩
  | cons a rest ih =>
    intro n h
    obtain ⟨c, hc, hrest⟩ := h
    obtain ⟨m, hm⟩ := ih c hrest
    exact ⟨m, by simp only [node.walk, node.matchChild, hc, hm]⟩

/-- The node at which an insertion of the segments of a pattern ends is the end
of a downward path of `search` for every path with the shape of the pattern,
when the insertion descends into a `*` node exactly for a `*` segment. -/
theorem walk_descends :
    ∀ (parts segs : List Str) (n nk : node), Flagged n → isStar n.part = false →
      node.starFit parts n = true → matchesShape parts segs = true →
      n.walk parts = some nk → Descends segs n nk := by
  intro parts
  induction parts with
  | nil =>
    intro segs n nk _ _ _ hshape hwalk
    cases segs with
    | nil =>
      simp only [node.walk, Option.some.injEq] at hwalk
      subst hwalk
      exact Descends.atEnd _
    | cons s ss => simp [matchesShape] at hshape
  | cons p ps ih =>
    intro segs n nk hn hns hfit hshape hwalk
    cases segs with
    | nil => simp [matchesShape] at hshape
    | cons s ss =>
      cases hc : n.matchChild p with
      | none => simp [node.walk, hc] at hwalk
      | some c =>
        simp only [node.walk, hc] at hwalk
        simp only [node.starFit, hc, Bool.and_eq_true, beq_iff_eq] at hfit
        have hmem : c ∈ n.children := List.mem_of_find?_eq_some hc
        have hmp : node.matchesPart p c = true := by
          have := List.find?_some hc
          simpa using this
        have hflag := hn.flags c hmem
        simp only [matchesShape] at hshape
        by_cases hps : isStar p = true
        · simp only [hps, if_true, List.isEmpty_iff] at hshape
          subst hshape
          simp only [node.walk, Option.some.injEq] at hwalk
          subst hwalk
          have hcs : isStar c.part = true := by rw [hfit.1]; exact hps
          refine Descends.step hns hmem (Or.inr ?_) (Descends.atStar _ _ hcs)
          rw [hflag, hcs]; simp
        · simp only [hps, Bool.false_eq_true, if_false, Bool.and_eq_true, Bool.or_eq_true,
            decide_eq_true_eq] at hshape
          have hcs : isStar c.part = false := by
            rw [hfit.1]; simpa using hps
          have hmatch : c.part = s ∨ c.isWild = true := by
            by_cases hw : c.isWild = true
            · exact Or.inr hw
            · left
              have h1 : c.part = p := by
                simpa [node.matchesPart, hw] using hmp
              rw [hflag, h1] at hw
              rcases hshape.1 with h2 | h2
              · simp [h2] at hw
              · rw [h1]; exact h2
          exact Descends.step hns hmem hmatch
            (ih ss c nk (hn.children_flagged c hmem) hcs hfit.2 hshape.2 hwalk)

/-- C1, refuted as stated.  Three failures follow from how the trie is built and
searched.  With `/p/:lang` and then `/p/:id` registered, the second registration
overwrites the node of the first, and for the path `/p/go`, which has the shape
of `/p/:lang`, the parameter map has no binding for `lang`.  With `/a/b` and
`/a/:x` registered, the path `/a/b` has the shape of `/a/:x`, but the node of
`/a/b` answers first and `x` is not bound.  With `/a/:y` and then `/a/*x`
registered, the second registration descends into the `:y` node, and the path
`/a/b/c`, which has the shape of `/a/*x`, is not found.  A fourth failure comes
from the defect that `getRoute` cuts the request path off after a segment that
begins with `*`: with `/a/:x/c` alone registered, the path `/a/*q/c` has its
shape and is not found. -/
theorem round_trip_counterexample :
    (matchesShape (parsePattern "/p/:lang".toList) (segments "/p/go".toList) = true ∧
      ((buildRouter [Route.mk "GET".toList "/p/:lang".toList (), Route.mk "GET".toList
          "/p/:id".toList ()]).getRoute "GET".toList "/p/go".toList).map
          (fun o => o.map fun x => (x.1.pattern, x.2 "lang".toList, x.2 "id".toList)) =
        some (some ("/p/:id".toList, none, some "go".toList))) ∧
    (matchesShape (parsePattern "/a/:x".toList) (segments "/a/b".toList) = true ∧
      ((buildRouter [Route.mk "GET".toList "/a/b".toList (), Route.mk "GET".toList
          "/a/:x".toList ()]).getRoute "GET".toList "/a/b".toList).map
          (fun o => o.map fun x => (x.1.pattern, x.2 "x".toList)) =
        some (some ("/a/b".toList, none))) ∧
    (matchesShape (parsePattern "/a/*x".toList) (segments "/a/b/c".toList) = true ∧
      (buildRouter [Route.mk "GET".toList "/a/:y".toList (), Route.mk "GET".toList
          "/a/*x".toList ()]).getRoute "GET".toList "/a/b/c".toList = some none) ∧
    (matchesShape (parsePattern "/a/:x/c".toList) (segments "/a/*q/c".toList) = true ∧
      (buildRouter [Route.mk "GET".toList "/a/:x/c".toList ()]).getRoute "GET".toList
          "/a/*q/c".toList = some none) := by
  refine ⟨⟨by decide, by decide⟩, ⟨by decide, by decide⟩, ⟨by decide, rfl⟩, by decide, rfl⟩

/-- C1, amended. Take a router built by `addRoute` calls, a pattern `P`
registered under method `M` and a request path none of whose segments before the
last begins with `*`, whose segments have the shape of `P`.  Suppose that the
node at which the registration of `P` ended was not overwritten (it still
stores a pattern with the parsed segments of `P`), that the registration
descended into a `*` node exactly for the `*` segment of `P`, and that no other
route answers the path (every node at which the search for the path can end
stores a pattern with the parsed segments of `P`).  Then `getRoute(M, path)`
returns a match, on a node that stores a pattern with the parsed segments of
`P`, and the parameter map binds each `:name` of `P`, unless a later segment
rebinds the name, to the path segment at its position, and the `*name` of `P` to
the remaining segments joined by `/`. -/
theorem registered_route_matches {H : Type} (calls : List (Route H)) (M P path : Str)
    (hreg : Registered calls M P)
    (hkept : (buildRouter calls).overwritten M P = false)
    (hfit : (buildRouter calls).starFits M P = true)
    (hpath : ∀ s ∈ (segments path).dropLast, isStar s = false)
    (hshape : matchesShape (parsePattern P) (segments path) = true)
    (honly : (buildRouter calls).answersOnly M path P = true) :
    ∃ n params, (buildRouter calls).getRoute M path = some (some (n, params)) ∧
      parsePattern n.pattern = parsePattern P ∧
      (∀ j name, (parsePattern P).get? j = some (':' :: name) →
        (∀ k q, j < k → (parsePattern P).get? k = some q → ¬ bindsName q name) →
        ∃ v, (segments path).get? j = some v ∧ params name = some v) ∧
      (∀ j name, (parsePattern P).get? j = some ('*' :: name) → name ≠ [] →
        params name = some (Join ['/'] ((segments path).drop j))) := by
  obtain ⟨root, hroot, hpf⟩ := registered_pathFor calls M P hreg
  obtain ⟨nk, hwalk⟩ := walk_of_pathFor _ root hpf
  have hflag : Flagged root :=
    foldl_flagged calls newRouter (by intro m r h; simp [newRouter] at h) M root hroot
  have hpart : root.part = [] :=
    foldl_root_part calls newRouter (by intro m r h; simp [newRouter] at h) M root hroot
  simp only [router.overwritten, hroot, hwalk, decide_eq_false_iff_not, not_or, not_not] at hkept
  simp only [router.starFits, hroot] at hfit
  simp only [router.answersOnly, hroot, List.all_eq_true, decide_eq_true_eq] at honly
  have hd : Descends (segments path) root nk :=
    walk_descends _ _ root nk hflag (by simp [hpart, isStar]) hfit hshape hwalk
  have hmem : nk ∈ root.allMatches (segments path) := (mem_allMatches _ _ _).2 ⟨hd, hkept.1⟩
  have hsegs := parsePattern_eq_segments path hpath
  obtain ⟨n, hn⟩ : ∃ n, root.search (segments path) = some n := by
    rw [search_eq_head?]
    cases h : root.allMatches (segments path) with
    | nil => rw [h] at hmem; cases hmem
    | cons a l => exact ⟨a, rfl⟩
  have hnm : n ∈ root.allMatches (segments path) := by
    rw [search_eq_head?] at hn
    exact List.mem_of_mem_head? hn
  have hparse := honly n hnm
  rw [← hsegs] at hn
  obtain ⟨params, hget, hb⟩ := built_getRoute calls hroot hn
  rw [hparse, hsegs] at hb
  refine ⟨n, params, hget, hparse, ?_, ?_⟩
  · intro j name hj hlater
    have := bindParams_at_colon (segments path) name _ 0 j _ _ hb
      (parsePattern_starLast _) hj hlater
    simpa using this
  · intro j name hj hname
    have := bindParams_at_star (segments path) name hname _ 0 j _ _ hb
      (parsePattern_starLast _) hj
    simpa using this

/-- C1, amended, for `/hello/:name` and then `/hello/b/c` registered under GET,
where the second registration descends into the `:name` node: the pattern
`/hello/b/c` and the path `/hello/b/c`. -/
theorem registered_route_matches_witness :
    ∃ n params, (buildRouter [Route.mk "GET".toList "/hello/:name".toList (),
        Route.mk "GET".toList "/hello/b/c".toList ()]).getRoute "GET".toList
          "/hello/b/c".toList = some (some (n, params)) ∧
      parsePattern n.pattern = parsePattern "/hello/b/c".toList :=
  (registered_route_matches [Route.mk "GET".toList "/hello/:name".toList (),
      Route.mk "GET".toList "/hello/b/c".toList ()] "GET".toList
    "/hello/b/c".toList "/hello/b/c".toList
    ⟨_, List.mem_cons_of_mem _ (List.mem_cons_self _ _), rfl, rfl⟩
    (by decide) (by decide) (by decide) (by decide) (by decide)).imp
    fun n h => h.imp fun params h2 => ⟨h2.1, h2.2.1⟩
/-! ## Tries built without stand-ins of another kind -/

theorem sameKind_self (a : Str) : sameKind a a = true := by simp [sameKind]

theorem sameKinds_snoc :
    ∀ (as bs : List Str) (a b : Str), sameKinds as bs = true → sameKind a b = true →
      sameKinds (as ++ [a]) (bs ++ [b]) = true := by
  intro as
  induction as with
  | nil =>
    intro bs a b h hab
    cases bs with
    | nil => simp [sameKinds, hab]
    | cons y bs => simp [sameKinds] at h
  | cons x as ih =>
    intro bs a b h hab
    cases bs with
    | nil => simp [sameKinds] at h
    | cons y bs =>
      simp only [sameKinds, Bool.and_eq_true] at h
      simp only [List.cons_append, sameKinds, Bool.and_eq_true]
      exact ⟨h.1, ih bs a b h.2 hab⟩

theorem not_param_and_star (p : Str) : ¬ (isParam p = true ∧ isStar p = true) := by
  rintro ⟨h1, h2⟩
  simp only [isParam, isStar, decide_eq_true_eq] at h1 h2
  rw [h1] at h2
  cases h2

/-- A path with the shape of the parts on the way to a node has the shape of
every pattern with segments of the same kinds. -/
theorem matchesShape_of_sameKinds :
    ∀ (qs ps segs : List Str), sameKinds qs ps = true → matchesShape ps segs = true →
      matchesShape qs segs = true := by
  intro qs
  induction qs with
  | nil =>
    intro ps segs hk hs
    cases ps with
    | nil => exact hs
    | cons p ps => simp [sameKinds] at hk
  | cons q qs ih =>
    intro ps segs hk hs
    cases ps with
    | nil => simp [sameKinds] at hk
    | cons p ps =>
      cases segs with
      | nil => simp [matchesShape] at hs
      | cons s ss =>
        simp only [sameKinds, Bool.and_eq_true] at hk
        obtain ⟨hk1, hk2⟩ := hk
        simp only [matchesShape] at hs ⊢
        simp only [sameKind, Bool.or_eq_true, Bool.and_eq_true, decide_eq_true_eq] at hk1
        by_cases hps : isStar p = true
        · simp only [hps, if_true, List.isEmpty_iff] at hs
          subst hs
          have hqs : qs = [] := by
            cases qs with
            | nil => rfl
            | cons x xs => simp [sameKinds] at hk2
          have hq : isStar q = true := by
            rcases hk1 with (h | h) | h
            · rw [h]; exact hps
            · exact absurd ⟨h.2, hps⟩ (not_param_and_star p)
            · exact h.1
          simp [hq, hqs]
        · simp only [hps, Bool.false_eq_true, if_false, Bool.and_eq_true, Bool.or_eq_true,
            decide_eq_true_eq] at hs
          have hq : isStar q = false ∧ (isParam q = true ∨ q = s) := by
            rcases hk1 with (h | h) | h
            · subst h
              exact ⟨by simpa using hps, hs.1⟩
            · refine ⟨?_, Or.inl h.1⟩
              cases hq : isStar q with
              | false => rfl
              | true => exact absurd ⟨h.1, hq⟩ (not_param_and_star q)
            · exact absurd h.2 hps
          simp only [hq.1, Bool.false_eq_true, if_false, Bool.and_eq_true, Bool.or_eq_true,
            decide_eq_true_eq]
          exact ⟨hq.2, ih ps ss hk2 hs.2⟩

theorem Fitting.stored_fits {reg : Str → Prop} {pre : List Str} {n : node}
    (h : Fitting reg pre n) :
    n.pattern ≠ [] → reg n.pattern ∧ sameKinds (parsePattern n.pattern) pre = true := by
  cases h with
  | mk h1 h2 _ _ => exact fun hp => ⟨h1 hp, h2 hp⟩

theorem Fitting.kids_fit {reg : Str → Prop} {pre : List Str} {n : node}
    (h : Fitting reg pre n) :
    ∀ c ∈ n.children, c.isWild = (isParam c.part || isStar c.part) ∧
      Fitting reg (pre ++ [c.part]) c := by
  cases h with
  | mk _ _ h2 h3 => exact fun c hc => ⟨h2 c hc, h3 c hc⟩

theorem Fitting.widen {reg reg2 : Str → Prop} (hreg : ∀ p, reg p → reg2 p) :
    ∀ {pre : List Str} {n : node}, Fitting reg pre n → Fitting reg2 pre n := by
  intro pre n h
  induction h with
  | mk h1 h2 h3 _ ih => exact Fitting.mk (fun hp => hreg _ (h1 hp)) h2 h3 ih

theorem Fitting.of_fresh (reg : Str → Prop) (pre : List Str) (part : Str) :
    Fitting reg pre (node.newChild part) :=
  Fitting.mk (fun h => absurd rfl h) (fun h => absurd rfl h)
    (fun c hc => by simp [node.newChild] at hc) (fun c hc => by simp [node.newChild] at hc)

theorem misfits_newChild (parts : List Str) (part : Str) :
    node.misfits parts (node.newChild part) = false := by
  cases parts <;> simp [node.misfits, node.newChild, node.matchChild]

theorem misfits_empty (parts : List Str) :
    node.misfits parts (node.mk [] [] [] false) = false := by
  cases parts <;> simp [node.misfits, node.matchChild]

theorem misfits_cons_some {part : Str} {rest : List Str} {n c : node}
    (hc : n.children.find? (node.matchesPart part) = some c)
    (h : node.misfits (part :: rest) n = false) :
    sameKind part c.part = true ∧ node.misfits rest c = false := by
  simp only [node.misfits, node.matchChild, hc, Bool.or_eq_false_iff, Bool.not_eq_false'] at h
  exact h

/-- An insertion that descends into no child of another kind keeps the trie
fitting. -/
theorem Fitting.insert_fitting {reg : Str → Prop} (pattern : Str) (hreg : reg pattern) :
    ∀ (parts done pre : List Str) (n : node), Fitting reg pre n →
      parsePattern pattern = done ++ parts → sameKinds done pre = true →
      node.misfits parts n = false →
      Fitting reg pre (node.insert pattern parts n) := by
  intro parts
  induction parts with
  | nil =>
    intro done pre n hn hparse hk _
    rw [node.insert_nil]
    exact Fitting.mk (fun _ => hreg)
      (fun _ => by
        have e : parsePattern pattern = done := by simpa using hparse
        simpa [e] using hk)
      (fun c hc => (hn.kids_fit c (by simpa using hc)).1)
      (fun c hc => (hn.kids_fit c (by simpa using hc)).2)
  | cons part rest ih =>
    intro done pre n hn hparse hk hmis
    rw [node.insert_cons]
    have hparse2 : parsePattern pattern = (done ++ [part]) ++ rest := by simpa using hparse
    suffices key : ∀ x ∈ node.insertInto part (node.insert pattern rest) n.children,
        x.isWild = (isParam x.part || isStar x.part) ∧ Fitting reg (pre ++ [x.part]) x from
      Fitting.mk (by simpa using fun hp => (hn.stored_fits hp).1)
        (by simpa using fun hp => (hn.stored_fits hp).2)
        (fun c hc => (key c (by simpa using hc)).1)
        (fun c hc => (key c (by simpa using hc)).2)
    intro x hx
    rcases node.mem_insertInto hx with h | ⟨_, h⟩ | ⟨c, hc, h⟩
    · exact hn.kids_fit x h
    · subst h
      refine ⟨by simp [node.newChild, isParam, isStar], ?_⟩
      have e : (node.insert pattern rest (node.newChild part)).part = part := by
        simp [node.newChild]
      rw [e]
      exact ih _ _ _ (Fitting.of_fresh reg _ part) hparse2
        (sameKinds_snoc _ _ _ _ hk (sameKind_self part)) (misfits_newChild _ _)
    · subst h
      obtain ⟨hkind, hmis2⟩ := misfits_cons_some hc hmis
      have hmem := List.mem_of_find?_eq_some hc
      refine ⟨by simpa using (hn.kids_fit c hmem).1, ?_⟩
      have e : (node.insert pattern rest c).part = c.part := by simp
      rw [e]
      exact ih _ _ _ (hn.kids_fit c hmem).2 hparse2 (sameKinds_snoc _ _ _ _ hk hkind) hmis2

/-- On a fitting trie a node returned by `search` stores a registered pattern
whose shape the path has. -/
theorem search_fitting {reg : Str → Prop} :
    ∀ (segs pre : List Str) (n m : node), Fitting reg pre n → isStar n.part = false →
      node.search segs n = some m →
      ∃ post, sameKinds (parsePattern m.pattern) (pre ++ post) = true ∧ reg m.pattern ∧
        matchesShape post segs = true := by
  intro segs
  induction segs with
  | nil =>
    intro pre n m hn _ h
    rw [search_nil] at h
    split at h
    · cases h
    · rename_i hp
      injection h with h
      subst h
      exact ⟨[], by simpa using (hn.stored_fits hp).2, (hn.stored_fits hp).1, rfl⟩
  | cons s ss ih =>
    intro pre n m hn hns h
    rw [search_cons] at h
    simp only [hns, Bool.false_eq_true, if_false] at h
    obtain ⟨c, hc, hcm⟩ := List.exists_of_findSome?_eq_some h
    obtain ⟨hc1, hmatch⟩ := List.mem_filter.1 hc
    obtain ⟨hflag, hfc⟩ := hn.kids_fit c hc1
    by_cases hcs : isStar c.part = true
    · have e := search_star_eq hcs hcm
      subst e
      have hp := search_pattern_ne_nil _ _ _ hcm
      exact ⟨[m.part], (hfc.stored_fits hp).2, (hfc.stored_fits hp).1, by simp [matchesShape, hcs]⟩
    · simp only [Bool.not_eq_true] at hcs
      obtain ⟨post, h1, h2, h3⟩ := ih _ c m hfc hcs hcm
      refine ⟨c.part :: post, by simpa using h1, h2, ?_⟩
      simp only [matchesShape, hcs, Bool.false_eq_true, if_false, h3, Bool.and_true,
        Bool.or_eq_true, decide_eq_true_eq]
      simp only [node.matchesPart, hflag, hcs, Bool.or_false, Bool.or_eq_true,
        decide_eq_true_eq] at hmatch
      exact hmatch.symm

theorem TrieFits.widen_reg {H : Type} {r : router H} {method : Str} {reg reg2 : Str → Prop}
    (h : TrieFits r method reg) (hreg : ∀ p, reg p → reg2 p) : TrieFits r method reg2 :=
  fun root hroot => ⟨(h root hroot).1, (h root hroot).2.widen hreg⟩

theorem kindFree_cons {H : Type} {method : Str} {r : router H} {c : Route H}
    {cs : List (Route H)} (h : kindFree method r (c :: cs) = true) :
    (c.method = method →
      node.misfits (parsePattern c.pattern)
        ((r.roots method).getD (node.mk [] [] [] false)) = false) ∧
    kindFree method (r.addRoute c.method c.pattern c.handler) cs = true := by
  simp only [kindFree, Bool.and_eq_true] at h
  refine ⟨fun hm => ?_, h.2⟩
  have h1 := h.1
  simp only [hm, if_true, Bool.not_eq_true'] at h1
  exact h1

theorem addRoute_trieFits {H : Type} {r : router H} {method : Str} {reg : Str → Prop}
    (hr : TrieFits r method reg) (c : Route H)
    (hkind : c.method = method →
      node.misfits (parsePattern c.pattern)
        ((r.roots method).getD (node.mk [] [] [] false)) = false) :
    TrieFits (r.addRoute c.method c.pattern c.handler) method
      (fun p => reg p ∨ (c.method = method ∧ c.pattern = p)) := by
  intro root hroot
  by_cases hm : c.method = method
  · rw [hm, addRoute_roots_same] at hroot
    injection hroot with hroot
    subst hroot
    have h0 : ((r.roots method).getD (node.mk [] [] [] false)).part = [] ∧
        Fitting (fun p => reg p ∨ (c.method = method ∧ c.pattern = p)) []
          ((r.roots method).getD (node.mk [] [] [] false)) := by
      cases h : r.roots method with
      | none =>
        exact ⟨rfl, Fitting.mk (fun hh => absurd rfl hh) (fun hh => absurd rfl hh)
          (fun c hc => by simp at hc) (fun c hc => by simp at hc)⟩
      | some root0 => exact ⟨(hr root0 h).1, (hr root0 h).2.widen (fun p hp => Or.inl hp)⟩
    refine ⟨by simpa using h0.1, ?_⟩
    exact Fitting.insert_fitting c.pattern (Or.inr ⟨hm, rfl⟩) _ [] [] _ h0.2 (by simp) rfl
      (hkind hm)
  · rw [addRoute_roots_other _ _ _ _ (fun e => hm e.symm)] at hroot
    exact ⟨(hr root hroot).1, (hr root hroot).2.widen (fun p hp => Or.inl hp)⟩

theorem foldl_trieFits {H : Type} (method : Str) :
    ∀ (calls : List (Route H)) (r : router H) (reg : Str → Prop), TrieFits r method reg →
      kindFree method r calls = true →
      TrieFits (calls.foldl (fun r c => r.addRoute c.method c.pattern c.handler) r) method
        (fun p => reg p ∨ Registered calls method p) := by
  intro calls
  induction calls with
  | nil => intro r reg hr _; exact hr.widen_reg (fun p hp => Or.inl hp)
  | cons c cs ih =>
    intro r reg hr hkind
    obtain ⟨h1, h2⟩ := kindFree_cons hkind
    refine (ih _ _ (addRoute_trieFits hr c h1) h2).widen_reg ?_
    rintro p ((hp | ⟨hm, hp⟩) | ⟨d, hd, hp⟩)
    · exact Or.inl hp
    · exact Or.inr ⟨c, List.mem_cons_self _ _, hm, hp⟩
    · exact Or.inr ⟨d, List.mem_cons_of_mem _ hd, hp⟩

/-- In a router built without stand-ins of another kind under `method`, a node
found by `search` stores a pattern registered under `method` whose shape the
path has. -/
theorem built_fitting {H : Type} (calls : List (Route H)) (method : Str)
    (hkind : kindFree method newRouter calls = true) {root n : node} {segs : List Str}
    (hroot : (buildRouter calls).roots method = some root)
    (hn : root.search segs = some n) :
    Registered calls method n.pattern ∧ matchesShape (parsePattern n.pattern) segs = true := by
  have h0 : TrieFits (newRouter : router H) method (fun _ => False) := by
    intro root h; simp [newRouter] at h
  obtain ⟨hpart, hf⟩ := foldl_trieFits method calls _ _ h0 hkind root hroot
  obtain ⟨post, h1, h2, h3⟩ := search_fitting segs [] root n hf (by simp [hpart, isStar]) hn
  rcases h2 with h2 | h2
  · exact absurd h2 id
  · exact ⟨h2, matchesShape_of_sameKinds _ _ _ (by simpa using h1) h3⟩

/-- C2, refuted as stated.  With `/:x/b` and then `/c/d` registered under GET, the
second registration descends into the `:x` node standing in for `c`, and the
path `/e/d`, which has the shape of neither pattern, is answered by the node
that stores `/c/d`.  A second failure comes from the defect that `getRoute` cuts
the request path off after a segment that begins with `*`: with `/a/:x` alone
registered, the path `/a/*q/anything/else`, which has four segments, is
answered by the node that stores `/a/:x`. -/
theorem miss_counterexample :
    (matchesShape (parsePattern "/:x/b".toList) (segments "/e/d".toList) = false ∧
      matchesShape (parsePattern "/c/d".toList) (segments "/e/d".toList) = false ∧
      ((buildRouter [Route.mk "GET".toList "/:x/b".toList (), Route.mk "GET".toList
          "/c/d".toList ()]).getRoute "GET".toList "/e/d".toList).map
          (fun o => o.map fun x => x.1.pattern) = some (some "/c/d".toList)) ∧
    (matchesShape (parsePattern "/a/:x".toList)
        (segments "/a/*q/anything/else".toList) = false ∧
      ((buildRouter [Route.mk "GET".toList "/a/:x".toList ()]).getRoute "GET".toList
          "/a/*q/anything/else".toList).map
          (fun o => o.map fun x => (x.1.pattern, x.2 "x".toList)) =
        some (some ("/a/:x".toList, some "*q".toList))) := by
  decide

/-- C2, amended. In a router built by `addRoute` calls of which none under
method `M` descended into a child standing in for a segment of another kind (a
`:name` or `*name` child for a literal segment, a `*name` child for a `:name`
segment or the other way round), `getRoute(M, path)` returns the no-match
result `(nil, nil)` for every request path none of whose segments before the
last begins with `*` and whose segments have the shape of no pattern registered
under `M`. -/
theorem unmatched_path_misses {H : Type} (calls : List (Route H)) (M path : Str)
    (hkind : kindFree M newRouter calls = true)
    (hpath : ∀ s ∈ (segments path).dropLast, isStar s = false)
    (hnone : ∀ Q, Registered calls M Q →
      matchesShape (parsePattern Q) (segments path) = false) :
    (buildRouter calls).getRoute M path = some none := by
  have hsegs := parsePattern_eq_segments path hpath
  cases hroot : (buildRouter calls).roots M with
  | none => simp [router.getRoute, hroot]
  | some root =>
    cases hn : root.search (parsePattern path) with
    | none => exact getRoute_of_search_none hroot hn
    | some n =>
      obtain ⟨hr, hs⟩ := built_fitting calls M hkind hroot hn
      rw [hsegs, hnone _ hr] at hs
      cases hs

/-- C2, amended, for `/a/:x/c` and then `/a/:y/d` registered under GET, where the
second registration descends into the `:x` node: the path `/a/foo/e` misses. -/
theorem unmatched_path_misses_witness :
    kindFree "GET".toList newRouter [Route.mk "GET".toList "/a/:x/c".toList (),
      Route.mk "GET".toList "/a/:y/d".toList ()] = true ∧
    (buildRouter [Route.mk "GET".toList "/a/:x/c".toList (),
      Route.mk "GET".toList "/a/:y/d".toList ()]).getRoute "GET".toList
      "/a/foo/e".toList = some none :=
  ⟨by decide,
    unmatched_path_misses [Route.mk "GET".toList "/a/:x/c".toList (),
      Route.mk "GET".toList "/a/:y/d".toList ()] "GET".toList
      "/a/foo/e".toList (by decide) (by decide)
      (by
        rintro Q ⟨c, hc, _, hQ⟩
        simp only [List.mem_cons, List.mem_singleton, List.not_mem_nil, or_false] at hc
        rcases hc with e | e <;> subst e <;> subst hQ <;> decide)⟩

end Gee
